import Mathlib

/-!
Thread-safe containers: sequential semantics and verified properties

A shallow embedding of the containers of `almostdutch/threadsafe-containers`
(`src/queue/include/threadsafe_queue{1,2,3,4}.h`,
`src/stack/include/threadsafe_stack{1,2,3}.h`).

Modelling conventions

* `std::unique_ptr<Element>` / `ElementPtr` is `Option E`; `nullptr` is `none`.
* A pointer to a `Node` is `Ptr = Option Nat`: `none` is `nullptr`, `some a` is
  the address `a` of a cell of the `Heap`.
* `new` / `make_unique<Node>` / `make_shared<Node>` is `Heap.alloc`, a bump
  allocator: the new address is the number of cells allocated so far.
* Dereferencing a null or dangling pointer is undefined behaviour in C++; in
  the model it is the explicit result `Exec.fault Fault.invalidPointer`.
* Where calls are executed one at a time, the mutexes and the condition variable
  carry no state; a `waitPop` whose wait predicate is false never returns and
  is the explicit result `Exec.fault Fault.blocked`.
* A member that is ill-formed when it is instantiated has no behaviour; a call
  of it is the explicit result `Exec.fault Fault.illFormed`.
* Where calls run concurrently (`Queue3Threads`, `Queue2Threads`), a state holds
  the position of every thread in its call, a step executes the next statement
  or the next access to shared memory of one thread, and a schedule is the list
  of the threads that step; every step takes effect at once for all threads.
* The compare-and-swap retry loops are recursive functions with a fuel
  argument bounding the number of iterations; exhausting the fuel is
  `Exec.fault Fault.outOfFuel`.
-/

namespace ThreadsafeContainers

/-! ## Execution results -/

/-- Reasons for which a modelled call yields no result. -/
inductive Fault
  | invalidPointer
  | blocked
  | outOfFuel
  | illFormed
deriving DecidableEq, Repr

/-- Result of running a modelled call: a value, or the reason there is none. -/
inductive Exec (α : Type)
  | ok (a : α)
  | fault (f : Fault)
deriving DecidableEq, Repr

namespace Exec

/-- Sequencing of two modelled statements. -/
def bind {α β : Type} (x : Exec α) (f : α → Exec β) : Exec β :=
  match x with
  | ok a => f a
  | fault e => fault e

instance : Monad Exec where
  pure := Exec.ok
  bind := Exec.bind

end Exec

/-! ## Nodes and the heap -/

/-- A possibly null pointer to a heap cell. -/
abbrev Ptr := Option Nat

/-- The `struct Node` shared by the list based containers:
`ElementPtr m_data; NodePtr next;`. -/
structure Node (E : Type) where
  m_data : Option E
  next : Ptr
deriving DecidableEq, Repr

namespace Node

/-- The constructor `Node()`: `m_data(nullptr), next(nullptr)`. -/
def empty {E : Type} : Node E := ⟨none, none⟩

/-- The constructors `Node(const Element&)` and `Node(Element&&)`:
`m_data(std::make_unique<Element>(element)), next(nullptr)`. -/
def ofElement {E : Type} (element : E) : Node E := ⟨some element, none⟩

end Node

/-- The heap of `Node` cells; a cell is `none` once its node is destroyed. -/
structure Heap (E : Type) where
  cells : List (Option (Node E))
deriving DecidableEq, Repr

namespace Heap

variable {E : Type}

/-- Read through a pointer: `*p`. -/
def read (h : Heap E) (p : Ptr) : Exec (Node E) :=
  match p with
  | none => .fault .invalidPointer
  | some a =>
    match h.cells[a]? with
    | some (some n) => .ok n
    | _ => .fault .invalidPointer

/-- Overwrite the cell at address `a`. -/
def write (h : Heap E) (a : Nat) (n : Node E) : Heap E :=
  ⟨h.cells.set a (some n)⟩

/-- Allocate a new cell holding `n`; returns its address and the new heap. -/
def alloc (h : Heap E) (n : Node E) : Nat × Heap E :=
  (h.cells.length, ⟨h.cells ++ [some n]⟩)

/-- Mark the cell at address `a` as destroyed. -/
def free (h : Heap E) (a : Nat) : Heap E :=
  ⟨h.cells.set a none⟩

/-- Destruction of the node owned by a `std::unique_ptr<Node>` (`~Node() = default`):
the node is destroyed together with the chain its `next` member owns. -/
def releaseAux : Nat → Ptr → Heap E → Heap E
  | 0, _, h => h
  | _ + 1, none, h => h
  | fuel + 1, some a, h =>
    match h.read (some a) with
    | .ok n => releaseAux fuel n.next (h.free a)
    | .fault _ => h

/-- Release of the pointee of a `std::unique_ptr<Node>`; every step destroys a live
cell, so the number of cells bounds the recursion. -/
def release (p : Ptr) (h : Heap E) : Heap E :=
  releaseAux h.cells.length p h

end Heap

/-! ## Argument packs of `emplace` -/

/-- The argument packs `pars...` that `emplace` is called with: the empty pack, or a
non-empty pack, given by the value `element` that `Element(pars...)` constructs from it.
Where `emplace` forwards the pack to a constructor of `Node` (`ThreadSafeQueue2`,
`ThreadSafeStack2`), the only non-empty packs that compile have one argument, which is
converted to `Element`. -/
inductive Pars (E : Type)
  | none
  | one (element : E)
deriving DecidableEq, Repr

/-- The value `Element(pars...)` built by `std::make_unique<Element>(pars...)`:
the empty pack value-initialises the element. -/
def Pars.toElement {E : Type} [Inhabited E] : Pars E → E
  | .none => default
  | .one element => element

/-- The node built by `std::make_unique<Node>(pars...)` /
`std::make_shared<Node>(pars...)`: overload resolution selects `Node()` for the
empty pack and `Node(const Element&)` / `Node(Element&&)` for one argument. -/
def Pars.toNode {E : Type} : Pars E → Node E
  | .none => Node.empty
  | .one element => Node.ofElement element

/-! ## ThreadSafeQueue1 (`threadsafe_queue1.h`) -/

/-- State of `ThreadSafeQueue1`: `std::queue<ElementPtr, std::list<ElementPtr>> m_queue`,
listed from front to back. -/
structure ThreadSafeQueue1 (E : Type) where
  m_queue : List (Option E)
deriving DecidableEq, Repr

namespace ThreadSafeQueue1

variable {E : Type}

/-- The constructor `ThreadSafeQueue1()`: an empty `m_queue`. -/
def new : ThreadSafeQueue1 E := ⟨[]⟩

/-- Member `empty()`: `m_queue.empty()`. -/
def empty (q : ThreadSafeQueue1 E) : Bool := q.m_queue.isEmpty

/-- Member `size()`: `m_queue.size()`. -/
def size (q : ThreadSafeQueue1 E) : Nat := q.m_queue.length

/-- Member `push(element)`: `m_queue.push(std::make_unique<Element>(element))`,
which is `push_back` on the underlying list. -/
def push (element : E) (q : ThreadSafeQueue1 E) : ThreadSafeQueue1 E :=
  ⟨q.m_queue ++ [some element]⟩

/-- Member `emplace(pars...)`:
`m_queue.push(std::make_unique<Element>(std::forward<Ts>(pars)...))`. -/
def emplace [Inhabited E] (pars : Pars E) (q : ThreadSafeQueue1 E) : ThreadSafeQueue1 E :=
  ⟨q.m_queue ++ [some pars.toElement]⟩

/-- Member `tryPop()`: null when `m_queue.empty()`, otherwise the moved-out
`m_queue.front()` followed by `m_queue.pop()`. -/
def tryPop (q : ThreadSafeQueue1 E) : Option E × ThreadSafeQueue1 E :=
  match q.m_queue with
  | [] => (none, q)
  | front_element :: rest => (front_element, ⟨rest⟩)

/-- Member `waitPop()`: waits until `!m_queue.empty()`, then as `tryPop`. -/
def waitPop (q : ThreadSafeQueue1 E) : Exec (Option E × ThreadSafeQueue1 E) :=
  match q.m_queue with
  | [] => .fault .blocked
  | front_element :: rest => .ok (front_element, ⟨rest⟩)

/-- Push the elements of `xs` in order. -/
def pushAll (xs : List E) (q : ThreadSafeQueue1 E) : ThreadSafeQueue1 E :=
  xs.foldl (fun s x => push x s) q

/-- Call `tryPop` `n` times, collecting the returned pointers in call order. -/
def popN : Nat → ThreadSafeQueue1 E → List (Option E) × ThreadSafeQueue1 E
  | 0, q => ([], q)
  | n + 1, q =>
    let r := tryPop q
    let rs := popN n r.2
    (r.1 :: rs.1, rs.2)

end ThreadSafeQueue1

/-! ## ThreadSafeStack1 (`threadsafe_stack1.h`) -/

/-- State of `ThreadSafeStack1`: `std::stack<ElementPtr, std::list<ElementPtr>> m_stack`,
the underlying list from front to back; the top of the stack is its back. -/
structure ThreadSafeStack1 (E : Type) where
  m_stack : List (Option E)
deriving DecidableEq, Repr

namespace ThreadSafeStack1

variable {E : Type}

/-- The constructor `ThreadSafeStack1()`: an empty `m_stack`. -/
def new : ThreadSafeStack1 E := ⟨[]⟩

/-- Member `empty()`: `m_stack.empty()`. -/
def empty (s : ThreadSafeStack1 E) : Bool := s.m_stack.isEmpty

/-- Member `size()`: `m_stack.size()`. -/
def size (s : ThreadSafeStack1 E) : Nat := s.m_stack.length

/-- Member `push(element)`: `m_stack.push(std::make_unique<Element>(element))`,
which is `push_back` on the underlying list. -/
def push (element : E) (s : ThreadSafeStack1 E) : ThreadSafeStack1 E :=
  ⟨s.m_stack ++ [some element]⟩

/-- Member `emplace(pars...)`:
`m_stack.push(std::make_unique<Element>(std::forward<Ts>(pars)...))`. -/
def emplace [Inhabited E] (pars : Pars E) (s : ThreadSafeStack1 E) : ThreadSafeStack1 E :=
  ⟨s.m_stack ++ [some pars.toElement]⟩

/-- Member `tryPop()`: null when `m_stack.empty()`, otherwise the moved-out
`m_stack.top()` (the back of the list) followed by `m_stack.pop()` (`pop_back`). -/
def tryPop (s : ThreadSafeStack1 E) : Option E × ThreadSafeStack1 E :=
  match s.m_stack.getLast? with
  | none => (none, s)
  | some back_element => (back_element, ⟨s.m_stack.dropLast⟩)

/-- Member `waitPop()`: waits until `!m_stack.empty()`, then as `tryPop`. -/
def waitPop (s : ThreadSafeStack1 E) : Exec (Option E × ThreadSafeStack1 E) :=
  match s.m_stack.getLast? with
  | none => .fault .blocked
  | some back_element => .ok (back_element, ⟨s.m_stack.dropLast⟩)

/-- Push the elements of `xs` in order. -/
def pushAll (xs : List E) (s : ThreadSafeStack1 E) : ThreadSafeStack1 E :=
  xs.foldl (fun t x => push x t) s

/-- Call `tryPop` `n` times, collecting the returned pointers in call order. -/
def popN : Nat → ThreadSafeStack1 E → List (Option E) × ThreadSafeStack1 E
  | 0, s => ([], s)
  | n + 1, s =>
    let r := tryPop s
    let rs := popN n r.2
    (r.1 :: rs.1, rs.2)

end ThreadSafeStack1

/-! ## Field assignments through pointers -/

namespace Heap

variable {E : Type}

/-- Assignment to the whole node behind a pointer: `*p = n`. -/
def store (h : Heap E) (p : Ptr) (n : Node E) : Exec (Heap E) :=
  match h.read p, p with
  | .ok _, some a => .ok (h.write a n)
  | _, _ => .fault .invalidPointer

/-- Assignment `p->m_data = d`. -/
def setData (h : Heap E) (p : Ptr) (d : Option E) : Exec (Heap E) := do
  let n ← h.read p
  h.store p { n with m_data := d }

/-- Assignment `p->next = nx` (without the release of the previous value). -/
def setNext (h : Heap E) (p : Ptr) (nx : Ptr) : Exec (Heap E) := do
  let n ← h.read p
  h.store p { n with next := nx }

end Heap

/-! ## ThreadSafeQueue2 (`threadsafe_queue2.h`) -/

/-- State of `ThreadSafeQueue2`: the nodes, `NodePtr m_node_front` and
`Node *m_node_back`. -/
structure ThreadSafeQueue2 (E : Type) where
  heap : Heap E
  m_node_front : Ptr
  m_node_back : Ptr
deriving DecidableEq, Repr

namespace ThreadSafeQueue2

variable {E : Type}

/-- The constructor `ThreadSafeQueue2()`:
`m_node_front(std::make_unique<Node>()), m_node_back(m_node_front.get())`. -/
def new : ThreadSafeQueue2 E :=
  let r := (⟨[]⟩ : Heap E).alloc Node.empty
  ⟨r.2, some r.1, some r.1⟩

/-- Member `getBackLabel()`: `return m_node_back`. -/
def getBackLabel (q : ThreadSafeQueue2 E) : Ptr := q.m_node_back

/-- Member `empty()`: `return !m_node_front->next`. -/
def empty (q : ThreadSafeQueue2 E) : Exec Bool := do
  let front ← q.heap.read q.m_node_front
  return front.next.isNone

/-- The body shared by `push(const Element&)`, `push(Element&&)` and `emplace`,
for the node `node` that their first statement constructs:
`NodePtr new_node(std::make_unique<Node>(...)); Node *new_back = new_node.get();`
`m_node_back->m_data = std::move(new_node->m_data);`
`m_node_back->next = std::move(new_node); m_node_back = new_back;`. -/
def enqueue (node : Node E) (q : ThreadSafeQueue2 E) : Exec (ThreadSafeQueue2 E) := do
  let new_back := (q.heap.alloc node).1
  let h0 := (q.heap.alloc node).2
  -- m_node_back->m_data = std::move(new_node->m_data)
  let new_node ← h0.read (some new_back)
  let h1 ← h0.setData q.m_node_back new_node.m_data
  let h2 ← h1.setData (some new_back) none
  -- m_node_back->next = std::move(new_node): store, then release the old pointee
  let back ← h2.read q.m_node_back
  let h3 ← h2.setNext q.m_node_back (some new_back)
  let h4 := h3.release back.next
  -- m_node_back = new_back
  return ⟨h4, q.m_node_front, some new_back⟩

/-- Members `push(const Element&)` and `push(Element&&)`: the new node is
`std::make_unique<Node>(element)`. -/
def push (element : E) (q : ThreadSafeQueue2 E) : Exec (ThreadSafeQueue2 E) :=
  enqueue (Node.ofElement element) q

/-- Member `emplace(pars...)`: the new node is
`std::make_unique<Node>(std::forward<Ts>(pars)...)`. -/
def emplace (pars : Pars E) (q : ThreadSafeQueue2 E) : Exec (ThreadSafeQueue2 E) :=
  enqueue pars.toNode q

/-- The statements of `tryPop` once the front node has a successor:
`NodePtr front_node(std::move(m_node_front)); m_node_front = std::move(front_node->next);`
`return std::move(front_node->m_data);`, followed by the destruction of `front_node`. -/
def detachFront (q : ThreadSafeQueue2 E) : Exec (Option E × ThreadSafeQueue2 E) := do
  let front_node := q.m_node_front
  -- m_node_front = std::move(front_node->next)
  let n ← q.heap.read front_node
  let h1 ← q.heap.setNext front_node none
  -- return std::move(front_node->m_data)
  let n1 ← h1.read front_node
  let h2 ← h1.setData front_node none
  -- ~front_node
  let h3 := h2.release front_node
  return (n1.m_data, ⟨h3, n.next, q.m_node_back⟩)

/-- Member `tryPop()`: `if (!m_node_front->next) return ElementPtr(nullptr);`, otherwise
the front node is detached and its payload returned. -/
def tryPop (q : ThreadSafeQueue2 E) : Exec (Option E × ThreadSafeQueue2 E) := do
  let front ← q.heap.read q.m_node_front
  match front.next with
  | none => return (none, q)
  | some _ => detachFront q

/-- Member `waitPop()`. Its wait predicate is
`[this]() -> bool { return m_node_front->next; }`: the returned expression is a
`std::unique_ptr<Node>`, whose conversion to `bool` is `explicit` and is not applied in a
`return` statement, so the member is ill-formed as soon as it is instantiated
(`cannot convert NodePtr to bool in return`). A program that calls it is rejected by the
compiler; the call has no behaviour, which is the result `Exec.fault Fault.illFormed`. -/
def waitPop (_q : ThreadSafeQueue2 E) : Exec (Option E × ThreadSafeQueue2 E) :=
  .fault .illFormed

end ThreadSafeQueue2

/-! ## Calls and sequential runs -/

/-- A call of one of the mutating members of a container. -/
inductive Call (E : Type)
  | push (element : E)
  | emplace (pars : Pars E)
  | tryPop
  | waitPop
deriving DecidableEq, Repr

/-- A call of `push` or of `tryPop`. -/
inductive PushPop (E : Type)
  | push (element : E)
  | tryPop
deriving DecidableEq, Repr

/-- A `push` or `tryPop` call as a `Call`. -/
def PushPop.toCall {E : Type} : PushPop E → Call E
  | .push element => .push element
  | .tryPop => .tryPop

namespace ThreadSafeQueue2

variable {E : Type}

/-- One call on the queue; the result is `some r` when the call is a pop returning the
pointer `r`, and `none` for the `void` members. -/
def step (c : Call E) (q : ThreadSafeQueue2 E) :
    Exec (Option (Option E) × ThreadSafeQueue2 E) :=
  match c with
  | .push element => do let q1 ← push element q; return (none, q1)
  | .emplace pars => do let q1 ← emplace pars q; return (none, q1)
  | .tryPop => do let r ← tryPop q; return (some r.1, r.2)
  | .waitPop => do let r ← waitPop q; return (some r.1, r.2)

/-- Calls executed one at a time; returns the pointers returned by the pops, in call
order, and the final state. -/
def run : List (Call E) → ThreadSafeQueue2 E → Exec (List (Option E) × ThreadSafeQueue2 E)
  | [], q => return ([], q)
  | c :: cs, q => do
    let r ← step c q
    let rs ← run cs r.2
    return (r.1.toList ++ rs.1, rs.2)

end ThreadSafeQueue2

/-! ## Reference FIFO list -/

/-- The reference queue: a list where `push` appends at the back and `tryPop` removes
from the front, returning null on the empty list. -/
def FifoRef.step {E : Type} : PushPop E → List E → Option (Option E) × List E
  | .push element, xs => (none, xs ++ [element])
  | .tryPop, [] => (some none, [])
  | .tryPop, x :: xs => (some (some x), xs)

/-- Calls on the reference queue; returns the pop results in call order and the final
list. -/
def FifoRef.run {E : Type} : List (PushPop E) → List E → List (Option E) × List E
  | [], xs => ([], xs)
  | c :: cs, xs =>
    let r := FifoRef.step c xs
    let rs := FifoRef.run cs r.2
    (r.1.toList ++ rs.1, rs.2)


/-! ## Linked chains -/

/-- The chain of nodes that starts at `p`: following `next` visits exactly the cells
`cells` (address and payload of each), in order, and then reaches the pointer `b`. -/
def IsChain {E : Type} (h : Heap E) : Ptr → List (Nat × Option E) → Ptr → Prop
  | p, [], b => p = b
  | p, c :: rest, b =>
    p = some c.1 ∧ ∃ nx, h.read (some c.1) = .ok ⟨c.2, nx⟩ ∧ IsChain h nx rest b

/-- A sentinel-terminated list: the chain from `front` runs through the distinct cells
`cells` to the node `back`, which is live, has a null payload and a null `next`. -/
def SentinelList {E : Type} (h : Heap E) (front back : Ptr)
    (cells : List (Nat × Option E)) : Prop :=
  ∃ bk, back = some bk ∧ IsChain h front cells (some bk)
    ∧ h.read (some bk) = .ok Node.empty ∧ (cells.map Prod.fst ++ [bk]).Nodup


/-! ## Atomic operations -/

/-- The operation `std::atomic_compare_exchange_weak(obj, expected, desired)` on pointers,
without spurious failures: when `*obj` equals `*expected` it stores `desired` in `*obj`
and returns true, otherwise it stores `*obj` in `*expected` and returns false.
The result is the returned flag, the new `*obj` and the new `*expected`. -/
def atomic_compare_exchange (obj expected desired : Ptr) : Bool × Ptr × Ptr :=
  if obj = expected then (true, desired, expected) else (false, obj, obj)

/-- A call of one of the mutating members of a container without `waitPop`. -/
inductive TryCall (E : Type)
  | push (element : E)
  | emplace (pars : Pars E)
  | tryPop
deriving DecidableEq, Repr

/-- A `push` or `tryPop` call as a `TryCall`. -/
def PushPop.toTryCall {E : Type} : PushPop E → TryCall E
  | .push element => .push element
  | .tryPop => .tryPop

/-! ## ThreadSafeQueue3 (`threadsafe_queue3.h`)

The nodes are owned by `std::shared_ptr`; a node that is no longer referenced is
reclaimed by the reference count. The model keeps its cell in the heap, where nothing
refers to it any more. -/

/-- State of `ThreadSafeQueue3`: the nodes, `std::atomic<Node*> m_label_back` and
`NodePtr m_label_front`. -/
structure ThreadSafeQueue3 (E : Type) where
  heap : Heap E
  m_label_back : Ptr
  m_label_front : Ptr
deriving DecidableEq, Repr

namespace ThreadSafeQueue3

variable {E : Type}

/-- The constructor `ThreadSafeQueue3()`:
`m_label_back(new Node()), m_label_front(m_label_back.load())`. -/
def new : ThreadSafeQueue3 E :=
  let r := (⟨[]⟩ : Heap E).alloc Node.empty
  ⟨r.2, some r.1, some r.1⟩

/-- Member `empty()`: `return !std::atomic_load(&m_label_front)->next`. -/
def empty (q : ThreadSafeQueue3 E) : Exec Bool := do
  let front ← q.heap.read q.m_label_front
  return front.next.isNone

/-- First step of `push` / `emplace`: `NodePtr new_node(std::make_shared<Node>());`
`Node *old_back = m_label_back.exchange(new_node.get());`.
Returns `old_back`, `new_node` and the state after the exchange. -/
def exchangeBack (q : ThreadSafeQueue3 E) : (Ptr × Ptr) × ThreadSafeQueue3 E :=
  let new_node := (q.heap.alloc Node.empty).1
  let h0 := (q.heap.alloc Node.empty).2
  ((q.m_label_back, some new_node), ⟨h0, some new_node, q.m_label_front⟩)

/-- Second step of `push` / `emplace`: `old_back->m_data = std::move(new_element);`
`old_back->next = std::move(new_node);`. -/
def writeBack (old_back new_node : Ptr) (new_element : Option E)
    (q : ThreadSafeQueue3 E) : Exec (ThreadSafeQueue3 E) := do
  let h1 ← q.heap.setData old_back new_element
  let h2 ← h1.setNext old_back new_node
  return { q with heap := h2 }

/-- The body shared by `push(const Element&)`, `push(Element&&)` and `emplace`, for the
payload pointer `new_element` that their first statement constructs. -/
def enqueue (new_element : Option E) (q : ThreadSafeQueue3 E) :
    Exec (ThreadSafeQueue3 E) :=
  let r := exchangeBack q
  writeBack r.1.1 r.1.2 new_element r.2

/-- Members `push(const Element&)` and `push(Element&&)`: the payload is
`std::make_unique<Element>(element)`. -/
def push (element : E) (q : ThreadSafeQueue3 E) : Exec (ThreadSafeQueue3 E) :=
  enqueue (some element) q

/-- Member `emplace(pars...)`: the payload is
`std::make_unique<Element>(std::forward<Ts>(pars)...)`. -/
def emplace [Inhabited E] (pars : Pars E) (q : ThreadSafeQueue3 E) :
    Exec (ThreadSafeQueue3 E) :=
  enqueue (some pars.toElement) q

/-- The loop of `tryPop`:
`while (front_node->next && !std::atomic_compare_exchange_weak(&m_label_front,`
`&front_node, front_node->next));`. Returns the final `front_node` and the state. -/
def tryPopLoop : Nat → Ptr → ThreadSafeQueue3 E → Exec (Ptr × ThreadSafeQueue3 E)
  | 0, _, _ => .fault .outOfFuel
  | fuel + 1, front_node, q => do
    let n ← q.heap.read front_node
    match n.next with
    | none => return (front_node, q)
    | some nx =>
      let r := atomic_compare_exchange q.m_label_front front_node (some nx)
      let q1 := { q with m_label_front := r.2.1 }
      if r.1 then return (r.2.2, q1) else tryPopLoop fuel r.2.2 q1

/-- Member `tryPop()`: `NodePtr front_node(std::atomic_load(&m_label_front));`, the loop,
then `return front_node->next ? std::move(front_node->m_data) : nullptr`. -/
def tryPop (fuel : Nat) (q : ThreadSafeQueue3 E) :
    Exec (Option E × ThreadSafeQueue3 E) := do
  let r ← tryPopLoop fuel q.m_label_front q
  let n ← r.2.heap.read r.1
  match n.next with
  | some _ => do
    let h ← r.2.heap.setData r.1 none
    return (n.m_data, { r.2 with heap := h })
  | none => return (none, r.2)

/-- One call on the queue; the result is `some r` when the call is a pop returning the
pointer `r`, and `none` for the `void` members. -/
def step [Inhabited E] (fuel : Nat) (c : TryCall E) (q : ThreadSafeQueue3 E) :
    Exec (Option (Option E) × ThreadSafeQueue3 E) :=
  match c with
  | .push element => do let q1 ← push element q; return (none, q1)
  | .emplace pars => do let q1 ← emplace pars q; return (none, q1)
  | .tryPop => do let r ← tryPop fuel q; return (some r.1, r.2)

/-- Calls executed one at a time, each retry loop bounded by `fuel` iterations; returns
the pointers returned by the pops, in call order, and the final state. -/
def run [Inhabited E] (fuel : Nat) :
    List (TryCall E) → ThreadSafeQueue3 E → Exec (List (Option E) × ThreadSafeQueue3 E)
  | [], q => return ([], q)
  | c :: cs, q => do
    let r ← step fuel c q
    let rs ← run fuel cs r.2
    return (r.1.toList ++ rs.1, rs.2)

end ThreadSafeQueue3

/-! ## ThreadSafeStack2 (`threadsafe_stack2.h`)

The nodes are owned by `std::shared_ptr`, as for `ThreadSafeQueue3`. -/

/-- State of `ThreadSafeStack2`: the nodes and `NodePtr m_head`. -/
structure ThreadSafeStack2 (E : Type) where
  heap : Heap E
  m_head : Ptr
deriving DecidableEq, Repr

namespace ThreadSafeStack2

variable {E : Type}

/-- The constructor `ThreadSafeStack2()`: `m_head(nullptr)`. -/
def new : ThreadSafeStack2 E := ⟨⟨[]⟩, none⟩

/-- Member `empty()`: `return !std::atomic_load(&m_head)`. -/
def empty (s : ThreadSafeStack2 E) : Bool := s.m_head.isNone

/-- The loop of `push` / `emplace`:
`while (!std::atomic_compare_exchange_weak(&m_head, &new_node->next, new_node));`. -/
def pushLoop : Nat → Ptr → ThreadSafeStack2 E → Exec (ThreadSafeStack2 E)
  | 0, _, _ => .fault .outOfFuel
  | fuel + 1, new_node, s => do
    let n ← s.heap.read new_node
    let r := atomic_compare_exchange s.m_head n.next new_node
    if r.1 then
      return { s with m_head := r.2.1 }
    else do
      let h ← s.heap.setNext new_node r.2.2
      pushLoop fuel new_node ⟨h, r.2.1⟩

/-- The body shared by `push(const Element&)`, `push(Element&&)` and `emplace`, for the
node `node` that their first statement constructs with `std::make_shared<Node>(...)`:
`new_node->next = std::atomic_load(&m_head);` followed by the loop. -/
def insert (node : Node E) (fuel : Nat) (s : ThreadSafeStack2 E) :
    Exec (ThreadSafeStack2 E) := do
  let new_node := (s.heap.alloc node).1
  let h0 := (s.heap.alloc node).2
  let h1 ← h0.setNext (some new_node) s.m_head
  pushLoop fuel (some new_node) ⟨h1, s.m_head⟩

/-- Members `push(const Element&)` and `push(Element&&)`: the new node is
`std::make_shared<Node>(element)`. -/
def push (element : E) (fuel : Nat) (s : ThreadSafeStack2 E) : Exec (ThreadSafeStack2 E) :=
  insert (Node.ofElement element) fuel s

/-- Member `emplace(pars...)`: the new node is
`std::make_shared<Node>(std::forward<Ts>(pars)...)`. -/
def emplace (pars : Pars E) (fuel : Nat) (s : ThreadSafeStack2 E) :
    Exec (ThreadSafeStack2 E) :=
  insert pars.toNode fuel s

/-- The loop of `tryPop`:
`while (old_head && !std::atomic_compare_exchange_weak(&m_head, &old_head,`
`old_head->next));`. Returns the final `old_head` and the state. -/
def tryPopLoop : Nat → Ptr → ThreadSafeStack2 E → Exec (Ptr × ThreadSafeStack2 E)
  | 0, _, _ => .fault .outOfFuel
  | fuel + 1, old_head, s =>
    match old_head with
    | none => return (none, s)
    | some a => do
      let n ← s.heap.read (some a)
      let r := atomic_compare_exchange s.m_head (some a) n.next
      let s1 := { s with m_head := r.2.1 }
      if r.1 then return (r.2.2, s1) else tryPopLoop fuel r.2.2 s1

/-- Member `tryPop()`: `NodePtr old_head = std::atomic_load(&m_head);`, the loop, then
`return old_head ? std::move(old_head->m_data) : nullptr`. -/
def tryPop (fuel : Nat) (s : ThreadSafeStack2 E) :
    Exec (Option E × ThreadSafeStack2 E) := do
  let r ← tryPopLoop fuel s.m_head s
  match r.1 with
  | some a => do
    let n ← r.2.heap.read (some a)
    let h ← r.2.heap.setData (some a) none
    return (n.m_data, { r.2 with heap := h })
  | none => return (none, r.2)

/-- One call on the stack; the result is `some r` when the call is a pop returning the
pointer `r`, and `none` for the `void` members. -/
def step (fuel : Nat) (c : TryCall E) (s : ThreadSafeStack2 E) :
    Exec (Option (Option E) × ThreadSafeStack2 E) :=
  match c with
  | .push element => do let s1 ← push element fuel s; return (none, s1)
  | .emplace pars => do let s1 ← emplace pars fuel s; return (none, s1)
  | .tryPop => do let r ← tryPop fuel s; return (some r.1, r.2)

/-- Calls executed one at a time, each retry loop bounded by `fuel` iterations; returns
the pointers returned by the pops, in call order, and the final state. -/
def run (fuel : Nat) :
    List (TryCall E) → ThreadSafeStack2 E → Exec (List (Option E) × ThreadSafeStack2 E)
  | [], s => return ([], s)
  | c :: cs, s => do
    let r ← step fuel c s
    let rs ← run fuel cs r.2
    return (r.1.toList ++ rs.1, rs.2)

end ThreadSafeStack2


/-- A null-terminated list: the chain from `head` runs through the distinct cells `cells`
to the null pointer. -/
def StackList {E : Type} (h : Heap E) (head : Ptr) (cells : List (Nat × Option E)) : Prop :=
  IsChain h head cells none ∧ (cells.map Prod.fst).Nodup

/-! ## Reference LIFO list -/

/-- The reference stack: the list of the values pushed and not yet popped, most recent
first; `push` adds at the head and `tryPop` removes the head, returning null on the
empty list. -/
def LifoRef.step {E : Type} : PushPop E → List E → Option (Option E) × List E
  | .push element, xs => (none, element :: xs)
  | .tryPop, [] => (some none, [])
  | .tryPop, x :: xs => (some (some x), xs)

/-- Calls on the reference stack; returns the pop results in call order and the final
list. -/
def LifoRef.run {E : Type} : List (PushPop E) → List E → List (Option E) × List E
  | [], xs => ([], xs)
  | c :: cs, xs =>
    let r := LifoRef.step c xs
    let rs := LifoRef.run cs r.2
    (r.1.toList ++ rs.1, rs.2)


/-! ## Stored payloads -/

/-- The payload pointers stored in the nodes met when following `next` from `p` until
the pointer `stop` is reached, in that order; `fuel` bounds the number of nodes. -/
def Heap.payloads {E : Type} : Nat → Heap E → Ptr → Ptr → Exec (List (Option E))
  | 0, _, p, stop => if p = stop then .ok [] else .fault .outOfFuel
  | fuel + 1, h, p, stop =>
    if p = stop then .ok []
    else do
      let n ← h.read p
      let rest ← Heap.payloads fuel h n.next stop
      return n.m_data :: rest

/-- The payload pointers stored in the list reachable from `m_head`, top first. -/
def ThreadSafeStack2.contents {E : Type} (s : ThreadSafeStack2 E) : Exec (List (Option E)) :=
  s.heap.payloads s.heap.cells.length s.m_head none

/-- The calls `ops` with every pushed value paired with the position of its `push` in the
sequence, counted from `t`. -/
def PushPop.stamp {E : Type} : Nat → List (PushPop E) → List (PushPop (Nat × E))
  | _, [] => []
  | t, .push element :: cs => .push (t, element) :: PushPop.stamp (t + 1) cs
  | t, .tryPop :: cs => .tryPop :: PushPop.stamp (t + 1) cs


/-- The payload pointers stored in the nodes linked from `m_node_front` up to, and not
including, the node `m_node_back`, front first. -/
def ThreadSafeQueue2.contents {E : Type} (q : ThreadSafeQueue2 E) : Exec (List (Option E)) :=
  q.heap.payloads q.heap.cells.length q.m_node_front q.m_node_back

/-- The payload pointers stored in the nodes linked from `m_label_front` up to, and not
including, the node `m_label_back`, front first. -/
def ThreadSafeQueue3.contents {E : Type} (q : ThreadSafeQueue3 E) : Exec (List (Option E)) :=
  q.heap.payloads q.heap.cells.length q.m_label_front q.m_label_back


/-! ## Sequential runs of the coarse-lock containers -/

/-- Whether the call inserts an entry: `push` or `emplace`. -/
def Call.isInsert {E : Type} : Call E → Bool
  | .push _ => true
  | .emplace _ => true
  | .tryPop => false
  | .waitPop => false

namespace ThreadSafeQueue1

variable {E : Type}

/-- One call on the queue; the result is `some r` when the call is a pop returning the
pointer `r`, and `none` for the `void` members. -/
def step [Inhabited E] (c : Call E) (q : ThreadSafeQueue1 E) :
    Exec (Option (Option E) × ThreadSafeQueue1 E) :=
  match c with
  | .push element => return (none, push element q)
  | .emplace pars => return (none, emplace pars q)
  | .tryPop => return (some (tryPop q).1, (tryPop q).2)
  | .waitPop => do let r ← waitPop q; return (some r.1, r.2)

/-- Calls executed one at a time; returns the pointers returned by the pops, in call
order, and the final state. -/
def run [Inhabited E] :
    List (Call E) → ThreadSafeQueue1 E → Exec (List (Option E) × ThreadSafeQueue1 E)
  | [], q => return ([], q)
  | c :: cs, q => do
    let r ← step c q
    let rs ← run cs r.2
    return (r.1.toList ++ rs.1, rs.2)

end ThreadSafeQueue1

namespace ThreadSafeStack1

variable {E : Type}

/-- One call on the stack; the result is `some r` when the call is a pop returning the
pointer `r`, and `none` for the `void` members. -/
def step [Inhabited E] (c : Call E) (s : ThreadSafeStack1 E) :
    Exec (Option (Option E) × ThreadSafeStack1 E) :=
  match c with
  | .push element => return (none, push element s)
  | .emplace pars => return (none, emplace pars s)
  | .tryPop => return (some (tryPop s).1, (tryPop s).2)
  | .waitPop => do let r ← waitPop s; return (some r.1, r.2)

/-- Calls executed one at a time; returns the pointers returned by the pops, in call
order, and the final state. -/
def run [Inhabited E] :
    List (Call E) → ThreadSafeStack1 E → Exec (List (Option E) × ThreadSafeStack1 E)
  | [], s => return ([], s)
  | c :: cs, s => do
    let r ← step c s
    let rs ← run cs r.2
    return (r.1.toList ++ rs.1, rs.2)

end ThreadSafeStack1

/-! ## Observations on linked lists -/

/-- The last node of the chain that starts at `p`: follow `next` until a node whose
`next` is null; `fuel` bounds the number of nodes visited. -/
def Heap.lastNode {E : Type} : Nat → Heap E → Ptr → Exec Ptr
  | 0, _, _ => .fault .outOfFuel
  | fuel + 1, h, p => do
    let n ← h.read p
    match n.next with
    | none => return p
    | some nx => Heap.lastNode fuel h (some nx)

/-- The values pushed by the calls `ops`, in call order. -/
def PushPop.pushed {E : Type} : List (PushPop E) → List E
  | [] => []
  | .push element :: cs => element :: PushPop.pushed cs
  | .tryPop :: cs => PushPop.pushed cs

/-- The values behind the non-null pointers of `rs`, in order. -/
def returnedValues {E : Type} (rs : List (Option E)) : List E :=
  rs.filterMap id

/-! ## Cells accessed under each mutex of ThreadSafeQueue2 -/

/-- A memory cell of a `ThreadSafeQueue2`: one of the two members, or a field of the
node at an address. -/
inductive Cell
  | m_node_front
  | m_node_back
  | m_data (a : Nat)
  | next (a : Nat)
deriving DecidableEq, Repr

/-- The cells that `push` / `emplace` write while holding `m_mutex_back`
(`m_node_back->m_data = ...; m_node_back->next = ...; m_node_back = new_back;`):
the member `m_node_back` and both fields of the node it points at. -/
def ThreadSafeQueue2.backCells {E : Type} (q : ThreadSafeQueue2 E) : List Cell :=
  match q.m_node_back with
  | some a => [.m_node_back, .m_data a, .next a]
  | none => [.m_node_back]

/-- The cells that `empty`, `tryPop` and `waitPop` read or write while holding
`m_mutex_front` (`m_node_front->next`, `std::move(m_node_front)`,
`std::move(front_node->next)`, `std::move(front_node->m_data)`): the member
`m_node_front` and both fields of the node it points at. -/
def ThreadSafeQueue2.frontCells {E : Type} (q : ThreadSafeQueue2 E) : List Cell :=
  match q.m_node_front with
  | some a => [.m_node_front, .m_data a, .next a]
  | none => [.m_node_front]


/-! ## The write steps of the lock-free queue push -/

namespace ThreadSafeQueue3

variable {E : Type}

/-- The payload write of `push` / `emplace`: `old_back->m_data = std::move(new_element);`. -/
def writeData (old_back : Ptr) (new_element : Option E) (q : ThreadSafeQueue3 E) :
    Exec (ThreadSafeQueue3 E) := do
  let h ← q.heap.setData old_back new_element
  return { q with heap := h }

/-- The link write of `push` / `emplace`: `old_back->next = std::move(new_node);`. -/
def writeNext (old_back new_node : Ptr) (q : ThreadSafeQueue3 E) :
    Exec (ThreadSafeQueue3 E) := do
  let h ← q.heap.setNext old_back new_node
  return { q with heap := h }

end ThreadSafeQueue3


/-! ## Atomic operations with an explicit memory order

The order argument of the `_explicit` operations constrains how other threads may
observe the access; for calls executed one at a time it has no effect, and the model
ignores it. -/

/-- The enumeration `std::memory_order`. -/
inductive MemoryOrder
  | relaxed
  | consume
  | acquire
  | release
  | acq_rel
  | seq_cst
deriving DecidableEq, Repr

/-- The operations `std::atomic_load_explicit(obj, order)` and `obj.load(order)`. -/
def atomic_load_explicit (obj : Ptr) (_order : MemoryOrder) : Ptr := obj

/-- The operation `obj.exchange(desired, order)`: returns the old value and the new
value of `*obj`. -/
def atomic_exchange_explicit (obj desired : Ptr) (_order : MemoryOrder) : Ptr × Ptr :=
  (obj, desired)

/-- The operation `std::atomic_compare_exchange_weak_explicit(obj, expected, desired,
success, failure)`, without spurious failures. -/
def atomic_compare_exchange_explicit (obj expected desired : Ptr)
    (_success _failure : MemoryOrder) : Bool × Ptr × Ptr :=
  if obj = expected then (true, desired, expected) else (false, obj, obj)

/-- A call of one of the members of a lock-free container, `empty` included. -/
inductive ObsCall (E : Type)
  | push (element : E)
  | emplace (pars : Pars E)
  | tryPop
  | empty
deriving DecidableEq, Repr

/-- What a call returns: nothing for the `void` members, the pointer returned by
`tryPop`, or the flag returned by `empty`. -/
inductive Obs (E : Type)
  | done
  | popped (r : Option E)
  | isEmpty (b : Bool)
deriving DecidableEq, Repr

/-! ## ThreadSafeQueue4 (`threadsafe_queue4.h`) -/

/-- State of `ThreadSafeQueue4`: the nodes, `std::atomic<Node*> m_label_back` and
`NodePtr m_label_front`. -/
structure ThreadSafeQueue4 (E : Type) where
  heap : Heap E
  m_label_back : Ptr
  m_label_front : Ptr
deriving DecidableEq, Repr

namespace ThreadSafeQueue4

variable {E : Type}

/-- The constructor `ThreadSafeQueue4()`: `m_label_back(new Node()),`
`m_label_front(m_label_back.load(std::memory_order_release))`. -/
def new : ThreadSafeQueue4 E :=
  let r := (⟨[]⟩ : Heap E).alloc Node.empty
  ⟨r.2, some r.1, atomic_load_explicit (some r.1) .release⟩

/-- Member `empty()`:
`return !std::atomic_load_explicit(&m_label_front, std::memory_order_release)->next`. -/
def empty (q : ThreadSafeQueue4 E) : Exec Bool := do
  let front ← q.heap.read (atomic_load_explicit q.m_label_front .release)
  return front.next.isNone

/-- The body shared by `push(const Element&)`, `push(Element&&)` and `emplace`, for the
payload pointer `new_element` that their first statement constructs:
`NodePtr new_node(std::make_shared<Node>());`
`Node *old_back = m_label_back.exchange(new_node.get(), std::memory_order_release);`
`old_back->m_data = std::move(new_element); old_back->next = std::move(new_node);`. -/
def enqueue (new_element : Option E) (q : ThreadSafeQueue4 E) :
    Exec (ThreadSafeQueue4 E) := do
  let new_node := (q.heap.alloc Node.empty).1
  let h0 := (q.heap.alloc Node.empty).2
  let x := atomic_exchange_explicit q.m_label_back (some new_node) .release
  let old_back := x.1
  let h1 ← h0.setData old_back new_element
  let h2 ← h1.setNext old_back (some new_node)
  return ⟨h2, x.2, q.m_label_front⟩

/-- Members `push(const Element&)` and `push(Element&&)`: the payload is
`std::make_unique<Element>(element)`. -/
def push (element : E) (q : ThreadSafeQueue4 E) : Exec (ThreadSafeQueue4 E) :=
  enqueue (some element) q

/-- Member `emplace(pars...)`: the payload is
`std::make_unique<Element>(std::forward<Ts>(pars)...)`. -/
def emplace [Inhabited E] (pars : Pars E) (q : ThreadSafeQueue4 E) :
    Exec (ThreadSafeQueue4 E) :=
  enqueue (some pars.toElement) q

/-- The loop of `tryPop`: `while (front_node->next &&`
`!std::atomic_compare_exchange_weak_explicit(&m_label_front, &front_node,`
`front_node->next, std::memory_order_release, std::memory_order_release));`. -/
def tryPopLoop : Nat → Ptr → ThreadSafeQueue4 E → Exec (Ptr × ThreadSafeQueue4 E)
  | 0, _, _ => .fault .outOfFuel
  | fuel + 1, front_node, q => do
    let n ← q.heap.read front_node
    match n.next with
    | none => return (front_node, q)
    | some nx =>
      let r := atomic_compare_exchange_explicit q.m_label_front front_node (some nx)
        .release .release
      let q1 := { q with m_label_front := r.2.1 }
      if r.1 then return (r.2.2, q1) else tryPopLoop fuel r.2.2 q1

/-- Member `tryPop()`: `NodePtr front_node(std::atomic_load(&m_label_front));`, the loop,
then `return front_node->next ? std::move(front_node->m_data) : nullptr`. -/
def tryPop (fuel : Nat) (q : ThreadSafeQueue4 E) :
    Exec (Option E × ThreadSafeQueue4 E) := do
  let r ← tryPopLoop fuel q.m_label_front q
  let n ← r.2.heap.read r.1
  match n.next with
  | some _ => do
    let h ← r.2.heap.setData r.1 none
    return (n.m_data, { r.2 with heap := h })
  | none => return (none, r.2)

/-- One call on the queue and what it returns. -/
def observeStep [Inhabited E] (fuel : Nat) (c : ObsCall E) (q : ThreadSafeQueue4 E) :
    Exec (Obs E × ThreadSafeQueue4 E) :=
  match c with
  | .push element => do let q1 ← push element q; return (.done, q1)
  | .emplace pars => do let q1 ← emplace pars q; return (.done, q1)
  | .tryPop => do let r ← tryPop fuel q; return (.popped r.1, r.2)
  | .empty => do let b ← empty q; return (.isEmpty b, q)

/-- Calls executed one at a time, each retry loop bounded by `fuel` iterations; returns
what each call returned, in call order, and the final state. -/
def observe [Inhabited E] (fuel : Nat) :
    List (ObsCall E) → ThreadSafeQueue4 E → Exec (List (Obs E) × ThreadSafeQueue4 E)
  | [], q => return ([], q)
  | c :: cs, q => do
    let r ← observeStep fuel c q
    let rs ← observe fuel cs r.2
    return (r.1 :: rs.1, rs.2)

/-- The state of the strict variant that has the same nodes and the same labels. -/
def toStrict (q : ThreadSafeQueue4 E) : ThreadSafeQueue3 E :=
  ⟨q.heap, q.m_label_back, q.m_label_front⟩

end ThreadSafeQueue4

namespace ThreadSafeQueue3

variable {E : Type}

/-- One call on the queue and what it returns. -/
def observeStep [Inhabited E] (fuel : Nat) (c : ObsCall E) (q : ThreadSafeQueue3 E) :
    Exec (Obs E × ThreadSafeQueue3 E) :=
  match c with
  | .push element => do let q1 ← push element q; return (.done, q1)
  | .emplace pars => do let q1 ← emplace pars q; return (.done, q1)
  | .tryPop => do let r ← tryPop fuel q; return (.popped r.1, r.2)
  | .empty => do let b ← empty q; return (.isEmpty b, q)

/-- Calls executed one at a time, each retry loop bounded by `fuel` iterations; returns
what each call returned, in call order, and the final state. -/
def observe [Inhabited E] (fuel : Nat) :
    List (ObsCall E) → ThreadSafeQueue3 E → Exec (List (Obs E) × ThreadSafeQueue3 E)
  | [], q => return ([], q)
  | c :: cs, q => do
    let r ← observeStep fuel c q
    let rs ← observe fuel cs r.2
    return (r.1 :: rs.1, rs.2)

end ThreadSafeQueue3

/-! ## ThreadSafeStack3 (`threadsafe_stack3.h`) -/

/-- State of `ThreadSafeStack3`: the nodes and `NodePtr m_head`. -/
structure ThreadSafeStack3 (E : Type) where
  heap : Heap E
  m_head : Ptr
deriving DecidableEq, Repr

namespace ThreadSafeStack3

variable {E : Type}

/-- The constructor `ThreadSafeStack3()`: `m_head(nullptr)`. -/
def new : ThreadSafeStack3 E := ⟨⟨[]⟩, none⟩

/-- Member `empty()`:
`return !std::atomic_load_explicit(&m_head, std::memory_order_relaxed)`. -/
def empty (s : ThreadSafeStack3 E) : Bool := (atomic_load_explicit s.m_head .relaxed).isNone

/-- The loop of `push` / `emplace`:
`while (!std::atomic_compare_exchange_weak_explicit(&m_head, &new_node->next, new_node,`
`std::memory_order_relaxed, std::memory_order_relaxed));`. -/
def pushLoop : Nat → Ptr → ThreadSafeStack3 E → Exec (ThreadSafeStack3 E)
  | 0, _, _ => .fault .outOfFuel
  | fuel + 1, new_node, s => do
    let n ← s.heap.read new_node
    let r := atomic_compare_exchange_explicit s.m_head n.next new_node .relaxed .relaxed
    if r.1 then
      return { s with m_head := r.2.1 }
    else do
      let h ← s.heap.setNext new_node r.2.2
      pushLoop fuel new_node ⟨h, r.2.1⟩

/-- The body shared by `push(const Element&)`, `push(Element&&)` and `emplace`, for the
node `node` that their first statement constructs with `std::make_shared<Node>(...)`:
`new_node->next = std::atomic_load_explicit(&m_head, std::memory_order_relaxed);`
followed by the loop. -/
def insert (node : Node E) (fuel : Nat) (s : ThreadSafeStack3 E) :
    Exec (ThreadSafeStack3 E) := do
  let new_node := (s.heap.alloc node).1
  let h0 := (s.heap.alloc node).2
  let h1 ← h0.setNext (some new_node) (atomic_load_explicit s.m_head .relaxed)
  pushLoop fuel (some new_node) ⟨h1, s.m_head⟩

/-- Members `push(const Element&)` and `push(Element&&)`: the new node is
`std::make_shared<Node>(element)`. -/
def push (element : E) (fuel : Nat) (s : ThreadSafeStack3 E) : Exec (ThreadSafeStack3 E) :=
  insert (Node.ofElement element) fuel s

/-- Member `emplace(pars...)`: the new node is
`std::make_shared<Node>(std::forward<Ts>(pars)...)`. -/
def emplace (pars : Pars E) (fuel : Nat) (s : ThreadSafeStack3 E) :
    Exec (ThreadSafeStack3 E) :=
  insert pars.toNode fuel s

/-- The loop of `tryPop`: `while (old_head &&`
`!std::atomic_compare_exchange_weak_explicit(&m_head, &old_head, old_head->next,`
`std::memory_order_relaxed, std::memory_order_relaxed));`. -/
def tryPopLoop : Nat → Ptr → ThreadSafeStack3 E → Exec (Ptr × ThreadSafeStack3 E)
  | 0, _, _ => .fault .outOfFuel
  | fuel + 1, old_head, s =>
    match old_head with
    | none => return (none, s)
    | some a => do
      let n ← s.heap.read (some a)
      let r := atomic_compare_exchange_explicit s.m_head (some a) n.next .relaxed .relaxed
      let s1 := { s with m_head := r.2.1 }
      if r.1 then return (r.2.2, s1) else tryPopLoop fuel r.2.2 s1

/-- Member `tryPop()`:
`NodePtr old_head = std::atomic_load_explicit(&m_head, std::memory_order_relaxed);`,
the loop, then `return old_head ? std::move(old_head->m_data) : nullptr`. -/
def tryPop (fuel : Nat) (s : ThreadSafeStack3 E) :
    Exec (Option E × ThreadSafeStack3 E) := do
  let r ← tryPopLoop fuel (atomic_load_explicit s.m_head .relaxed) s
  match r.1 with
  | some a => do
    let n ← r.2.heap.read (some a)
    let h ← r.2.heap.setData (some a) none
    return (n.m_data, { r.2 with heap := h })
  | none => return (none, r.2)

/-- One call on the stack and what it returns. -/
def observeStep (fuel : Nat) (c : ObsCall E) (s : ThreadSafeStack3 E) :
    Exec (Obs E × ThreadSafeStack3 E) :=
  match c with
  | .push element => do let s1 ← push element fuel s; return (.done, s1)
  | .emplace pars => do let s1 ← emplace pars fuel s; return (.done, s1)
  | .tryPop => do let r ← tryPop fuel s; return (.popped r.1, r.2)
  | .empty => return (.isEmpty (empty s), s)

/-- Calls executed one at a time, each retry loop bounded by `fuel` iterations; returns
what each call returned, in call order, and the final state. -/
def observe (fuel : Nat) :
    List (ObsCall E) → ThreadSafeStack3 E → Exec (List (Obs E) × ThreadSafeStack3 E)
  | [], s => return ([], s)
  | c :: cs, s => do
    let r ← observeStep fuel c s
    let rs ← observe fuel cs r.2
    return (r.1 :: rs.1, rs.2)

/-- The state of the strict variant that has the same nodes and the same head. -/
def toStrict (s : ThreadSafeStack3 E) : ThreadSafeStack2 E := ⟨s.heap, s.m_head⟩

end ThreadSafeStack3

namespace ThreadSafeStack2

variable {E : Type}

/-- One call on the stack and what it returns. -/
def observeStep (fuel : Nat) (c : ObsCall E) (s : ThreadSafeStack2 E) :
    Exec (Obs E × ThreadSafeStack2 E) :=
  match c with
  | .push element => do let s1 ← push element fuel s; return (.done, s1)
  | .emplace pars => do let s1 ← emplace pars fuel s; return (.done, s1)
  | .tryPop => do let r ← tryPop fuel s; return (.popped r.1, r.2)
  | .empty => return (.isEmpty (empty s), s)

/-- Calls executed one at a time, each retry loop bounded by `fuel` iterations; returns
what each call returned, in call order, and the final state. -/
def observe (fuel : Nat) :
    List (ObsCall E) → ThreadSafeStack2 E → Exec (List (Obs E) × ThreadSafeStack2 E)
  | [], s => return ([], s)
  | c :: cs, s => do
    let r ← observeStep fuel c s
    let rs ← observe fuel cs r.2
    return (r.1 :: rs.1, rs.2)

end ThreadSafeStack2

/-- The image of a result under a map of the returned value. -/
def Exec.map {α β : Type} (f : α → β) : Exec α → Exec β
  | .ok a => .ok (f a)
  | .fault e => .fault e


/-! ## Retry loops with the outcomes of their compare-and-swap attempts

The same loops as above, returning in addition the flag returned by every
compare-and-swap attempt, in the order of the attempts. -/

namespace ThreadSafeQueue3

variable {E : Type}

/-- The loop of `tryPop` with the outcomes of its compare-and-swap attempts. -/
def tryPopLoopTraced : Nat → Ptr → ThreadSafeQueue3 E →
    Exec (List Bool × Ptr × ThreadSafeQueue3 E)
  | 0, _, _ => .fault .outOfFuel
  | fuel + 1, front_node, q => do
    let n ← q.heap.read front_node
    match n.next with
    | none => return ([], front_node, q)
    | some nx =>
      let r := atomic_compare_exchange q.m_label_front front_node (some nx)
      let q1 := { q with m_label_front := r.2.1 }
      if r.1 then return ([true], r.2.2, q1)
      else do
        let t ← tryPopLoopTraced fuel r.2.2 q1
        return (false :: t.1, t.2)

/-- Member `tryPop()` with the outcomes of its compare-and-swap attempts. -/
def tryPopTraced (fuel : Nat) (q : ThreadSafeQueue3 E) :
    Exec (List Bool × Option E × ThreadSafeQueue3 E) := do
  let t ← tryPopLoopTraced fuel q.m_label_front q
  let r := t.2
  let n ← r.2.heap.read r.1
  match n.next with
  | some _ => do
    let h ← r.2.heap.setData r.1 none
    return (t.1, n.m_data, { r.2 with heap := h })
  | none => return (t.1, none, r.2)

end ThreadSafeQueue3

namespace ThreadSafeStack2

variable {E : Type}

/-- The loop of `push` / `emplace` with the outcomes of its compare-and-swap attempts. -/
def pushLoopTraced : Nat → Ptr → ThreadSafeStack2 E → Exec (List Bool × ThreadSafeStack2 E)
  | 0, _, _ => .fault .outOfFuel
  | fuel + 1, new_node, s => do
    let n ← s.heap.read new_node
    let r := atomic_compare_exchange s.m_head n.next new_node
    if r.1 then
      return ([true], { s with m_head := r.2.1 })
    else do
      let h ← s.heap.setNext new_node r.2.2
      let t ← pushLoopTraced fuel new_node ⟨h, r.2.1⟩
      return (false :: t.1, t.2)

/-- The body shared by `push` and `emplace` with the outcomes of its compare-and-swap
attempts. -/
def insertTraced (node : Node E) (fuel : Nat) (s : ThreadSafeStack2 E) :
    Exec (List Bool × ThreadSafeStack2 E) := do
  let new_node := (s.heap.alloc node).1
  let h0 := (s.heap.alloc node).2
  let h1 ← h0.setNext (some new_node) s.m_head
  pushLoopTraced fuel (some new_node) ⟨h1, s.m_head⟩

/-- The loop of `tryPop` with the outcomes of its compare-and-swap attempts. -/
def tryPopLoopTraced : Nat → Ptr → ThreadSafeStack2 E →
    Exec (List Bool × Ptr × ThreadSafeStack2 E)
  | 0, _, _ => .fault .outOfFuel
  | fuel + 1, old_head, s =>
    match old_head with
    | none => return ([], none, s)
    | some a => do
      let n ← s.heap.read (some a)
      let r := atomic_compare_exchange s.m_head (some a) n.next
      let s1 := { s with m_head := r.2.1 }
      if r.1 then return ([true], r.2.2, s1)
      else do
        let t ← tryPopLoopTraced fuel r.2.2 s1
        return (false :: t.1, t.2)

/-- Member `tryPop()` with the outcomes of its compare-and-swap attempts. -/
def tryPopTraced (fuel : Nat) (s : ThreadSafeStack2 E) :
    Exec (List Bool × Option E × ThreadSafeStack2 E) := do
  let t ← tryPopLoopTraced fuel s.m_head s
  let r := t.2
  match r.1 with
  | some a => do
    let n ← r.2.heap.read (some a)
    let h ← r.2.heap.setData (some a) none
    return (t.1, n.m_data, { r.2 with heap := h })
  | none => return (t.1, none, r.2)

end ThreadSafeStack2


/-! ## Two pushes of the lock-free queue with interleaved writes -/

/-- A `push` / `emplace` of `ThreadSafeQueue3` that has done its exchange: its locals
`old_back`, `new_node` and `new_element`. -/
structure PendingPush (E : Type) where
  old_back : Ptr
  new_node : Ptr
  new_element : Option E
deriving DecidableEq, Repr

/-- The two writes that follow the exchange, in program order: the payload write and the
link write. -/
inductive PushWrite
  | data
  | link
deriving DecidableEq, Repr

/-- The two pushes of an interleaving. -/
inductive Pusher
  | A
  | B
deriving DecidableEq, Repr

/-- The first statements of `push` / `emplace` up to and including the exchange of
`m_label_back`: the locals of the call and the state after the exchange. -/
def ThreadSafeQueue3.beginPush {E : Type} (new_element : Option E)
    (q : ThreadSafeQueue3 E) : PendingPush E × ThreadSafeQueue3 E :=
  let r := ThreadSafeQueue3.exchangeBack q
  (⟨r.1.1, r.1.2, new_element⟩, r.2)

/-- One of the two writes of a pending push. -/
def PendingPush.write {E : Type} (p : PendingPush E) :
    PushWrite → ThreadSafeQueue3 E → Exec (ThreadSafeQueue3 E)
  | .data, q => ThreadSafeQueue3.writeData p.old_back p.new_element q
  | .link, q => ThreadSafeQueue3.writeNext p.old_back p.new_node q

/-- The writes of the pending pushes `pa` (A) and `pb` (B) executed in the order
`sched`. -/
def runWrites {E : Type} (pa pb : PendingPush E) :
    List (Pusher × PushWrite) → ThreadSafeQueue3 E → Exec (ThreadSafeQueue3 E)
  | [], q => return q
  | (.A, w) :: rest, q => do
    let q1 ← pa.write w q
    runWrites pa pb rest q1
  | (.B, w) :: rest, q => do
    let q1 ← pb.write w q
    runWrites pa pb rest q1

/-- The interleavings of `x :: xs` with a second sequence, given the interleavings `tails`
of `xs` with any sequence. -/
def mergesCons {α : Type} (x : α) (xs : List α) (tails : List α → List (List α)) :
    List α → List (List α)
  | [] => [x :: xs]
  | y :: ys =>
    (tails (y :: ys)).map (fun l => x :: l)
      ++ (mergesCons x xs tails ys).map (fun l => y :: l)

/-- All interleavings of two sequences that keep the order of each. -/
def merges {α : Type} : List α → List α → List (List α)
  | [] => fun ys => [ys]
  | x :: xs => mergesCons x xs (merges xs)


/-! ## Retry loops among completed calls of other threads

The loops below run a batch of complete calls of other threads (`others.headD []`,
executed one at a time with their own loop bound `f`) before every evaluation of the
loop condition, that is between the initial load and each compare-and-swap attempt. -/

namespace ThreadSafeQueue3

variable {E : Type}

/-- The last statement of `tryPop`:
`return front_node->next ? std::move(front_node->m_data) : nullptr`. -/
def tryPopReturn (front_node : Ptr) (q : ThreadSafeQueue3 E) :
    Exec (Option E × ThreadSafeQueue3 E) := do
  let n ← q.heap.read front_node
  match n.next with
  | some _ => do
    let h ← q.heap.setData front_node none
    return (n.m_data, { q with heap := h })
  | none => return (none, q)

end ThreadSafeQueue3

namespace ThreadSafeStack2

variable {E : Type}

/-- The loop of `push` / `emplace` with the batches `others` of completed calls of other
threads executed before its compare-and-swap attempts. Returns the state in which the
successful compare-and-swap was performed and the state after it. -/
def pushLoopAmong (f : Nat) :
    Nat → List (List (TryCall E)) → Ptr → ThreadSafeStack2 E →
      Exec (ThreadSafeStack2 E × ThreadSafeStack2 E)
  | 0, _, _, _ => .fault .outOfFuel
  | fuel + 1, others, new_node, s => do
    let r0 ← run f (others.headD []) s
    let s0 := r0.2
    let n ← s0.heap.read new_node
    let r := atomic_compare_exchange s0.m_head n.next new_node
    if r.1 then
      return (s0, { s0 with m_head := r.2.1 })
    else do
      let h ← s0.heap.setNext new_node r.2.2
      pushLoopAmong f fuel others.tail new_node ⟨h, r.2.1⟩

/-- The body shared by `push` and `emplace` with the batches `others` of completed calls
of other threads executed between its initial load of `m_head` and its compare-and-swap
attempts. Returns the state in which the successful compare-and-swap was performed and
the state after it. -/
def insertAmong (node : Node E) (f fuel : Nat) (others : List (List (TryCall E)))
    (s : ThreadSafeStack2 E) : Exec (ThreadSafeStack2 E × ThreadSafeStack2 E) := do
  let new_node := (s.heap.alloc node).1
  let h0 := (s.heap.alloc node).2
  let h1 ← h0.setNext (some new_node) s.m_head
  pushLoopAmong f fuel others (some new_node) ⟨h1, s.m_head⟩

end ThreadSafeStack2

/-- The position of a thread in its call of `ThreadSafeQueue3::push` or
`ThreadSafeQueue3::tryPop`: the next access to execute, with the locals of the call. -/
inductive Queue3Pc (E : Type)
  /-- Before `push(element)`: `new_element`, `new_node` and the exchange of
  `m_label_back` come next. -/
  | pushEntry (element : E)
  /-- Before `old_back->m_data = std::move(new_element);`. -/
  | pushData (p : PendingPush E)
  /-- Before `old_back->next = std::move(new_node);`. -/
  | pushLink (p : PendingPush E)
  /-- Before `NodePtr front_node(std::atomic_load(&m_label_front));`. -/
  | popEntry
  /-- Before the read of `front_node->next` in the loop condition. -/
  | popTest (front_node : Ptr)
  /-- Before the read of `front_node->next` as the third argument of the
  compare-and-swap. -/
  | popArg (front_node : Ptr)
  /-- Before `std::atomic_compare_exchange_weak(&m_label_front, &front_node, desired)`. -/
  | popCas (front_node desired : Ptr)
  /-- Before the read of `front_node->next` in the `return` statement. -/
  | popReturn (front_node : Ptr)
  /-- Before the read of the pointer held by `front_node->m_data`, the first access of
  `std::move(front_node->m_data)`. -/
  | popMove (front_node : Ptr)
  /-- Before `front_node->m_data` is set to null, the second access of
  `std::move(front_node->m_data)`; `result` is the pointer that was read. -/
  | popClear (front_node : Ptr) (result : Option E)
  /-- The call has returned; `result` is `some r` for a `tryPop` that returned the
  pointer `r` and `none` for a `push`. -/
  | returned (result : Option (Option E))
deriving DecidableEq, Repr

namespace Queue3Pc

variable {E : Type}

/-- The next access of a call. -/
def step (q : ThreadSafeQueue3 E) : Queue3Pc E → Exec (Queue3Pc E × ThreadSafeQueue3 E)
  | .pushEntry element =>
    let r := ThreadSafeQueue3.beginPush (some element) q
    return (.pushData r.1, r.2)
  | .pushData p => do
    let q1 ← ThreadSafeQueue3.writeData p.old_back p.new_element q
    return (.pushLink p, q1)
  | .pushLink p => do
    let q1 ← ThreadSafeQueue3.writeNext p.old_back p.new_node q
    return (.returned none, q1)
  | .popEntry => return (.popTest q.m_label_front, q)
  | .popTest front_node => do
    let n ← q.heap.read front_node
    match n.next with
    | none => return (.popReturn front_node, q)
    | some _ => return (.popArg front_node, q)
  | .popArg front_node => do
    let n ← q.heap.read front_node
    return (.popCas front_node n.next, q)
  | .popCas front_node desired =>
    let r := atomic_compare_exchange q.m_label_front front_node desired
    let q1 := { q with m_label_front := r.2.1 }
    if r.1 then return (.popReturn r.2.2, q1) else return (.popTest r.2.2, q1)
  | .popReturn front_node => do
    let n ← q.heap.read front_node
    match n.next with
    | none => return (.returned (some none), q)
    | some _ => return (.popMove front_node, q)
  | .popMove front_node => do
    let n ← q.heap.read front_node
    return (.popClear front_node n.m_data, q)
  | .popClear front_node result => do
    let h ← q.heap.setData front_node none
    return (.returned (some result), { q with heap := h })
  | .returned result => return (.returned result, q)

/-- The call of a `push` or `tryPop`, before its first access. -/
def ofCall : PushPop E → Queue3Pc E
  | .push element => .pushEntry element
  | .tryPop => .popEntry

/-- The pointer that a returned `tryPop` returned. -/
def popResult : Queue3Pc E → Option (Option E)
  | .returned result => result
  | _ => none

/-- Whether the call has returned. -/
def isReturned : Queue3Pc E → Bool
  | .returned _ => true
  | _ => false

end Queue3Pc

/-- A `ThreadSafeQueue3` shared by threads that each execute one call. -/
structure Queue3Threads (E : Type) where
  q : ThreadSafeQueue3 E
  threads : List (Queue3Pc E)
deriving DecidableEq, Repr

namespace Queue3Threads

variable {E : Type}

/-- A newly constructed queue and one thread per call, none of them started. -/
def init (calls : List (PushPop E)) : Queue3Threads E :=
  ⟨ThreadSafeQueue3.new, calls.map Queue3Pc.ofCall⟩

/-- A step of thread `i`: the next access of its call. -/
def step (i : Nat) (s : Queue3Threads E) : Exec (Queue3Threads E) :=
  match s.threads[i]? with
  | none => return s
  | some pc => do
    let r ← pc.step s.q
    return ⟨r.2, s.threads.set i r.1⟩

/-- The steps of a schedule, in order. -/
def run : List Nat → Queue3Threads E → Exec (Queue3Threads E)
  | [], s => return s
  | i :: schedule, s => do
    let s1 ← step i s
    run schedule s1

/-- The non-null pointers returned by the `tryPop` calls that have returned, in thread
order. -/
def delivered (s : Queue3Threads E) : List E :=
  (s.threads.filterMap Queue3Pc.popResult).filterMap id

end Queue3Threads


/-! ## Threads calling `ThreadSafeQueue2` concurrently

Two producer threads call `push` for the elements of their lists, one after the other,
and one consumer thread calls `tryPop` repeatedly. A step of a thread executes its next
statement; the steps of the threads are interleaved by a schedule, the list of the
threads that step, and every statement takes effect at once for all threads. The two
mutexes are flags: a thread whose next statement locks a held mutex does not advance. -/

/-- The position of a producer thread in its calls of `ThreadSafeQueue2::push`: the next
statement to execute, with the local `new_back` (the address of the node of
`new_node`). -/
inductive Queue2PushPc
  /-- Before `NodePtr new_node(std::make_unique<Node>(element));`
  `Node *new_back = new_node.get();` of the next call. -/
  | entry
  /-- Before `std::lock_guard<std::mutex> lock_back(m_mutex_back);`. -/
  | lock (new_back : Nat)
  /-- Before `m_node_back->m_data = std::move(new_node->m_data);`. -/
  | data (new_back : Nat)
  /-- Before `m_node_back->next = std::move(new_node);`. -/
  | link (new_back : Nat)
  /-- Before `m_node_back = new_back;`. -/
  | back (new_back : Nat)
  /-- Before the end of the scope of `lock_back`. -/
  | unlock
  /-- Before `m_cond.notify_one();`, after which the call returns. -/
  | notify
deriving DecidableEq, Repr

/-- The position of the consumer thread in its calls of `ThreadSafeQueue2::tryPop`: the
next statement to execute, with the local `front_node`. -/
inductive Queue2PopPc
  /-- Before `std::unique_lock<std::mutex> lock_front(m_mutex_front);` of the next call. -/
  | entry
  /-- Before `if (!m_node_front->next) return ElementPtr(nullptr);`. -/
  | test
  /-- Before `NodePtr front_node(std::move(m_node_front));`. -/
  | take
  /-- Before `m_node_front = std::move(front_node->next);`. -/
  | advance (front_node : Ptr)
  /-- Before `return std::move(front_node->m_data);`. -/
  | ret (front_node : Ptr)
deriving DecidableEq, Repr

/-- A producer thread: its position and the elements it still has to push, the first of
which is the argument of the call in progress, if one is. -/
structure Queue2Producer (E : Type) where
  pc : Queue2PushPc
  todo : List E
deriving DecidableEq, Repr

/-- The consumer thread: its position, the number of `tryPop` calls it still has to
complete and the pointers returned by its completed calls, in call order. -/
structure Queue2Consumer (E : Type) where
  pc : Queue2PopPc
  calls : Nat
  popped : List (Option E)
deriving DecidableEq, Repr

/-- The threads of an interleaving. -/
inductive Queue2Thread
  | producer (p : Pusher)
  | consumer
deriving DecidableEq, Repr

/-- A `ThreadSafeQueue2` shared by two producer threads and a consumer thread:
the queue, whether `m_mutex_front` and `m_mutex_back` are held, and the threads. -/
structure Queue2Threads (E : Type) where
  q : ThreadSafeQueue2 E
  m_mutex_front : Bool
  m_mutex_back : Bool
  producerA : Queue2Producer E
  producerB : Queue2Producer E
  consumer : Queue2Consumer E
deriving DecidableEq, Repr

namespace Queue2Threads

variable {E : Type}

/-- A newly constructed queue, producers that have to push `xs` and `ys`, and a consumer
that has to call `tryPop` `calls` times. -/
def init (xs ys : List E) (calls : Nat) : Queue2Threads E :=
  ⟨ThreadSafeQueue2.new, false, false, ⟨.entry, xs⟩, ⟨.entry, ys⟩, ⟨.entry, calls, []⟩⟩

/-- The producer thread `p`. -/
def producer (s : Queue2Threads E) : Pusher → Queue2Producer E
  | .A => s.producerA
  | .B => s.producerB

/-- The system with the producer thread `p` replaced. -/
def setProducer (s : Queue2Threads E) (p : Pusher) (pr : Queue2Producer E) :
    Queue2Threads E :=
  match p with
  | .A => { s with producerA := pr }
  | .B => { s with producerB := pr }

/-- The next statement of the producer thread `p`. -/
def stepProducer (p : Pusher) (s : Queue2Threads E) : Exec (Queue2Threads E) :=
  match (s.producer p).pc with
  | .entry =>
    match (s.producer p).todo with
    | [] => return s
    | element :: _ =>
      -- NodePtr new_node(std::make_unique<Node>(element)); Node *new_back = new_node.get();
      let r := s.q.heap.alloc (Node.ofElement element)
      return (({ s with q := { s.q with heap := r.2 } } : Queue2Threads E).setProducer p
        ⟨.lock r.1, (s.producer p).todo⟩)
  | .lock new_back =>
    -- std::lock_guard<std::mutex> lock_back(m_mutex_back);
    if s.m_mutex_back then return s
    else return (({ s with m_mutex_back := true } : Queue2Threads E).setProducer p
      ⟨.data new_back, (s.producer p).todo⟩)
  | .data new_back => do
    -- m_node_back->m_data = std::move(new_node->m_data);
    let new_node ← s.q.heap.read (some new_back)
    let h1 ← s.q.heap.setData s.q.m_node_back new_node.m_data
    let h2 ← h1.setData (some new_back) none
    return (({ s with q := { s.q with heap := h2 } } : Queue2Threads E).setProducer p
      ⟨.link new_back, (s.producer p).todo⟩)
  | .link new_back => do
    -- m_node_back->next = std::move(new_node): store, then release the old pointee
    let back ← s.q.heap.read s.q.m_node_back
    let h3 ← s.q.heap.setNext s.q.m_node_back (some new_back)
    let h4 := h3.release back.next
    return (({ s with q := { s.q with heap := h4 } } : Queue2Threads E).setProducer p
      ⟨.back new_back, (s.producer p).todo⟩)
  | .back new_back =>
    -- m_node_back = new_back;
    return (({ s with q := { s.q with m_node_back := some new_back } } :
      Queue2Threads E).setProducer p ⟨.unlock, (s.producer p).todo⟩)
  | .unlock =>
    -- ~lock_back
    return (({ s with m_mutex_back := false } : Queue2Threads E).setProducer p
      ⟨.notify, (s.producer p).todo⟩)
  | .notify =>
    -- m_cond.notify_one(): no thread waits on m_cond; the call returns
    return s.setProducer p ⟨.entry, (s.producer p).todo.tail⟩

/-- The next statement of the consumer thread. -/
def stepConsumer (s : Queue2Threads E) : Exec (Queue2Threads E) :=
  match s.consumer.pc with
  | .entry =>
    match s.consumer.calls with
    | 0 => return s
    | _ + 1 =>
      -- std::unique_lock<std::mutex> lock_front(m_mutex_front);
      if s.m_mutex_front then return s
      else return { s with m_mutex_front := true, consumer := { s.consumer with pc := .test } }
  | .test => do
    -- if (!m_node_front->next) return ElementPtr(nullptr);
    let front ← s.q.heap.read s.q.m_node_front
    match front.next with
    | none =>
      return { s with
        m_mutex_front := false
        consumer := ⟨.entry, s.consumer.calls - 1, s.consumer.popped ++ [none]⟩ }
    | some _ => return { s with consumer := { s.consumer with pc := .take } }
  | .take =>
    -- NodePtr front_node(std::move(m_node_front));
    return { s with
      q := { s.q with m_node_front := none }
      consumer := { s.consumer with pc := .advance s.q.m_node_front } }
  | .advance front_node => do
    -- m_node_front = std::move(front_node->next): the source is set to null, the
    -- target is stored and its old pointee released
    let n ← s.q.heap.read front_node
    let h1 ← s.q.heap.setNext front_node none
    let h2 := h1.release s.q.m_node_front
    return { s with
      q := { s.q with heap := h2, m_node_front := n.next }
      consumer := { s.consumer with pc := .ret front_node } }
  | .ret front_node => do
    -- return std::move(front_node->m_data); then ~front_node and ~lock_front
    let n ← s.q.heap.read front_node
    let h1 ← s.q.heap.setData front_node none
    let h2 := h1.release front_node
    return { s with
      q := { s.q with heap := h2 }
      m_mutex_front := false
      consumer := ⟨.entry, s.consumer.calls - 1, s.consumer.popped ++ [n.m_data]⟩ }

/-- A step of a thread: its next statement. -/
def step (t : Queue2Thread) (s : Queue2Threads E) : Exec (Queue2Threads E) :=
  match t with
  | .producer p => stepProducer p s
  | .consumer => stepConsumer s

/-- The steps of a schedule, in order. -/
def run : List Queue2Thread → Queue2Threads E → Exec (Queue2Threads E)
  | [], s => return s
  | t :: schedule, s => do
    let s1 ← step t s
    run schedule s1

/-- The payloads tagged with producer `p` among the non-null pointers of a list, in
order. -/
def payloadsOf {V : Type} (p : Pusher) (l : List (Option (Pusher × V))) : List V :=
  ((l.filterMap id).filter (fun e => e.1 = p)).map Prod.snd

/-- The payloads that the consumer has received so far from producer `p`, in the order
of the `tryPop` calls that returned them; the elements are tagged with their
producer. -/
def received {V : Type} (p : Pusher) (s : Queue2Threads (Pusher × V)) : List V :=
  payloadsOf p s.consumer.popped

/-- Whether every thread has finished: the producers have pushed all their elements
and the consumer has completed its calls. -/
def finished (s : Queue2Threads E) : Bool :=
  s.producerA.pc = .entry && s.producerA.todo.isEmpty
    && (s.producerB.pc = .entry && s.producerB.todo.isEmpty)
    && (s.consumer.pc = .entry && s.consumer.calls = 0)

end Queue2Threads

/-- Whether a producer at this position holds `m_mutex_back`. -/
def Queue2PushPc.holds : Queue2PushPc → Bool
  | .data _ | .link _ | .back _ | .unlock => true
  | _ => false

/-- The node of `new_node` while the producer still owns it. -/
def Queue2PushPc.priv : Queue2PushPc → List Nat
  | .lock n | .data n | .link n => [n]
  | _ => []

/-- Whether the node that carries the element of the call in progress is linked. -/
def Queue2PushPc.linked : Queue2PushPc → Bool
  | .back _ | .unlock | .notify => true
  | _ => false

/-- Whether the next statement is the link write. -/
def Queue2PushPc.atLink : Queue2PushPc → Bool
  | .link _ => true
  | _ => false

/-- Whether the next statement is the assignment of `m_node_back`. -/
def Queue2PushPc.atBack : Queue2PushPc → Bool
  | .back _ => true
  | _ => false

/-- The elements of a producer that are not linked into the queue yet. -/
def Queue2Producer.pending {E : Type} (pr : Queue2Producer E) : List E :=
  if pr.pc.linked then pr.todo.tail else pr.todo

/-- Whether the consumer at this position holds `m_mutex_front`. -/
def Queue2PopPc.holds : Queue2PopPc → Bool
  | .entry => false
  | _ => true

/-- The detached node that the consumer owns. -/
def Queue2PopPc.hand : Queue2PopPc → List Nat
  | .ret (some f) => [f]
  | _ => []

/-- The first node of the list: `front_node` while `m_node_front` is moved out, otherwise
`m_node_front`. -/
def Queue2Threads.logicalFront {E : Type} (s : Queue2Threads E) : Ptr :=
  match s.consumer.pc with
  | .advance front_node => front_node
  | _ => s.q.m_node_front

/-- What a producer at its position knows about its node `new_node`, about the sentinel
`bk` and about its list `todo`. -/
def Queue2PushPc.Ok {E : Type} (h : Heap E) (bk : Nat) (todo : List E) :
    Queue2PushPc → Prop
  | .lock n | .data n =>
    ∃ v rest, todo = v :: rest ∧ h.read (some n) = .ok ⟨some v, none⟩
  | .link n =>
    ∃ v rest, todo = v :: rest ∧ h.read (some n) = .ok ⟨none, none⟩
      ∧ h.read (some bk) = .ok ⟨some v, none⟩
  | .back n => bk = n
  | _ => True

/-- What the consumer at its position knows about the list `cells`, about
`m_node_front` and about the payload `hd` of the node it has detached. -/
def Queue2PopPc.Ok {E : Type} (q : ThreadSafeQueue2 E) (cells : List (Nat × Option E))
    (hd : List (Option E)) : Queue2PopPc → Prop
  | .entry | .test => hd = []
  | .take => hd = [] ∧ cells ≠ []
  | .advance _ => hd = [] ∧ cells ≠ [] ∧ q.m_node_front = none
  | .ret front_node =>
    ∃ f d, front_node = some f ∧ q.heap.read (some f) = .ok ⟨d, none⟩ ∧ hd = [d]

/-- The invariant of the interleaved runs. The list from the first node runs through the
distinct cells `cells` to the sentinel `bk`; the nodes still owned by a producer and the
node detached by the consumer are live, distinct and not in the list; `m_mutex_back` is
held by at most one producer; and for each producer `p` (the elements are tagged by
`tag`) the elements received, detached or stored that carry its tag, followed by its
elements not linked yet, are the list `all p` it was given. -/
structure Queue2Threads.Inv {E : Type} (tag : E → Pusher) (all : Pusher → List E)
    (s : Queue2Threads E) (cells : List (Nat × Option E)) (bk : Nat)
    (hd : List (Option E)) : Prop where
  chain : IsChain s.q.heap s.logicalFront cells (some bk)
  sentinel : ∃ d, s.q.heap.read (some bk) = .ok ⟨d, none⟩
    ∧ ((∀ p, (s.producer p).pc.atLink = false) → d = none)
  cellsNodup : (cells.map Prod.fst ++ [bk]).Nodup
  privFresh : ∀ p, ∀ n ∈ (s.producer p).pc.priv, n ∉ cells.map Prod.fst ++ [bk]
  privDistinct : ∀ p q, p ≠ q →
    ∀ n ∈ (s.producer p).pc.priv, n ∉ (s.producer q).pc.priv
  handFresh : ∀ f ∈ s.consumer.pc.hand,
    f ∉ cells.map Prod.fst ++ [bk] ∧ ∀ p, f ∉ (s.producer p).pc.priv
  back : (∀ p, (s.producer p).pc.atBack = false) → s.q.m_node_back = some bk
  producers : ∀ p, (s.producer p).pc.Ok s.q.heap bk (s.producer p).todo
  consumer : s.consumer.pc.Ok s.q cells hd
  mutex_back : s.m_mutex_back = true ↔ ∃ p, (s.producer p).pc.holds = true
  exclusive : ∀ p q, p ≠ q →
    (s.producer p).pc.holds = true → (s.producer q).pc.holds = false
  mutex_front : s.m_mutex_front = s.consumer.pc.holds
  order : ∀ p,
    ((s.consumer.popped ++ hd ++ cells.map Prod.snd).filterMap id).filter
        (fun e => tag e = p) ++ (s.producer p).pending = all p
  tags : ∀ p, ∀ e ∈ (s.producer p).todo, tag e = p


/-! ## Theorems -/

section Queue1Proofs

variable {E : Type}

theorem queue1_pushAll_m_queue (xs : List E) (q : ThreadSafeQueue1 E) :
    (ThreadSafeQueue1.pushAll xs q).m_queue = q.m_queue ++ xs.map some := by
  induction xs generalizing q with
  | nil => simp [ThreadSafeQueue1.pushAll]
  | cons x xs ih =>
    have h := ih (ThreadSafeQueue1.push x q)
    simp only [ThreadSafeQueue1.pushAll, List.foldl_cons] at h ⊢
    rw [h]
    simp [ThreadSafeQueue1.push]

theorem queue1_popN_of_contents (ys : List (Option E)) :
    ThreadSafeQueue1.popN ys.length (⟨ys⟩ : ThreadSafeQueue1 E) = (ys, ⟨[]⟩) := by
  induction ys with
  | nil => rfl
  | cons y ys ih => simp [ThreadSafeQueue1.popN, ThreadSafeQueue1.tryPop, ih]

/-- C1: pushing the elements of `xs` in order onto a newly constructed
`ThreadSafeQueue1` and calling `tryPop` `|xs|` times returns exactly the elements of
`xs` in push order (each as a non-null pointer), and one further `tryPop` returns
null. -/
theorem queue1_fifo (xs : List E) :
    (ThreadSafeQueue1.popN xs.length (ThreadSafeQueue1.pushAll xs ThreadSafeQueue1.new)).1
        = xs.map some
      ∧ (ThreadSafeQueue1.tryPop
          (ThreadSafeQueue1.popN xs.length
            (ThreadSafeQueue1.pushAll xs ThreadSafeQueue1.new)).2).1 = none := by
  have hq : ThreadSafeQueue1.pushAll xs (ThreadSafeQueue1.new : ThreadSafeQueue1 E)
      = ⟨xs.map some⟩ := by
    have h := queue1_pushAll_m_queue xs (ThreadSafeQueue1.new : ThreadSafeQueue1 E)
    cases hp : ThreadSafeQueue1.pushAll xs (ThreadSafeQueue1.new : ThreadSafeQueue1 E) with
    | mk m =>
      rw [hp] at h
      simp only [ThreadSafeQueue1.new, List.nil_append] at h
      rw [h]
  have hpop := queue1_popN_of_contents (xs.map some)
  rw [List.length_map] at hpop
  rw [hq, hpop]
  exact ⟨rfl, rfl⟩

/-- Scenario S1 of the specification: push 0..9, ten `tryPop` calls return 0,1,…,9,
the eleventh returns null. -/
theorem queue1_scenario_S1 :
    (ThreadSafeQueue1.popN 11
        (ThreadSafeQueue1.pushAll (List.range 10) ThreadSafeQueue1.new)).1
      = [some 0, some 1, some 2, some 3, some 4, some 5, some 6, some 7, some 8, some 9,
          none] := by
  decide

end Queue1Proofs

section Stack1Proofs

variable {E : Type}

theorem stack1_pushAll_m_stack (xs : List E) (s : ThreadSafeStack1 E) :
    (ThreadSafeStack1.pushAll xs s).m_stack = s.m_stack ++ xs.map some := by
  induction xs generalizing s with
  | nil => simp [ThreadSafeStack1.pushAll]
  | cons x xs ih =>
    have h := ih (ThreadSafeStack1.push x s)
    simp only [ThreadSafeStack1.pushAll, List.foldl_cons] at h ⊢
    rw [h]
    simp [ThreadSafeStack1.push]

theorem stack1_popN_of_contents (ys : List (Option E)) :
    ThreadSafeStack1.popN ys.length (⟨ys⟩ : ThreadSafeStack1 E) = (ys.reverse, ⟨[]⟩) := by
  induction ys using List.reverseRecOn with
  | nil => rfl
  | append_singleton ys y ih =>
    simp [ThreadSafeStack1.popN, ThreadSafeStack1.tryPop, ih]

/-- C4: pushing the elements of `xs` in order onto a newly constructed
`ThreadSafeStack1` and calling `tryPop` `|xs|` times returns the elements of `xs` in
reverse push order (each as a non-null pointer), and one further `tryPop` returns
null. -/
theorem stack1_lifo (xs : List E) :
    (ThreadSafeStack1.popN xs.length (ThreadSafeStack1.pushAll xs ThreadSafeStack1.new)).1
        = xs.reverse.map some
      ∧ (ThreadSafeStack1.tryPop
          (ThreadSafeStack1.popN xs.length
            (ThreadSafeStack1.pushAll xs ThreadSafeStack1.new)).2).1 = none := by
  have hq : ThreadSafeStack1.pushAll xs (ThreadSafeStack1.new : ThreadSafeStack1 E)
      = ⟨xs.map some⟩ := by
    have h := stack1_pushAll_m_stack xs (ThreadSafeStack1.new : ThreadSafeStack1 E)
    cases hp : ThreadSafeStack1.pushAll xs (ThreadSafeStack1.new : ThreadSafeStack1 E) with
    | mk m =>
      rw [hp] at h
      simp only [ThreadSafeStack1.new, List.nil_append] at h
      rw [h]
  have hpop := stack1_popN_of_contents (xs.map some)
  rw [List.length_map] at hpop
  rw [hq, hpop, List.map_reverse]
  exact ⟨rfl, rfl⟩

/-- Scenario S2 of the specification: push 0..4, five `tryPop` calls return
4,3,2,1,0, the sixth returns null. -/
theorem stack1_scenario_S2 :
    (ThreadSafeStack1.popN 6
        (ThreadSafeStack1.pushAll (List.range 5) ThreadSafeStack1.new)).1
      = [some 4, some 3, some 2, some 1, some 0, none] := by
  decide

end Stack1Proofs

section HeapProofs

variable {E : Type}

@[simp] theorem Exec.ok_bind {α β : Type} (a : α) (f : α → Exec β) :
    (Exec.ok a >>= f) = f a := rfl

@[simp] theorem Exec.fault_bind {α β : Type} (e : Fault) (f : α → Exec β) :
    (Exec.fault e >>= f) = Exec.fault e := rfl

@[simp] theorem Exec.pure_eq {α : Type} (a : α) : (pure a : Exec α) = Exec.ok a := rfl

theorem Heap.read_ok_iff (h : Heap E) (a : Nat) (n : Node E) :
    h.read (some a) = .ok n ↔ h.cells[a]? = some (some n) := by
  unfold Heap.read
  simp only
  cases hc : h.cells[a]? with
  | none => simp
  | some c =>
    cases c with
    | none => simp
    | some m => simp

theorem Heap.read_ok_lt {h : Heap E} {a : Nat} {n : Node E}
    (hr : h.read (some a) = .ok n) : a < h.cells.length := by
  rw [Heap.read_ok_iff] at hr
  rcases Nat.lt_or_ge a h.cells.length with hlt | hge
  · exact hlt
  · rw [List.getElem?_eq_none hge] at hr
    cases hr

theorem Heap.read_congr {h h' : Heap E} {a : Nat}
    (hc : h'.cells[a]? = h.cells[a]?) : h'.read (some a) = h.read (some a) := by
  unfold Heap.read
  simp only [hc]

theorem Heap.read_write_same {h : Heap E} {a : Nat} (n : Node E)
    (hlt : a < h.cells.length) : (h.write a n).read (some a) = .ok n := by
  rw [Heap.read_ok_iff]
  simp [Heap.write, List.getElem?_set_self hlt]

theorem Heap.read_write_ne {h : Heap E} {a b : Nat} (n : Node E) (hne : a ≠ b) :
    (h.write a n).read (some b) = h.read (some b) := by
  apply Heap.read_congr
  simp [Heap.write, List.getElem?_set_ne hne]

theorem Heap.read_free_ne {h : Heap E} {a b : Nat} (hne : a ≠ b) :
    (h.free a).read (some b) = h.read (some b) := by
  apply Heap.read_congr
  simp [Heap.free, List.getElem?_set_ne hne]

theorem Heap.read_alloc_new (h : Heap E) (n : Node E) :
    (h.alloc n).2.read (some h.cells.length) = .ok n := by
  rw [Heap.read_ok_iff]
  simp [Heap.alloc]

theorem Heap.read_alloc_old {h : Heap E} {a : Nat} (n : Node E)
    (hlt : a < h.cells.length) : (h.alloc n).2.read (some a) = h.read (some a) := by
  apply Heap.read_congr
  simp [Heap.alloc, List.getElem?_append_left hlt]

@[simp] theorem Heap.write_length (h : Heap E) (a : Nat) (n : Node E) :
    (h.write a n).cells.length = h.cells.length := by
  simp [Heap.write]

@[simp] theorem Heap.free_length (h : Heap E) (a : Nat) :
    (h.free a).cells.length = h.cells.length := by
  simp [Heap.free]

@[simp] theorem Heap.alloc_length (h : Heap E) (n : Node E) :
    (h.alloc n).2.cells.length = h.cells.length + 1 := by
  simp [Heap.alloc]

@[simp] theorem Heap.alloc_fst (h : Heap E) (n : Node E) :
    (h.alloc n).1 = h.cells.length := rfl

theorem Heap.store_eq {h : Heap E} {a : Nat} {n : Node E} (m : Node E)
    (hr : h.read (some a) = .ok n) : h.store (some a) m = .ok (h.write a m) := by
  unfold Heap.store
  rw [hr]

theorem Heap.setData_eq {h : Heap E} {a : Nat} {n : Node E} (d : Option E)
    (hr : h.read (some a) = .ok n) :
    h.setData (some a) d = .ok (h.write a ⟨d, n.next⟩) := by
  unfold Heap.setData
  rw [hr, Exec.ok_bind, Heap.store_eq _ hr]

theorem Heap.setNext_eq {h : Heap E} {a : Nat} {n : Node E} (nx : Ptr)
    (hr : h.read (some a) = .ok n) :
    h.setNext (some a) nx = .ok (h.write a ⟨n.m_data, nx⟩) := by
  unfold Heap.setNext
  rw [hr, Exec.ok_bind, Heap.store_eq _ hr]

theorem Heap.releaseAux_none (fuel : Nat) (h : Heap E) :
    Heap.releaseAux fuel none h = h := by
  cases fuel <;> rfl

@[simp] theorem Heap.release_none (h : Heap E) : h.release none = h :=
  Heap.releaseAux_none _ h

theorem Heap.release_single {h : Heap E} {a : Nat} {n : Node E}
    (hr : h.read (some a) = .ok n) (hn : n.next = none) :
    h.release (some a) = h.free a := by
  have hlt := Heap.read_ok_lt hr
  unfold Heap.release
  obtain ⟨k, hk⟩ : ∃ k, h.cells.length = k + 1 := ⟨h.cells.length - 1, by omega⟩
  rw [hk, Heap.releaseAux, hr]
  simp only [hn]
  exact Heap.releaseAux_none _ _

end HeapProofs

section ChainProofs

variable {E : Type}

theorem IsChain.frame {h h' : Heap E} {cells : List (Nat × Option E)} {p b : Ptr}
    (hc : IsChain h p cells b)
    (hf : ∀ a ∈ cells.map Prod.fst, h'.read (some a) = h.read (some a)) :
    IsChain h' p cells b := by
  induction cells generalizing p with
  | nil => exact hc
  | cons c rest ih =>
    obtain ⟨hp, nx, hr, hrest⟩ := hc
    refine ⟨hp, nx, ?_, ih hrest ?_⟩
    · rw [hf c.1 (by simp)]
      exact hr
    · intro a ha
      exact hf a (by simp only [List.map_cons, List.mem_cons]; exact Or.inr ha)

theorem IsChain.snoc {h : Heap E} {cells : List (Nat × Option E)} {p nx : Ptr}
    {bk : Nat} {v : Option E} (hc : IsChain h p cells (some bk))
    (hr : h.read (some bk) = .ok ⟨v, nx⟩) : IsChain h p (cells ++ [(bk, v)]) nx := by
  induction cells generalizing p with
  | nil => exact ⟨hc, nx, hr, rfl⟩
  | cons c rest ih =>
    obtain ⟨hp, n1, hr1, hrest⟩ := hc
    exact ⟨hp, n1, hr1, ih hrest⟩

theorem IsChain.lt {h : Heap E} {cells : List (Nat × Option E)} {p b : Ptr}
    (hc : IsChain h p cells b) : ∀ a ∈ cells.map Prod.fst, a < h.cells.length := by
  induction cells generalizing p with
  | nil => intro a ha; simp at ha
  | cons c rest ih =>
    obtain ⟨_, nx, hr, hrest⟩ := hc
    intro a ha
    simp only [List.map_cons, List.mem_cons] at ha
    rcases ha with rfl | ha
    · exact Heap.read_ok_lt hr
    · exact ih hrest a ha

end ChainProofs

section Queue2Proofs

variable {E : Type}

theorem queue2_new_sentinel :
    SentinelList (ThreadSafeQueue2.new (E := E)).heap
      (ThreadSafeQueue2.new (E := E)).m_node_front
      (ThreadSafeQueue2.new (E := E)).m_node_back [] :=
  ⟨0, rfl, rfl, rfl, by simp⟩

/-- Effect of the shared body of `push` / `emplace` on a sentinel-terminated list: the
old sentinel receives the payload of the new node and the new node becomes the
sentinel. -/
theorem queue2_enqueue_sentinel {q : ThreadSafeQueue2 E}
    {cells : List (Nat × Option E)} (node : Node E) (hnode : node.next = none)
    (hq : SentinelList q.heap q.m_node_front q.m_node_back cells) :
    ∃ q' bk, q.m_node_back = some bk ∧ ThreadSafeQueue2.enqueue node q = .ok q'
      ∧ q'.m_node_back = some q.heap.cells.length
      ∧ SentinelList q'.heap q'.m_node_front q'.m_node_back
          (cells ++ [(bk, node.m_data)]) := by
  obtain ⟨bk, hback, hchain, hsent, hnd⟩ := hq
  have hbk_lt : bk < q.heap.cells.length := Heap.read_ok_lt hsent
  have hne : bk ≠ q.heap.cells.length := Nat.ne_of_lt hbk_lt
  have hlt := hchain.lt
  -- the heap after each statement
  have r0new := Heap.read_alloc_new q.heap node
  have r0back : (q.heap.alloc node).2.read (some bk) = .ok Node.empty := by
    rw [Heap.read_alloc_old node hbk_lt]; exact hsent
  have r1new : (((q.heap.alloc node).2).write bk ⟨node.m_data, none⟩).read
      (some q.heap.cells.length) = .ok node := by
    rw [Heap.read_write_ne _ hne]; exact r0new
  have r2back : ((((q.heap.alloc node).2).write bk ⟨node.m_data, none⟩).write
      q.heap.cells.length ⟨none, node.next⟩).read (some bk) = .ok ⟨node.m_data, none⟩ := by
    rw [Heap.read_write_ne _ (Ne.symm hne)]
    exact Heap.read_write_same _ (by simp; omega)
  refine ⟨⟨((((q.heap.alloc node).2).write bk ⟨node.m_data, none⟩).write
      q.heap.cells.length ⟨none, node.next⟩).write bk ⟨node.m_data, some q.heap.cells.length⟩,
      q.m_node_front, some q.heap.cells.length⟩, bk, hback, ?_, rfl, ?_⟩
  · unfold ThreadSafeQueue2.enqueue
    simp only [Heap.alloc_fst, hback]
    rw [r0new]
    simp only [Exec.ok_bind]
    rw [Heap.setData_eq _ r0back]
    simp only [Exec.ok_bind, Node.empty]
    rw [Heap.setData_eq _ r1new]
    simp only [Exec.ok_bind]
    rw [r2back]
    simp only [Exec.ok_bind]
    rw [Heap.setNext_eq _ r2back]
    simp only [Exec.ok_bind, Heap.release_none, Exec.pure_eq]
  · refine ⟨q.heap.cells.length, rfl, ?_, ?_, ?_⟩
    · refine IsChain.snoc ?_ ?_
      · apply hchain.frame
        intro a ha
        have ha_lt := hlt a ha
        have ha_bk : bk ≠ a := by
          intro hEq
          subst hEq
          have := List.nodup_append.mp hnd
          exact this.2.2 ha (by simp)
        rw [Heap.read_write_ne _ ha_bk, Heap.read_write_ne _ (by omega),
          Heap.read_write_ne _ ha_bk, Heap.read_alloc_old node ha_lt]
      · exact Heap.read_write_same _ (by simp; omega)
    · rw [Heap.read_write_ne _ hne, Heap.read_write_same _ (by simp), hnode]
      rfl
    · rw [List.map_append, List.map_cons, List.map_nil]
      apply List.nodup_append.mpr
      refine ⟨hnd, by simp, ?_⟩
      intro a ha hb
      simp only [List.mem_singleton] at hb
      subst hb
      simp only [List.mem_append, List.mem_singleton] at ha
      rcases ha with ha | ha
      · exact Nat.lt_irrefl _ (hlt _ ha)
      · exact hne ha.symm

theorem IsChain.ptr_some {h : Heap E} {cells : List (Nat × Option E)} {p : Ptr} {bk : Nat}
    (hc : IsChain h p cells (some bk)) : ∃ a, p = some a := by
  cases cells with
  | nil => exact ⟨bk, hc⟩
  | cons c rest => exact ⟨c.1, hc.1⟩

/-- Effect of detaching the front node of a non-empty sentinel-terminated list: the
payload of the first cell is returned and the rest of the list remains. -/
theorem queue2_detachFront_sentinel {q : ThreadSafeQueue2 E}
    {c : Nat × Option E} {rest : List (Nat × Option E)}
    (hq : SentinelList q.heap q.m_node_front q.m_node_back (c :: rest)) :
    ∃ q', ThreadSafeQueue2.detachFront q = .ok (c.2, q')
      ∧ (∃ nx, q.heap.read q.m_node_front = .ok ⟨c.2, some nx⟩)
      ∧ q'.m_node_back = q.m_node_back
      ∧ SentinelList q'.heap q'.m_node_front q'.m_node_back rest := by
  obtain ⟨bk, hback, hchain, hsent, hnd⟩ := hq
  obtain ⟨hfront, nx, hr, hrest⟩ := hchain
  obtain ⟨nxa, hnx⟩ := hrest.ptr_some
  have hc_lt : c.1 < q.heap.cells.length := Heap.read_ok_lt hr
  have r1 : (q.heap.write c.1 ⟨c.2, none⟩).read (some c.1) = .ok ⟨c.2, none⟩ :=
    Heap.read_write_same _ hc_lt
  have r2 : ((q.heap.write c.1 ⟨c.2, none⟩).write c.1 ⟨none, none⟩).read (some c.1)
      = .ok ⟨none, none⟩ := Heap.read_write_same _ (by simp; exact hc_lt)
  have hfresh : ∀ a ∈ rest.map Prod.fst ++ [bk], c.1 ≠ a := by
    intro a ha hEq
    subst hEq
    simp only [List.map_cons, List.cons_append, List.nodup_cons] at hnd
    exact hnd.1 ha
  have hframe : ∀ a ∈ rest.map Prod.fst ++ [bk],
      (((q.heap.write c.1 ⟨c.2, none⟩).write c.1 ⟨none, none⟩).free c.1).read (some a)
        = q.heap.read (some a) := by
    intro a ha
    have hne := hfresh a ha
    rw [Heap.read_free_ne hne, Heap.read_write_ne _ hne, Heap.read_write_ne _ hne]
  refine ⟨⟨((q.heap.write c.1 ⟨c.2, none⟩).write c.1 ⟨none, none⟩).free c.1, nx,
      q.m_node_back⟩, ?_, ⟨nxa, ?_⟩, rfl, ?_⟩
  · unfold ThreadSafeQueue2.detachFront
    simp only [hfront]
    rw [hr]
    simp only [Exec.ok_bind]
    rw [Heap.setNext_eq _ hr]
    simp only [Exec.ok_bind]
    rw [r1]
    simp only [Exec.ok_bind]
    rw [Heap.setData_eq _ r1]
    simp only [Exec.ok_bind, Exec.pure_eq]
    rw [Heap.release_single r2 rfl]
  · rw [hfront, hr, hnx]
  · refine ⟨bk, hback, ?_, ?_, ?_⟩
    · apply hrest.frame
      intro a ha
      exact hframe a (List.mem_append_left _ ha)
    · rw [hframe bk (by simp)]
      exact hsent
    · simp only [List.map_cons, List.cons_append, List.nodup_cons] at hnd
      exact hnd.2

theorem queue2_tryPop_nil {q : ThreadSafeQueue2 E}
    (hq : SentinelList q.heap q.m_node_front q.m_node_back []) :
    ThreadSafeQueue2.tryPop q = .ok (none, q) := by
  obtain ⟨bk, _, hchain, hsent, _⟩ := hq
  have hfront : q.m_node_front = some bk := hchain
  unfold ThreadSafeQueue2.tryPop
  rw [hfront, hsent]
  rfl

theorem queue2_tryPop_cons {q : ThreadSafeQueue2 E}
    {c : Nat × Option E} {rest : List (Nat × Option E)}
    (hq : SentinelList q.heap q.m_node_front q.m_node_back (c :: rest)) :
    ∃ q', ThreadSafeQueue2.tryPop q = .ok (c.2, q')
      ∧ SentinelList q'.heap q'.m_node_front q'.m_node_back rest := by
  obtain ⟨q', hd, ⟨nx, hr⟩, _, hs⟩ := queue2_detachFront_sentinel hq
  refine ⟨q', ?_, hs⟩
  unfold ThreadSafeQueue2.tryPop
  rw [hr]
  exact hd

theorem queue2_empty_sentinel {q : ThreadSafeQueue2 E}
    {cells : List (Nat × Option E)}
    (hq : SentinelList q.heap q.m_node_front q.m_node_back cells) :
    ThreadSafeQueue2.empty q = .ok cells.isEmpty := by
  obtain ⟨bk, _, hchain, hsent, _⟩ := hq
  unfold ThreadSafeQueue2.empty
  cases cells with
  | nil =>
    have hfront : q.m_node_front = some bk := hchain
    rw [hfront, hsent]
    rfl
  | cons c rest =>
    obtain ⟨hfront, nx, hr, hrest⟩ := hchain
    obtain ⟨nxa, hnx⟩ := hrest.ptr_some
    rw [hfront, hr, hnx]
    rfl

theorem queue2_run_cons (c : Call E) (cs : List (Call E)) (q : ThreadSafeQueue2 E) :
    ThreadSafeQueue2.run (c :: cs) q
      = (ThreadSafeQueue2.step c q >>= fun r =>
          ThreadSafeQueue2.run cs r.2 >>= fun rs => Exec.ok (r.1.toList ++ rs.1, rs.2)) := rfl

/-- Simulation of the reference list by the linked list, from any state that represents
the reference list. -/
theorem queue2_run_refines (ops : List (PushPop E)) :
    ∀ (q : ThreadSafeQueue2 E) (cells : List (Nat × Option E)) (xs : List E),
      SentinelList q.heap q.m_node_front q.m_node_back cells →
      cells.map Prod.snd = xs.map some →
      ∃ q' cells', ThreadSafeQueue2.run (ops.map PushPop.toCall) q
            = .ok ((FifoRef.run ops xs).1, q')
          ∧ SentinelList q'.heap q'.m_node_front q'.m_node_back cells'
          ∧ cells'.map Prod.snd = (FifoRef.run ops xs).2.map some := by
  induction ops with
  | nil =>
    intro q cells xs hq hx
    exact ⟨q, cells, rfl, hq, hx⟩
  | cons op ops ih =>
    intro q cells xs hq hx
    cases op with
    | push element =>
      obtain ⟨q1, bk, _, he, _, hq1⟩ :=
        queue2_enqueue_sentinel (Node.ofElement element) rfl hq
      obtain ⟨q', cells', hrun, hq', hx'⟩ := ih q1 _ (xs ++ [element]) hq1
        (by simp [hx, Node.ofElement])
      refine ⟨q', cells', ?_, hq', hx'⟩
      simp only [List.map_cons, PushPop.toCall, queue2_run_cons,
        ThreadSafeQueue2.step, ThreadSafeQueue2.push, he, Exec.ok_bind, Exec.pure_eq, hrun]
      rfl
    | tryPop =>
      cases cells with
      | nil =>
        have hxs : xs = [] := by
          cases xs with
          | nil => rfl
          | cons x xs => simp at hx
        subst hxs
        obtain ⟨q', cells', hrun, hq', hx'⟩ := ih q [] [] hq rfl
        refine ⟨q', cells', ?_, hq', hx'⟩
        simp only [List.map_cons, PushPop.toCall, queue2_run_cons,
          ThreadSafeQueue2.step, queue2_tryPop_nil hq, Exec.ok_bind, Exec.pure_eq,
          hrun]
        rfl
      | cons c rest =>
        cases xs with
        | nil => simp at hx
        | cons x xs =>
          simp only [List.map_cons, List.cons.injEq] at hx
          obtain ⟨q1, hp, hq1⟩ := queue2_tryPop_cons hq
          obtain ⟨q', cells', hrun, hq', hx'⟩ := ih q1 rest xs hq1 hx.2
          refine ⟨q', cells', ?_, hq', hx'⟩
          simp only [List.map_cons, PushPop.toCall, queue2_run_cons,
            ThreadSafeQueue2.step, hp, Exec.ok_bind, Exec.pure_eq, hrun, hx.1]
          rfl

end Queue2Proofs

section Queue3Proofs

variable {E : Type}

@[simp] theorem Node.empty_next : (Node.empty : Node E).next = none := rfl

@[simp] theorem Node.empty_m_data : (Node.empty : Node E).m_data = none := rfl

theorem queue3_new_sentinel :
    SentinelList (ThreadSafeQueue3.new (E := E)).heap
      (ThreadSafeQueue3.new (E := E)).m_label_front
      (ThreadSafeQueue3.new (E := E)).m_label_back [] :=
  ⟨0, rfl, rfl, rfl, by simp⟩

/-- Effect of the shared body of `push` / `emplace` on a sentinel-terminated list: the
old sentinel receives the payload and the new node becomes the sentinel. -/
theorem queue3_enqueue_sentinel {q : ThreadSafeQueue3 E}
    {cells : List (Nat × Option E)} (d : Option E)
    (hq : SentinelList q.heap q.m_label_front q.m_label_back cells) :
    ∃ q' bk, q.m_label_back = some bk ∧ ThreadSafeQueue3.enqueue d q = .ok q'
      ∧ q'.m_label_back = some q.heap.cells.length
      ∧ SentinelList q'.heap q'.m_label_front q'.m_label_back (cells ++ [(bk, d)]) := by
  obtain ⟨bk, hback, hchain, hsent, hnd⟩ := hq
  have hbk_lt : bk < q.heap.cells.length := Heap.read_ok_lt hsent
  have hne : bk ≠ q.heap.cells.length := Nat.ne_of_lt hbk_lt
  have hlt := hchain.lt
  have r0back : (q.heap.alloc Node.empty).2.read (some bk) = .ok Node.empty := by
    rw [Heap.read_alloc_old _ hbk_lt]; exact hsent
  have r1back : (((q.heap.alloc Node.empty).2).write bk ⟨d, none⟩).read (some bk)
      = .ok ⟨d, none⟩ := Heap.read_write_same _ (by simp; omega)
  refine ⟨⟨(((q.heap.alloc Node.empty).2).write bk ⟨d, none⟩).write bk
      ⟨d, some q.heap.cells.length⟩, some q.heap.cells.length, q.m_label_front⟩,
      bk, hback, ?_, rfl, ?_⟩
  · unfold ThreadSafeQueue3.enqueue ThreadSafeQueue3.exchangeBack ThreadSafeQueue3.writeBack
    simp only [Heap.alloc_fst, hback]
    rw [Heap.setData_eq _ r0back]
    simp only [Exec.ok_bind, Node.empty_next]
    rw [Heap.setNext_eq _ r1back]
    simp only [Exec.ok_bind, Exec.pure_eq]
  · refine ⟨q.heap.cells.length, rfl, ?_, ?_, ?_⟩
    · refine IsChain.snoc ?_ ?_
      · apply hchain.frame
        intro a ha
        have ha_lt := hlt a ha
        have ha_bk : bk ≠ a := by
          intro hEq
          subst hEq
          have := List.nodup_append.mp hnd
          exact this.2.2 ha (by simp)
        rw [Heap.read_write_ne _ ha_bk, Heap.read_write_ne _ ha_bk,
          Heap.read_alloc_old _ ha_lt]
      · exact Heap.read_write_same _ (by simp; omega)
    · rw [Heap.read_write_ne _ hne, Heap.read_write_ne _ hne]
      exact Heap.read_alloc_new _ _
    · rw [List.map_append, List.map_cons, List.map_nil]
      apply List.nodup_append.mpr
      refine ⟨hnd, by simp, ?_⟩
      intro a ha hb
      simp only [List.mem_singleton] at hb
      subst hb
      simp only [List.mem_append, List.mem_singleton] at ha
      rcases ha with ha | ha
      · exact Nat.lt_irrefl _ (hlt _ ha)
      · exact hne ha.symm

theorem queue3_tryPop_nil {q : ThreadSafeQueue3 E} (fuel : Nat)
    (hq : SentinelList q.heap q.m_label_front q.m_label_back []) :
    ThreadSafeQueue3.tryPop (fuel + 1) q = .ok (none, q) := by
  obtain ⟨bk, _, hchain, hsent, _⟩ := hq
  have hfront : q.m_label_front = some bk := hchain
  unfold ThreadSafeQueue3.tryPop ThreadSafeQueue3.tryPopLoop
  rw [hfront, hsent]
  simp only [Exec.ok_bind, Node.empty_next, Exec.pure_eq]
  rw [hsent]
  rfl

/-- Effect of `tryPop` on a non-empty sentinel-terminated list: one successful
compare-and-swap, the payload of the first cell is returned and the rest of the list
remains. -/
theorem queue3_tryPop_cons {q : ThreadSafeQueue3 E} (fuel : Nat)
    {c : Nat × Option E} {rest : List (Nat × Option E)}
    (hq : SentinelList q.heap q.m_label_front q.m_label_back (c :: rest)) :
    ∃ q', ThreadSafeQueue3.tryPop (fuel + 1) q = .ok (c.2, q')
      ∧ q'.m_label_back = q.m_label_back
      ∧ SentinelList q'.heap q'.m_label_front q'.m_label_back rest := by
  obtain ⟨bk, hback, hchain, hsent, hnd⟩ := hq
  obtain ⟨hfront, nx, hr, hrest⟩ := hchain
  obtain ⟨nxa, hnx⟩ := hrest.ptr_some
  subst hnx
  have hc_lt : c.1 < q.heap.cells.length := Heap.read_ok_lt hr
  have hfresh : ∀ a ∈ rest.map Prod.fst ++ [bk], c.1 ≠ a := by
    intro a ha hEq
    subst hEq
    simp only [List.map_cons, List.cons_append, List.nodup_cons] at hnd
    exact hnd.1 ha
  refine ⟨⟨q.heap.write c.1 ⟨none, some nxa⟩, q.m_label_back, some nxa⟩, ?_, rfl, ?_⟩
  · unfold ThreadSafeQueue3.tryPop ThreadSafeQueue3.tryPopLoop
    rw [hfront, hr]
    simp only [Exec.ok_bind, atomic_compare_exchange, if_true, Exec.pure_eq]
    rw [hr]
    simp only [Exec.ok_bind]
    rw [Heap.setData_eq _ hr]
    simp only [Exec.ok_bind]
  · refine ⟨bk, hback, ?_, ?_, ?_⟩
    · apply hrest.frame
      intro a ha
      exact Heap.read_write_ne _ (hfresh a (List.mem_append_left _ ha))
    · rw [Heap.read_write_ne _ (hfresh bk (by simp))]
      exact hsent
    · simp only [List.map_cons, List.cons_append, List.nodup_cons] at hnd
      exact hnd.2

theorem queue3_empty_sentinel {q : ThreadSafeQueue3 E}
    {cells : List (Nat × Option E)}
    (hq : SentinelList q.heap q.m_label_front q.m_label_back cells) :
    ThreadSafeQueue3.empty q = .ok cells.isEmpty := by
  obtain ⟨bk, _, hchain, hsent, _⟩ := hq
  unfold ThreadSafeQueue3.empty
  cases cells with
  | nil =>
    have hfront : q.m_label_front = some bk := hchain
    rw [hfront, hsent]
    rfl
  | cons c rest =>
    obtain ⟨hfront, nx, hr, hrest⟩ := hchain
    obtain ⟨nxa, hnx⟩ := hrest.ptr_some
    rw [hfront, hr, hnx]
    rfl

theorem queue3_run_cons [Inhabited E] (fuel : Nat) (c : TryCall E)
    (cs : List (TryCall E)) (q : ThreadSafeQueue3 E) :
    ThreadSafeQueue3.run fuel (c :: cs) q
      = (ThreadSafeQueue3.step fuel c q >>= fun r =>
          ThreadSafeQueue3.run fuel cs r.2 >>= fun rs =>
            Exec.ok (r.1.toList ++ rs.1, rs.2)) := rfl

/-- Simulation of the reference list by the lock-free queue run one call at a time, from
any state that represents the reference list. -/
theorem queue3_run_refines [Inhabited E] (fuel : Nat) (ops : List (PushPop E)) :
    ∀ (q : ThreadSafeQueue3 E) (cells : List (Nat × Option E)) (xs : List E),
      SentinelList q.heap q.m_label_front q.m_label_back cells →
      cells.map Prod.snd = xs.map some →
      ∃ q' cells', ThreadSafeQueue3.run (fuel + 1) (ops.map PushPop.toTryCall) q
            = .ok ((FifoRef.run ops xs).1, q')
          ∧ SentinelList q'.heap q'.m_label_front q'.m_label_back cells'
          ∧ cells'.map Prod.snd = (FifoRef.run ops xs).2.map some := by
  induction ops with
  | nil =>
    intro q cells xs hq hx
    exact ⟨q, cells, rfl, hq, hx⟩
  | cons op ops ih =>
    intro q cells xs hq hx
    cases op with
    | push element =>
      obtain ⟨q1, bk, _, he, _, hq1⟩ := queue3_enqueue_sentinel (some element) hq
      obtain ⟨q', cells', hrun, hq', hx'⟩ := ih q1 _ (xs ++ [element]) hq1 (by simp [hx])
      refine ⟨q', cells', ?_, hq', hx'⟩
      simp only [List.map_cons, PushPop.toTryCall, queue3_run_cons,
        ThreadSafeQueue3.step, ThreadSafeQueue3.push, he, Exec.ok_bind, Exec.pure_eq, hrun]
      rfl
    | tryPop =>
      cases cells with
      | nil =>
        have hxs : xs = [] := by
          cases xs with
          | nil => rfl
          | cons x xs => simp at hx
        subst hxs
        obtain ⟨q', cells', hrun, hq', hx'⟩ := ih q [] [] hq rfl
        refine ⟨q', cells', ?_, hq', hx'⟩
        simp only [List.map_cons, PushPop.toTryCall, queue3_run_cons,
          ThreadSafeQueue3.step, queue3_tryPop_nil fuel hq, Exec.ok_bind,
          Exec.pure_eq, hrun]
        rfl
      | cons c rest =>
        cases xs with
        | nil => simp at hx
        | cons x xs =>
          simp only [List.map_cons, List.cons.injEq] at hx
          obtain ⟨q1, hp, _, hq1⟩ := queue3_tryPop_cons fuel hq
          obtain ⟨q', cells', hrun, hq', hx'⟩ := ih q1 rest xs hq1 hx.2
          refine ⟨q', cells', ?_, hq', hx'⟩
          simp only [List.map_cons, PushPop.toTryCall, queue3_run_cons,
            ThreadSafeQueue3.step, hp, Exec.ok_bind, Exec.pure_eq, hrun, hx.1]
          rfl

end Queue3Proofs

section Stack2Proofs

variable {E : Type}

theorem stack2_new_stackList :
    StackList (ThreadSafeStack2.new (E := E)).heap (ThreadSafeStack2.new (E := E)).m_head [] :=
  ⟨rfl, by simp⟩

/-- Effect of the shared body of `push` / `emplace` on a null-terminated list: one
successful compare-and-swap, the new node becomes the head and links to the old head. -/
theorem stack2_insert_stackList {s : ThreadSafeStack2 E}
    {cells : List (Nat × Option E)} (node : Node E) (fuel : Nat)
    (hs : StackList s.heap s.m_head cells) :
    ∃ s', ThreadSafeStack2.insert node (fuel + 1) s = .ok s'
      ∧ s'.m_head = some s.heap.cells.length
      ∧ StackList s'.heap s'.m_head ((s.heap.cells.length, node.m_data) :: cells) := by
  obtain ⟨hchain, hnd⟩ := hs
  have hlt := hchain.lt
  have r0 := Heap.read_alloc_new s.heap node
  have r1 : ((s.heap.alloc node).2.write s.heap.cells.length ⟨node.m_data, s.m_head⟩).read
      (some s.heap.cells.length) = .ok ⟨node.m_data, s.m_head⟩ :=
    Heap.read_write_same _ (by simp)
  refine ⟨⟨(s.heap.alloc node).2.write s.heap.cells.length ⟨node.m_data, s.m_head⟩,
      some s.heap.cells.length⟩, ?_, rfl, ?_, ?_⟩
  · unfold ThreadSafeStack2.insert ThreadSafeStack2.pushLoop
    simp only [Heap.alloc_fst]
    rw [Heap.setNext_eq _ r0]
    simp only [Exec.ok_bind]
    rw [r1]
    simp only [Exec.ok_bind, atomic_compare_exchange, if_true, Exec.pure_eq]
  · refine ⟨rfl, s.m_head, r1, ?_⟩
    apply hchain.frame
    intro a ha
    have ha_lt := hlt a ha
    rw [Heap.read_write_ne _ (by omega), Heap.read_alloc_old _ ha_lt]
  · simp only [List.map_cons, List.nodup_cons]
    refine ⟨?_, hnd⟩
    intro ha
    exact Nat.lt_irrefl _ (hlt _ ha)

theorem stack2_tryPop_nil {s : ThreadSafeStack2 E} (fuel : Nat)
    (hs : StackList s.heap s.m_head []) :
    ThreadSafeStack2.tryPop (fuel + 1) s = .ok (none, s) := by
  have hhead : s.m_head = none := hs.1
  unfold ThreadSafeStack2.tryPop ThreadSafeStack2.tryPopLoop
  rw [hhead]
  rfl

/-- Effect of `tryPop` on a non-empty null-terminated list: one successful
compare-and-swap, the payload of the head cell is returned and the rest of the list
remains. -/
theorem stack2_tryPop_cons {s : ThreadSafeStack2 E} (fuel : Nat)
    {c : Nat × Option E} {rest : List (Nat × Option E)}
    (hs : StackList s.heap s.m_head (c :: rest)) :
    ∃ s', ThreadSafeStack2.tryPop (fuel + 1) s = .ok (c.2, s')
      ∧ StackList s'.heap s'.m_head rest := by
  obtain ⟨⟨hhead, nx, hr, hrest⟩, hnd⟩ := hs
  simp only [List.map_cons, List.nodup_cons] at hnd
  refine ⟨⟨s.heap.write c.1 ⟨none, nx⟩, nx⟩, ?_, ?_, hnd.2⟩
  · unfold ThreadSafeStack2.tryPop ThreadSafeStack2.tryPopLoop
    rw [hhead]
    simp only [hr, Exec.ok_bind, atomic_compare_exchange, if_true, Exec.pure_eq]
    rw [Heap.setData_eq _ hr]
    simp only [Exec.ok_bind]
  · apply hrest.frame
    intro a ha
    apply Heap.read_write_ne
    intro hEq
    subst hEq
    exact hnd.1 ha

theorem stack2_run_cons (fuel : Nat) (c : TryCall E)
    (cs : List (TryCall E)) (s : ThreadSafeStack2 E) :
    ThreadSafeStack2.run fuel (c :: cs) s
      = (ThreadSafeStack2.step fuel c s >>= fun r =>
          ThreadSafeStack2.run fuel cs r.2 >>= fun rs =>
            Exec.ok (r.1.toList ++ rs.1, rs.2)) := rfl

/-- Simulation of the reference stack by the lock-free stack run one call at a time,
from any state that represents the reference stack. -/
theorem stack2_run_refines (fuel : Nat) (ops : List (PushPop E)) :
    ∀ (s : ThreadSafeStack2 E) (cells : List (Nat × Option E)) (xs : List E),
      StackList s.heap s.m_head cells →
      cells.map Prod.snd = xs.map some →
      ∃ s' cells', ThreadSafeStack2.run (fuel + 1) (ops.map PushPop.toTryCall) s
            = .ok ((LifoRef.run ops xs).1, s')
          ∧ StackList s'.heap s'.m_head cells'
          ∧ cells'.map Prod.snd = (LifoRef.run ops xs).2.map some := by
  induction ops with
  | nil =>
    intro s cells xs hs hx
    exact ⟨s, cells, rfl, hs, hx⟩
  | cons op ops ih =>
    intro s cells xs hs hx
    cases op with
    | push element =>
      obtain ⟨s1, he, _, hs1⟩ :=
        stack2_insert_stackList (Node.ofElement element) fuel hs
      obtain ⟨s', cells', hrun, hs', hx'⟩ := ih s1 _ (element :: xs) hs1
        (by simp [hx, Node.ofElement])
      refine ⟨s', cells', ?_, hs', hx'⟩
      simp only [List.map_cons, PushPop.toTryCall, stack2_run_cons,
        ThreadSafeStack2.step, ThreadSafeStack2.push, he, Exec.ok_bind, Exec.pure_eq, hrun]
      rfl
    | tryPop =>
      cases cells with
      | nil =>
        have hxs : xs = [] := by
          cases xs with
          | nil => rfl
          | cons x xs => simp at hx
        subst hxs
        obtain ⟨s', cells', hrun, hs', hx'⟩ := ih s [] [] hs rfl
        refine ⟨s', cells', ?_, hs', hx'⟩
        simp only [List.map_cons, PushPop.toTryCall, stack2_run_cons,
          ThreadSafeStack2.step, stack2_tryPop_nil fuel hs, Exec.ok_bind,
          Exec.pure_eq, hrun]
        rfl
      | cons c rest =>
        cases xs with
        | nil => simp at hx
        | cons x xs =>
          simp only [List.map_cons, List.cons.injEq] at hx
          obtain ⟨s1, hp, hs1⟩ := stack2_tryPop_cons fuel hs
          obtain ⟨s', cells', hrun, hs', hx'⟩ := ih s1 rest xs hs1 hx.2
          refine ⟨s', cells', ?_, hs', hx'⟩
          simp only [List.map_cons, PushPop.toTryCall, stack2_run_cons,
            ThreadSafeStack2.step, hp, Exec.ok_bind, Exec.pure_eq, hrun, hx.1]
          rfl

end Stack2Proofs

section ContentsProofs

variable {E : Type}

theorem Heap.payloads_chain {h : Heap E} {cells : List (Nat × Option E)} {p stop : Ptr}
    (hc : IsChain h p cells stop) (hstop : ∀ a ∈ cells.map Prod.fst, some a ≠ stop)
    (fuel : Nat) (hfuel : cells.length ≤ fuel) :
    Heap.payloads fuel h p stop = .ok (cells.map Prod.snd) := by
  induction cells generalizing p fuel with
  | nil =>
    have hp : p = stop := hc
    cases fuel <;> simp [Heap.payloads, hp]
  | cons c rest ih =>
    obtain ⟨hp, nx, hr, hrest⟩ := hc
    cases fuel with
    | zero => simp at hfuel
    | succ fuel =>
      have hne : p ≠ stop := by
        rw [hp]
        exact hstop c.1 (by simp)
      have hrec := ih hrest
        (fun a ha => hstop a (by simp only [List.map_cons, List.mem_cons]; exact Or.inr ha))
        fuel (by simpa using hfuel)
      simp only [Heap.payloads, hne, if_false]
      rw [hp, hr]
      simp only [Exec.ok_bind, hrec, Exec.pure_eq, List.map_cons]

theorem List.length_le_of_nodup_lt {l : List Nat} {n : Nat} (hnd : l.Nodup)
    (hlt : ∀ a ∈ l, a < n) : l.length ≤ n := by
  have hsub : l ⊆ List.range n := fun a ha => List.mem_range.mpr (hlt a ha)
  have := (List.subperm_of_subset hnd hsub).length_le
  simpa using this

theorem stack2_contents_stackList {s : ThreadSafeStack2 E}
    {cells : List (Nat × Option E)} (hs : StackList s.heap s.m_head cells) :
    ThreadSafeStack2.contents s = .ok (cells.map Prod.snd) := by
  apply Heap.payloads_chain hs.1
  · intro a _ h
    cases h
  · have := List.length_le_of_nodup_lt hs.2 hs.1.lt
    simpa using this

theorem LifoRef.run_stamp_sorted (ops : List (PushPop E)) :
    ∀ (t : Nat) (xs : List (Nat × E)), (xs.map Prod.fst).Pairwise (· > ·) →
      (∀ x ∈ xs, x.1 < t) →
      ((LifoRef.run (PushPop.stamp t ops) xs).2.map Prod.fst).Pairwise (· > ·) := by
  induction ops with
  | nil => intro t xs hs _; exact hs
  | cons op ops ih =>
    intro t xs hs hlt
    cases op with
    | push element =>
      apply ih (t + 1) ((t, element) :: xs)
      · simp only [List.map_cons, List.pairwise_cons]
        refine ⟨?_, hs⟩
        intro a ha
        obtain ⟨x, hx, rfl⟩ := List.mem_map.mp ha
        exact hlt x hx
      · intro x hx
        simp only [List.mem_cons] at hx
        rcases hx with rfl | hx
        · exact Nat.lt_succ_self _
        · exact Nat.lt_succ_of_lt (hlt x hx)
    | tryPop =>
      cases xs with
      | nil => exact ih (t + 1) [] hs (by simp)
      | cons x xs =>
        apply ih (t + 1) xs
        · simp only [List.map_cons, List.pairwise_cons] at hs
          exact hs.2
        · intro y hy
          exact Nat.lt_succ_of_lt (hlt y (List.mem_cons_of_mem _ hy))

/-- C5: for every finite sequence of `push` and `tryPop` calls executed one at a time on a
newly constructed `ThreadSafeStack2` (every retry loop allowed at least one iteration),
the run completes, each `tryPop` returns the most recently pushed value not yet popped
(the pointers of the LIFO reference list, null when it is empty) and the nodes linked
from `m_head` store the values of the reference list; and when every pushed value
carries the position of its `push` in the sequence, a `tryPop` executed after the
sequence that returns a payload with position `t` leaves only payloads with positions
smaller than `t` in the stack. -/
theorem stack2_lifo_sequential (fuel : Nat) (ops : List (PushPop E)) :
    (∃ s, ThreadSafeStack2.run (fuel + 1) (ops.map PushPop.toTryCall)
          (ThreadSafeStack2.new (E := E)) = .ok ((LifoRef.run ops []).1, s)
        ∧ ThreadSafeStack2.contents s = .ok ((LifoRef.run ops []).2.map some))
    ∧ (∃ rs s, ThreadSafeStack2.run (fuel + 1) ((PushPop.stamp 0 ops).map PushPop.toTryCall)
          (ThreadSafeStack2.new (E := Nat × E)) = .ok (rs, s)
        ∧ ∀ t v s', ThreadSafeStack2.tryPop (fuel + 1) s = .ok (some (t, v), s') →
            ∃ cs, ThreadSafeStack2.contents s' = .ok cs
              ∧ ∀ c ∈ cs, ∃ t' v', c = some (t', v') ∧ t' < t) := by
  constructor
  · obtain ⟨s, cells, hrun, hs, hx⟩ := stack2_run_refines fuel ops
      ThreadSafeStack2.new [] [] stack2_new_stackList rfl
    refine ⟨s, hrun, ?_⟩
    rw [stack2_contents_stackList hs, hx]
  · obtain ⟨s, cells, hrun, hs, hx⟩ := stack2_run_refines fuel (PushPop.stamp 0 ops)
      ThreadSafeStack2.new [] [] stack2_new_stackList rfl
    refine ⟨_, s, hrun, ?_⟩
    intro t v s' hpop
    have hsorted := LifoRef.run_stamp_sorted ops 0 [] (by simp) (by simp)
    cases cells with
    | nil =>
      rw [stack2_tryPop_nil fuel hs] at hpop
      cases hpop
    | cons c rest =>
      obtain ⟨s1, hp, hs1⟩ := stack2_tryPop_cons fuel hs
      rw [hp] at hpop
      simp only [Exec.ok.injEq, Prod.mk.injEq] at hpop
      obtain ⟨hc, hs'⟩ := hpop
      subst hs'
      refine ⟨rest.map Prod.snd, stack2_contents_stackList hs1, ?_⟩
      cases hfin : (LifoRef.run (PushPop.stamp 0 ops) ([] : List (Nat × E))).2 with
      | nil => rw [hfin] at hx; simp at hx
      | cons x xs =>
        rw [hfin] at hx hsorted
        simp only [List.map_cons, List.cons.injEq] at hx
        simp only [List.map_cons, List.pairwise_cons] at hsorted
        intro c' hc'
        rw [hx.2] at hc'
        obtain ⟨y, hy, rfl⟩ := List.mem_map.mp hc'
        refine ⟨y.1, y.2, rfl, ?_⟩
        have hxt : x = (t, v) := by
          have := hx.1
          rw [hc] at this
          exact (Option.some.inj this).symm
        have := hsorted.1 y.1 (List.mem_map.mpr ⟨y, hy, rfl⟩)
        rw [hxt] at this
        exact this

end ContentsProofs

section ReachableProofs

variable {E : Type}

theorem Exec.bind_eq_ok {α β : Type} {x : Exec α} {f : α → Exec β} {b : β}
    (h : (x >>= f) = Exec.ok b) : ∃ a, x = Exec.ok a ∧ f a = Exec.ok b := by
  cases x with
  | ok a => exact ⟨a, rfl, h⟩
  | fault e => cases h

theorem SentinelList.contents_eq {h : Heap E} {front back : Ptr}
    {cells : List (Nat × Option E)} (hq : SentinelList h front back cells) :
    h.payloads h.cells.length front back = .ok (cells.map Prod.snd) := by
  obtain ⟨bk, hback, hchain, hsent, hnd⟩ := hq
  subst hback
  apply Heap.payloads_chain hchain
  · intro a ha hEq
    have hab : a = bk := Option.some.inj hEq
    subst hab
    exact (List.nodup_append.mp hnd).2.2 ha (by simp)
  · have hnd' : (cells.map Prod.fst).Nodup := (List.nodup_append.mp hnd).1
    have := List.length_le_of_nodup_lt hnd' hchain.lt
    simpa using this

theorem SentinelList.nil_of_contents {h : Heap E} {front back : Ptr}
    {cells : List (Nat × Option E)} (hq : SentinelList h front back cells)
    (hc : h.payloads h.cells.length front back = .ok []) : cells = [] := by
  rw [hq.contents_eq] at hc
  cases cells with
  | nil => rfl
  | cons c rest => simp at hc

theorem queue2_step_sentinel {q q' : ThreadSafeQueue2 E}
    {cells : List (Nat × Option E)} {c : Call E} {r : Option (Option E)}
    (hq : SentinelList q.heap q.m_node_front q.m_node_back cells)
    (hstep : ThreadSafeQueue2.step c q = .ok (r, q')) :
    ∃ cells', SentinelList q'.heap q'.m_node_front q'.m_node_back cells' := by
  cases c with
  | push element =>
    obtain ⟨q1, bk, _, he, _, hq1⟩ :=
      queue2_enqueue_sentinel (Node.ofElement element) rfl hq
    simp only [ThreadSafeQueue2.step, ThreadSafeQueue2.push, he, Exec.ok_bind, Exec.pure_eq,
      Exec.ok.injEq, Prod.mk.injEq] at hstep
    rw [← hstep.2]
    exact ⟨_, hq1⟩
  | emplace pars =>
    have hnext : pars.toNode.next = none := by cases pars <;> rfl
    obtain ⟨q1, bk, _, he, _, hq1⟩ := queue2_enqueue_sentinel pars.toNode hnext hq
    simp only [ThreadSafeQueue2.step, ThreadSafeQueue2.emplace, he, Exec.ok_bind,
      Exec.pure_eq, Exec.ok.injEq, Prod.mk.injEq] at hstep
    rw [← hstep.2]
    exact ⟨_, hq1⟩
  | tryPop =>
    cases cells with
    | nil =>
      simp only [ThreadSafeQueue2.step, queue2_tryPop_nil hq, Exec.ok_bind,
        Exec.pure_eq, Exec.ok.injEq, Prod.mk.injEq] at hstep
      rw [← hstep.2]
      exact ⟨_, hq⟩
    | cons c rest =>
      obtain ⟨q1, hp, hq1⟩ := queue2_tryPop_cons hq
      simp only [ThreadSafeQueue2.step, hp, Exec.ok_bind, Exec.pure_eq, Exec.ok.injEq,
        Prod.mk.injEq] at hstep
      rw [← hstep.2]
      exact ⟨_, hq1⟩
  | waitPop =>
    simp only [ThreadSafeQueue2.step, ThreadSafeQueue2.waitPop, Exec.fault_bind] at hstep
    cases hstep

/-- Every state that a sequence of calls reaches from a sentinel-terminated list is a
sentinel-terminated list. -/
theorem queue2_run_sentinel (calls : List (Call E)) :
    ∀ (q q' : ThreadSafeQueue2 E) (cells : List (Nat × Option E)) (rs : List (Option E)),
      SentinelList q.heap q.m_node_front q.m_node_back cells →
      ThreadSafeQueue2.run calls q = .ok (rs, q') →
      ∃ cells', SentinelList q'.heap q'.m_node_front q'.m_node_back cells' := by
  induction calls with
  | nil =>
    intro q q' cells rs hq hrun
    simp only [ThreadSafeQueue2.run, Exec.pure_eq, Exec.ok.injEq, Prod.mk.injEq] at hrun
    rw [← hrun.2]
    exact ⟨cells, hq⟩
  | cons c cs ih =>
    intro q q' cells rs hq hrun
    rw [queue2_run_cons] at hrun
    obtain ⟨r, hstep, hrest⟩ := Exec.bind_eq_ok hrun
    obtain ⟨rs1, hrun1, hfin⟩ := Exec.bind_eq_ok hrest
    obtain ⟨cells1, hq1⟩ := queue2_step_sentinel hq hstep
    simp only [Exec.ok.injEq, Prod.mk.injEq] at hfin
    rw [← hfin.2]
    exact ih r.2 rs1.2 cells1 rs1.1 hq1 hrun1

theorem queue3_step_total [Inhabited E] (fuel : Nat) (c : TryCall E)
    {q : ThreadSafeQueue3 E} {cells : List (Nat × Option E)}
    (hq : SentinelList q.heap q.m_label_front q.m_label_back cells)
    (hsome : ∀ x ∈ cells, x.2 ≠ none) :
    ∃ r q' cells', ThreadSafeQueue3.step (fuel + 1) c q = .ok (r, q')
      ∧ SentinelList q'.heap q'.m_label_front q'.m_label_back cells'
      ∧ ∀ x ∈ cells', x.2 ≠ none := by
  cases c with
  | push element =>
    obtain ⟨q1, bk, _, he, _, hq1⟩ := queue3_enqueue_sentinel (some element) hq
    refine ⟨none, q1, _, ?_, hq1, ?_⟩
    · simp only [ThreadSafeQueue3.step, ThreadSafeQueue3.push, he, Exec.ok_bind, Exec.pure_eq]
    · intro x hx
      simp only [List.mem_append, List.mem_singleton] at hx
      rcases hx with hx | rfl
      · exact hsome x hx
      · simp
  | emplace pars =>
    obtain ⟨q1, bk, _, he, _, hq1⟩ :=
      queue3_enqueue_sentinel (some pars.toElement) hq
    refine ⟨none, q1, _, ?_, hq1, ?_⟩
    · simp only [ThreadSafeQueue3.step, ThreadSafeQueue3.emplace, he, Exec.ok_bind,
        Exec.pure_eq]
    · intro x hx
      simp only [List.mem_append, List.mem_singleton] at hx
      rcases hx with hx | rfl
      · exact hsome x hx
      · simp
  | tryPop =>
    cases cells with
    | nil =>
      refine ⟨some none, q, [], ?_, hq, hsome⟩
      simp only [ThreadSafeQueue3.step, queue3_tryPop_nil fuel hq, Exec.ok_bind,
        Exec.pure_eq]
    | cons c rest =>
      obtain ⟨q1, hp, _, hq1⟩ := queue3_tryPop_cons fuel hq
      refine ⟨some c.2, q1, rest, ?_, hq1, fun x hx => hsome x (List.mem_cons_of_mem _ hx)⟩
      simp only [ThreadSafeQueue3.step, hp, Exec.ok_bind, Exec.pure_eq]

/-- Every sequence of calls run one at a time from a sentinel-terminated list with
non-null payloads completes, in a sentinel-terminated list with non-null payloads. -/
theorem queue3_run_total [Inhabited E] (fuel : Nat) (calls : List (TryCall E)) :
    ∀ (q : ThreadSafeQueue3 E) (cells : List (Nat × Option E)),
      SentinelList q.heap q.m_label_front q.m_label_back cells →
      (∀ x ∈ cells, x.2 ≠ none) →
      ∃ rs q' cells', ThreadSafeQueue3.run (fuel + 1) calls q = .ok (rs, q')
        ∧ SentinelList q'.heap q'.m_label_front q'.m_label_back cells'
        ∧ ∀ x ∈ cells', x.2 ≠ none := by
  induction calls with
  | nil =>
    intro q cells hq hsome
    exact ⟨[], q, cells, rfl, hq, hsome⟩
  | cons c cs ih =>
    intro q cells hq hsome
    obtain ⟨r, q1, cells1, hstep, hq1, hsome1⟩ := queue3_step_total fuel c hq hsome
    obtain ⟨rs, q', cells', hrun, hq', hsome'⟩ := ih q1 cells1 hq1 hsome1
    refine ⟨r.toList ++ rs, q', cells', ?_, hq', hsome'⟩
    rw [queue3_run_cons, hstep]
    simp only [Exec.ok_bind, hrun]

theorem stack2_step_total (fuel : Nat) (c : TryCall E)
    {s : ThreadSafeStack2 E} {cells : List (Nat × Option E)}
    (hs : StackList s.heap s.m_head cells) :
    ∃ r s' cells', ThreadSafeStack2.step (fuel + 1) c s = .ok (r, s')
      ∧ StackList s'.heap s'.m_head cells' := by
  cases c with
  | push element =>
    obtain ⟨s1, he, _, hs1⟩ :=
      stack2_insert_stackList (Node.ofElement element) fuel hs
    refine ⟨none, s1, _, ?_, hs1⟩
    simp only [ThreadSafeStack2.step, ThreadSafeStack2.push, he, Exec.ok_bind, Exec.pure_eq]
  | emplace pars =>
    obtain ⟨s1, he, _, hs1⟩ := stack2_insert_stackList pars.toNode fuel hs
    refine ⟨none, s1, _, ?_, hs1⟩
    simp only [ThreadSafeStack2.step, ThreadSafeStack2.emplace, he, Exec.ok_bind,
      Exec.pure_eq]
  | tryPop =>
    cases cells with
    | nil =>
      refine ⟨some none, s, [], ?_, hs⟩
      simp only [ThreadSafeStack2.step, stack2_tryPop_nil fuel hs, Exec.ok_bind,
        Exec.pure_eq]
    | cons c rest =>
      obtain ⟨s1, hp, hs1⟩ := stack2_tryPop_cons fuel hs
      refine ⟨some c.2, s1, rest, ?_, hs1⟩
      simp only [ThreadSafeStack2.step, hp, Exec.ok_bind, Exec.pure_eq]

/-- Every sequence of calls run one at a time from a null-terminated list completes, in a
null-terminated list. -/
theorem stack2_run_total (fuel : Nat) (calls : List (TryCall E)) :
    ∀ (s : ThreadSafeStack2 E) (cells : List (Nat × Option E)),
      StackList s.heap s.m_head cells →
      ∃ rs s' cells', ThreadSafeStack2.run (fuel + 1) calls s = .ok (rs, s')
        ∧ StackList s'.heap s'.m_head cells' := by
  induction calls with
  | nil =>
    intro s cells hs
    exact ⟨[], s, cells, rfl, hs⟩
  | cons c cs ih =>
    intro s cells hs
    obtain ⟨r, s1, cells1, hstep, hs1⟩ := stack2_step_total fuel c hs
    obtain ⟨rs, s', cells', hrun, hs'⟩ := ih s1 cells1 hs1
    refine ⟨r.toList ++ rs, s', cells', ?_, hs'⟩
    rw [stack2_run_cons, hstep]
    simp only [Exec.ok_bind, hrun]

end ReachableProofs

section FifoProofs

variable {E : Type}

/-- C2: for every finite sequence of `push` and `tryPop` calls executed one at a time on a
newly constructed `ThreadSafeQueue2`, the run completes, the pointers returned by the
`tryPop` calls are exactly those of the reference list where `push` appends at the back
and `tryPop` removes from the front (null when the list is empty), and the nodes linked
from `m_node_front` to the sentinel `m_node_back` store the values of the reference
list, in order. -/
theorem queue2_fifo_refinement (ops : List (PushPop E)) :
    ∃ q', ThreadSafeQueue2.run (ops.map PushPop.toCall) (ThreadSafeQueue2.new (E := E))
        = .ok ((FifoRef.run ops []).1, q')
      ∧ ThreadSafeQueue2.contents q' = .ok ((FifoRef.run ops []).2.map some) := by
  obtain ⟨q', cells', hrun, hq', hx'⟩ :=
    queue2_run_refines ops ThreadSafeQueue2.new [] [] queue2_new_sentinel rfl
  refine ⟨q', hrun, ?_⟩
  unfold ThreadSafeQueue2.contents
  rw [hq'.contents_eq, hx']

/-- C3: for every finite sequence of `push` and `tryPop` calls executed one at a time on a
newly constructed `ThreadSafeQueue3` (every retry loop allowed at least one iteration),
the run completes and each `tryPop` returns the oldest value pushed and not yet popped,
or null when there is none: the returned pointers are those of the FIFO list of the
values pushed and not yet popped, and the nodes linked from `m_label_front` store that
list. -/
theorem queue3_fifo_sequential [Inhabited E] (fuel : Nat) (ops : List (PushPop E)) :
    ∃ q', ThreadSafeQueue3.run (fuel + 1) (ops.map PushPop.toTryCall)
        (ThreadSafeQueue3.new (E := E)) = .ok ((FifoRef.run ops []).1, q')
      ∧ ThreadSafeQueue3.contents q' = .ok ((FifoRef.run ops []).2.map some) := by
  obtain ⟨q', cells', hrun, hq', hx'⟩ := queue3_run_refines fuel ops ThreadSafeQueue3.new
    [] [] queue3_new_sentinel rfl
  refine ⟨q', hrun, ?_⟩
  unfold ThreadSafeQueue3.contents
  rw [hq'.contents_eq, hx']

end FifoProofs

section EmptyPopProofs

variable {E : Type}

/-- C6: `tryPop` on a `ThreadSafeQueue2`, `ThreadSafeQueue3` or `ThreadSafeStack2` that
holds no element (no node is linked from the head: the container is newly constructed
or every inserted node has been popped), in any state reached from construction by
calls executed one at a time, returns null without fault and leaves the whole state
(head, tail and every node) unchanged. -/
theorem tryPop_empty_unchanged [Inhabited E] (fuel : Nat) :
    (∀ (calls : List (Call E)) (rs : List (Option E)) (q : ThreadSafeQueue2 E),
        ThreadSafeQueue2.run calls ThreadSafeQueue2.new = .ok (rs, q) →
        ThreadSafeQueue2.contents q = .ok [] →
        ThreadSafeQueue2.tryPop q = .ok (none, q))
    ∧ (∀ (calls : List (TryCall E)), ∃ rs q,
        ThreadSafeQueue3.run (fuel + 1) calls (ThreadSafeQueue3.new (E := E)) = .ok (rs, q)
        ∧ (ThreadSafeQueue3.contents q = .ok [] →
            ThreadSafeQueue3.tryPop (fuel + 1) q = .ok (none, q)))
    ∧ (∀ (calls : List (TryCall E)), ∃ rs s,
        ThreadSafeStack2.run (fuel + 1) calls (ThreadSafeStack2.new (E := E)) = .ok (rs, s)
        ∧ (ThreadSafeStack2.contents s = .ok [] →
            ThreadSafeStack2.tryPop (fuel + 1) s = .ok (none, s))) := by
  refine ⟨?_, ?_, ?_⟩
  · intro calls rs q hrun hc
    obtain ⟨cells, hq⟩ := queue2_run_sentinel calls _ q [] rs
      queue2_new_sentinel hrun
    have hnil := hq.nil_of_contents hc
    subst hnil
    exact queue2_tryPop_nil hq
  · intro calls
    obtain ⟨rs, q, cells, hrun, hq, _⟩ := queue3_run_total fuel calls
      ThreadSafeQueue3.new [] queue3_new_sentinel (by simp)
    refine ⟨rs, q, hrun, ?_⟩
    intro hc
    have hnil := hq.nil_of_contents hc
    subst hnil
    exact queue3_tryPop_nil fuel hq
  · intro calls
    obtain ⟨rs, s, cells, hrun, hs⟩ := stack2_run_total fuel calls
      ThreadSafeStack2.new [] stack2_new_stackList
    refine ⟨rs, s, hrun, ?_⟩
    intro hc
    rw [stack2_contents_stackList hs] at hc
    have hnil : cells = [] := by
      cases cells with
      | nil => rfl
      | cons c rest => simp at hc
    subst hnil
    exact stack2_tryPop_nil fuel hs

/-- Instance of C6 on a drained queue: after `push(1)` and one `tryPop` the
`ThreadSafeQueue2` holds no element, and a further `tryPop` returns null and changes
nothing. -/
theorem tryPop_empty_unchanged_witness :
    ThreadSafeQueue2.tryPop
        (⟨⟨[none, some ⟨none, none⟩]⟩, some 1, some 1⟩ : ThreadSafeQueue2 Nat)
      = .ok (none, ⟨⟨[none, some ⟨none, none⟩]⟩, some 1, some 1⟩) :=
  (tryPop_empty_unchanged (E := Nat) 0).1 [.push 1, .tryPop] [some 1]
    ⟨⟨[none, some ⟨none, none⟩]⟩, some 1, some 1⟩ (by decide) (by decide)

/-- C8: in every state of a `ThreadSafeQueue3` reached from construction by `push`,
`emplace` and `tryPop` calls executed one at a time, `empty()` and an immediately
following `tryPop` both return, and `empty()` is true exactly when that `tryPop` returns
null. -/
theorem queue3_empty_consistent [Inhabited E] (fuel : Nat) (calls : List (TryCall E)) :
    ∃ rs q b r q',
      ThreadSafeQueue3.run (fuel + 1) calls (ThreadSafeQueue3.new (E := E)) = .ok (rs, q)
      ∧ ThreadSafeQueue3.empty q = .ok b
      ∧ ThreadSafeQueue3.tryPop (fuel + 1) q = .ok (r, q')
      ∧ (b = true ↔ r = none) := by
  obtain ⟨rs, q, cells, hrun, hq, hsome⟩ := queue3_run_total fuel calls
    ThreadSafeQueue3.new [] queue3_new_sentinel (by simp)
  cases cells with
  | nil =>
    exact ⟨rs, q, true, none, q, hrun, queue3_empty_sentinel hq,
      queue3_tryPop_nil fuel hq, by simp⟩
  | cons c rest =>
    obtain ⟨q', hp, _, _⟩ := queue3_tryPop_cons fuel hq
    refine ⟨rs, q, false, c.2, q', hrun, queue3_empty_sentinel hq, hp, ?_⟩
    have := hsome c (by simp)
    simp [this]

end EmptyPopProofs

section EmplaceProofs

/-- C7 (evaluation of the code): after `emplace()` with the empty argument pack on a newly
constructed `ThreadSafeQueue2<Nat>`, `empty()` returns false and the immediately
following `tryPop` nevertheless returns null, while unlinking the node. -/
theorem queue2_emplace_none_empty_tryPop :
    ThreadSafeQueue2.run [.emplace .none] (ThreadSafeQueue2.new (E := Nat))
        = .ok ([], ⟨⟨[some ⟨none, some 1⟩, some ⟨none, none⟩]⟩, some 0, some 1⟩)
      ∧ ThreadSafeQueue2.empty
          (⟨⟨[some ⟨none, some 1⟩, some ⟨none, none⟩]⟩, some 0, some 1⟩ : ThreadSafeQueue2 Nat)
        = .ok false
      ∧ ThreadSafeQueue2.tryPop
          (⟨⟨[some ⟨none, some 1⟩, some ⟨none, none⟩]⟩, some 0, some 1⟩ : ThreadSafeQueue2 Nat)
        = .ok (none, ⟨⟨[none, some ⟨none, none⟩]⟩, some 1, some 1⟩) := by
  decide

/-- C9 (evaluation of the code): on a newly constructed `ThreadSafeQueue2<Nat>`,
`emplace()` with the empty argument pack followed by `tryPop` returns null, whereas
`push(Element())` followed by `tryPop` returns a pointer to `Element()`. -/
theorem queue2_emplace_none_vs_push :
    ThreadSafeQueue2.run [.emplace .none, .tryPop] (ThreadSafeQueue2.new (E := Nat))
        = .ok ([none], ⟨⟨[none, some ⟨none, none⟩]⟩, some 1, some 1⟩)
      ∧ ThreadSafeQueue2.run [.push (Pars.none : Pars Nat).toElement, .tryPop]
          (ThreadSafeQueue2.new (E := Nat))
        = .ok ([some 0], ⟨⟨[none, some ⟨none, none⟩]⟩, some 1, some 1⟩) := by
  decide

/-- With one argument, `emplace` of `ThreadSafeQueue2` is `push` of the converted value. -/
theorem queue2_emplace_one {E : Type} (element : E) (q : ThreadSafeQueue2 E) :
    ThreadSafeQueue2.emplace (.one element) q = ThreadSafeQueue2.push element q := rfl

/-- C10 (evaluation of the code): on a newly constructed `ThreadSafeStack2<Nat>`,
`emplace()` with the empty argument pack followed by `tryPop` returns null, whereas
`push(Element())` followed by `tryPop` returns a pointer to `Element()`. -/
theorem stack2_emplace_none_vs_push :
    ThreadSafeStack2.run 1 [.emplace .none, .tryPop] (ThreadSafeStack2.new (E := Nat))
        = .ok ([none], ⟨⟨[some ⟨none, none⟩]⟩, none⟩)
      ∧ ThreadSafeStack2.run 1 [.push (Pars.none : Pars Nat).toElement, .tryPop]
          (ThreadSafeStack2.new (E := Nat))
        = .ok ([some 0], ⟨⟨[some ⟨none, none⟩]⟩, none⟩) := by
  decide

/-- With one argument, `emplace` of `ThreadSafeStack2` is `push` of the converted value. -/
theorem stack2_emplace_one {E : Type} (element : E) (fuel : Nat)
    (s : ThreadSafeStack2 E) :
    ThreadSafeStack2.emplace (.one element) fuel s = ThreadSafeStack2.push element fuel s :=
  rfl

end EmplaceProofs

section WitnessProofs

/-- Instance of C5 on the calls `push(10)`, `push(20)`, `tryPop`. -/
theorem stack2_lifo_sequential_witness :
    (∃ s, ThreadSafeStack2.run 1
          ([PushPop.push 10, PushPop.push 20, PushPop.tryPop].map PushPop.toTryCall)
          (ThreadSafeStack2.new (E := Nat))
          = .ok ((LifoRef.run [PushPop.push 10, PushPop.push 20, PushPop.tryPop] []).1, s)
        ∧ ThreadSafeStack2.contents s
          = .ok ((LifoRef.run [PushPop.push 10, PushPop.push 20, PushPop.tryPop] []).2.map
              some)) :=
  (stack2_lifo_sequential 0 [PushPop.push 10, PushPop.push 20, PushPop.tryPop]).1

end WitnessProofs

section CoarseProofs

variable {E : Type}

theorem queue1_run_cons [Inhabited E] (c : Call E) (cs : List (Call E))
    (q : ThreadSafeQueue1 E) :
    ThreadSafeQueue1.run (c :: cs) q
      = (ThreadSafeQueue1.step c q >>= fun r =>
          ThreadSafeQueue1.run cs r.2 >>= fun rs => Exec.ok (r.1.toList ++ rs.1, rs.2)) := rfl

theorem stack1_run_cons [Inhabited E] (c : Call E) (cs : List (Call E))
    (s : ThreadSafeStack1 E) :
    ThreadSafeStack1.run (c :: cs) s
      = (ThreadSafeStack1.step c s >>= fun r =>
          ThreadSafeStack1.run cs r.2 >>= fun rs => Exec.ok (r.1.toList ++ rs.1, rs.2)) := rfl

/-- Counting along one call of `ThreadSafeQueue1`: the size grows by one on an insertion
and shrinks by one exactly when a pop returns a non-null pointer. -/
theorem queue1_step_size [Inhabited E] {c : Call E} {q q' : ThreadSafeQueue1 E}
    {r : Option (Option E)} (hsome : ∀ x ∈ q.m_queue, x ≠ none)
    (hstep : ThreadSafeQueue1.step c q = .ok (r, q')) :
    q'.size + r.toList.countP Option.isSome = q.size + (if c.isInsert then 1 else 0)
      ∧ ∀ x ∈ q'.m_queue, x ≠ none := by
  obtain ⟨m⟩ := q
  cases c with
  | push element =>
    simp only [ThreadSafeQueue1.step, Exec.pure_eq, Exec.ok.injEq, Prod.mk.injEq] at hstep
    obtain ⟨hr, hq⟩ := hstep
    subst hr hq
    refine ⟨by simp [ThreadSafeQueue1.size, ThreadSafeQueue1.push, Call.isInsert], ?_⟩
    intro x hx
    simp only [ThreadSafeQueue1.push, List.mem_append, List.mem_singleton] at hx
    rcases hx with hx | rfl
    · exact hsome x hx
    · simp
  | emplace pars =>
    simp only [ThreadSafeQueue1.step, Exec.pure_eq, Exec.ok.injEq, Prod.mk.injEq] at hstep
    obtain ⟨hr, hq⟩ := hstep
    subst hr hq
    refine ⟨by simp [ThreadSafeQueue1.size, ThreadSafeQueue1.emplace, Call.isInsert], ?_⟩
    intro x hx
    simp only [ThreadSafeQueue1.emplace, List.mem_append, List.mem_singleton] at hx
    rcases hx with hx | rfl
    · exact hsome x hx
    · simp
  | tryPop =>
    simp only [ThreadSafeQueue1.step, Exec.pure_eq, Exec.ok.injEq, Prod.mk.injEq] at hstep
    obtain ⟨hr, hq⟩ := hstep
    subst hr hq
    cases m with
    | nil => exact ⟨by simp [ThreadSafeQueue1.size, ThreadSafeQueue1.tryPop, Call.isInsert], hsome⟩
    | cons x xs =>
      have hx : x ≠ none := hsome x (by simp)
      obtain ⟨v, rfl⟩ := Option.ne_none_iff_exists'.mp hx
      refine ⟨by simp [ThreadSafeQueue1.size, ThreadSafeQueue1.tryPop, Call.isInsert], ?_⟩
      intro y hy
      exact hsome y (List.mem_cons_of_mem _ hy)
  | waitPop =>
    cases m with
    | nil =>
      simp only [ThreadSafeQueue1.step, ThreadSafeQueue1.waitPop, Exec.fault_bind] at hstep
      cases hstep
    | cons x xs =>
      simp only [ThreadSafeQueue1.step, ThreadSafeQueue1.waitPop, Exec.ok_bind, Exec.pure_eq,
        Exec.ok.injEq, Prod.mk.injEq] at hstep
      obtain ⟨hr, hq⟩ := hstep
      subst hr hq
      have hx : x ≠ none := hsome x (by simp)
      obtain ⟨v, rfl⟩ := Option.ne_none_iff_exists'.mp hx
      refine ⟨by simp [ThreadSafeQueue1.size, Call.isInsert], ?_⟩
      intro y hy
      exact hsome y (List.mem_cons_of_mem _ hy)

theorem queue1_run_size [Inhabited E] (calls : List (Call E)) :
    ∀ (q q' : ThreadSafeQueue1 E) (rs : List (Option E)),
      (∀ x ∈ q.m_queue, x ≠ none) →
      ThreadSafeQueue1.run calls q = .ok (rs, q') →
      q'.size + rs.countP Option.isSome = q.size + calls.countP Call.isInsert := by
  induction calls with
  | nil =>
    intro q q' rs _ hrun
    simp only [ThreadSafeQueue1.run, Exec.pure_eq, Exec.ok.injEq, Prod.mk.injEq] at hrun
    obtain ⟨hr, hq⟩ := hrun
    subst hr hq
    simp
  | cons c cs ih =>
    intro q q' rs hsome hrun
    rw [queue1_run_cons] at hrun
    obtain ⟨r, hstep, hrest⟩ := Exec.bind_eq_ok hrun
    obtain ⟨rs1, hrun1, hfin⟩ := Exec.bind_eq_ok hrest
    simp only [Exec.ok.injEq, Prod.mk.injEq] at hfin
    obtain ⟨hr, hq⟩ := hfin
    subst hr hq
    obtain ⟨h1, hsome1⟩ := queue1_step_size hsome hstep
    have h2 := ih r.2 rs1.2 rs1.1 hsome1 hrun1
    rw [List.countP_append, List.countP_cons]
    split_ifs at h1 ⊢ <;> omega

theorem stack1_tryPop_concat (ys : List (Option E)) (y : Option E) :
    ThreadSafeStack1.tryPop (⟨ys ++ [y]⟩ : ThreadSafeStack1 E) = (y, ⟨ys⟩) := by
  simp [ThreadSafeStack1.tryPop]

theorem stack1_waitPop_concat (ys : List (Option E)) (y : Option E) :
    ThreadSafeStack1.waitPop (⟨ys ++ [y]⟩ : ThreadSafeStack1 E) = .ok (y, ⟨ys⟩) := by
  simp [ThreadSafeStack1.waitPop]

/-- Counting along one call of `ThreadSafeStack1`: the size grows by one on an insertion
and shrinks by one exactly when a pop returns a non-null pointer. -/
theorem stack1_step_size [Inhabited E] {c : Call E} {s s' : ThreadSafeStack1 E}
    {r : Option (Option E)} (hsome : ∀ x ∈ s.m_stack, x ≠ none)
    (hstep : ThreadSafeStack1.step c s = .ok (r, s')) :
    s'.size + r.toList.countP Option.isSome = s.size + (if c.isInsert then 1 else 0)
      ∧ ∀ x ∈ s'.m_stack, x ≠ none := by
  obtain ⟨m⟩ := s
  cases c with
  | push element =>
    simp only [ThreadSafeStack1.step, Exec.pure_eq, Exec.ok.injEq, Prod.mk.injEq] at hstep
    obtain ⟨hr, hq⟩ := hstep
    subst hr hq
    refine ⟨by simp [ThreadSafeStack1.size, ThreadSafeStack1.push, Call.isInsert], ?_⟩
    intro x hx
    simp only [ThreadSafeStack1.push, List.mem_append, List.mem_singleton] at hx
    rcases hx with hx | rfl
    · exact hsome x hx
    · simp
  | emplace pars =>
    simp only [ThreadSafeStack1.step, Exec.pure_eq, Exec.ok.injEq, Prod.mk.injEq] at hstep
    obtain ⟨hr, hq⟩ := hstep
    subst hr hq
    refine ⟨by simp [ThreadSafeStack1.size, ThreadSafeStack1.emplace, Call.isInsert], ?_⟩
    intro x hx
    simp only [ThreadSafeStack1.emplace, List.mem_append, List.mem_singleton] at hx
    rcases hx with hx | rfl
    · exact hsome x hx
    · simp
  | tryPop =>
    simp only [ThreadSafeStack1.step, Exec.pure_eq, Exec.ok.injEq, Prod.mk.injEq] at hstep
    obtain ⟨hr, hq⟩ := hstep
    subst hr hq
    rcases List.eq_nil_or_concat m with rfl | ⟨ys, y, rfl⟩
    · exact ⟨by simp [ThreadSafeStack1.size, ThreadSafeStack1.tryPop, Call.isInsert], hsome⟩
    · simp only [List.concat_eq_append] at hsome ⊢
      have hy : y ≠ none := hsome y (by simp)
      obtain ⟨v, rfl⟩ := Option.ne_none_iff_exists'.mp hy
      rw [stack1_tryPop_concat]
      refine ⟨by simp [ThreadSafeStack1.size, Call.isInsert], ?_⟩
      intro x hx
      exact hsome x (List.mem_append_left _ hx)
  | waitPop =>
    rcases List.eq_nil_or_concat m with rfl | ⟨ys, y, rfl⟩
    · simp only [ThreadSafeStack1.step, ThreadSafeStack1.waitPop, List.getLast?_nil,
        Exec.fault_bind] at hstep
      cases hstep
    · simp only [List.concat_eq_append] at hsome hstep
      simp only [ThreadSafeStack1.step, stack1_waitPop_concat, Exec.ok_bind, Exec.pure_eq,
        Exec.ok.injEq, Prod.mk.injEq] at hstep
      obtain ⟨hr, hq⟩ := hstep
      subst hr hq
      have hy : y ≠ none := hsome y (by simp)
      obtain ⟨v, rfl⟩ := Option.ne_none_iff_exists'.mp hy
      refine ⟨by simp [ThreadSafeStack1.size, Call.isInsert], ?_⟩
      intro x hx
      exact hsome x (List.mem_append_left _ hx)

theorem stack1_run_size [Inhabited E] (calls : List (Call E)) :
    ∀ (s s' : ThreadSafeStack1 E) (rs : List (Option E)),
      (∀ x ∈ s.m_stack, x ≠ none) →
      ThreadSafeStack1.run calls s = .ok (rs, s') →
      s'.size + rs.countP Option.isSome = s.size + calls.countP Call.isInsert := by
  induction calls with
  | nil =>
    intro s s' rs _ hrun
    simp only [ThreadSafeStack1.run, Exec.pure_eq, Exec.ok.injEq, Prod.mk.injEq] at hrun
    obtain ⟨hr, hq⟩ := hrun
    subst hr hq
    simp
  | cons c cs ih =>
    intro s s' rs hsome hrun
    rw [stack1_run_cons] at hrun
    obtain ⟨r, hstep, hrest⟩ := Exec.bind_eq_ok hrun
    obtain ⟨rs1, hrun1, hfin⟩ := Exec.bind_eq_ok hrest
    simp only [Exec.ok.injEq, Prod.mk.injEq] at hfin
    obtain ⟨hr, hq⟩ := hfin
    subst hr hq
    obtain ⟨h1, hsome1⟩ := stack1_step_size hsome hstep
    have h2 := ih r.2 rs1.2 rs1.1 hsome1 hrun1
    rw [List.countP_append, List.countP_cons]
    split_ifs at h1 ⊢ <;> omega

/-- C12: after any finite sequence of `push`, `emplace`, `tryPop` and `waitPop` calls
executed one at a time on a newly constructed `ThreadSafeQueue1` or `ThreadSafeStack1`,
`size()` equals the number of `push` / `emplace` calls minus the number of pops that
returned an element, and `empty()` is true exactly when `size()` is 0. (`size()` is a
`const` member: it is a function of the state and returns no new state.) -/
theorem coarse_size_exact [Inhabited E] :
    (∀ (calls : List (Call E)) (rs : List (Option E)) (q : ThreadSafeQueue1 E),
        ThreadSafeQueue1.run calls ThreadSafeQueue1.new = .ok (rs, q) →
        q.size = calls.countP Call.isInsert - rs.countP Option.isSome
          ∧ rs.countP Option.isSome ≤ calls.countP Call.isInsert
          ∧ (q.empty = true ↔ q.size = 0))
    ∧ (∀ (calls : List (Call E)) (rs : List (Option E)) (s : ThreadSafeStack1 E),
        ThreadSafeStack1.run calls ThreadSafeStack1.new = .ok (rs, s) →
        s.size = calls.countP Call.isInsert - rs.countP Option.isSome
          ∧ rs.countP Option.isSome ≤ calls.countP Call.isInsert
          ∧ (s.empty = true ↔ s.size = 0)) := by
  constructor
  · intro calls rs q hrun
    have h := queue1_run_size calls ThreadSafeQueue1.new q rs (by simp [ThreadSafeQueue1.new])
      hrun
    have h0 : (ThreadSafeQueue1.new : ThreadSafeQueue1 E).size = 0 := rfl
    refine ⟨by omega, by omega, ?_⟩
    simp [ThreadSafeQueue1.empty, ThreadSafeQueue1.size, List.isEmpty_iff]
  · intro calls rs s hrun
    have h := stack1_run_size calls ThreadSafeStack1.new s rs (by simp [ThreadSafeStack1.new])
      hrun
    have h0 : (ThreadSafeStack1.new : ThreadSafeStack1 E).size = 0 := rfl
    refine ⟨by omega, by omega, ?_⟩
    simp [ThreadSafeStack1.empty, ThreadSafeStack1.size, List.isEmpty_iff]

/-- Instance of C12: after `push(7)`, `emplace()`, `tryPop` on a new `ThreadSafeQueue1`
the size is 2 - 1. -/
theorem coarse_size_exact_witness :
    (⟨[some 0]⟩ : ThreadSafeQueue1 Nat).size
        = [Call.push 7, Call.emplace Pars.none, Call.tryPop].countP Call.isInsert
          - [some 7].countP Option.isSome
      ∧ [some 7].countP Option.isSome
          ≤ [Call.push 7, Call.emplace Pars.none, Call.tryPop].countP Call.isInsert
      ∧ ((⟨[some 0]⟩ : ThreadSafeQueue1 Nat).empty = true
          ↔ (⟨[some 0]⟩ : ThreadSafeQueue1 Nat).size = 0) :=
  (coarse_size_exact (E := Nat)).1 [.push 7, .emplace .none, .tryPop] [some 7] ⟨[some 0]⟩
    (by decide)

end CoarseProofs

section EmplaceWaitProofs

variable {E : Type}

/-- C11: in `ThreadSafeQueue1` and `ThreadSafeQueue3`, for every argument pack (the empty
one included), the state after `emplace(pars...)` is the state after
`push(Element(pars...))`: for `ThreadSafeQueue1` in every state, and for
`ThreadSafeQueue3` in every state reached from construction by calls executed one at a
time, where both calls return. -/
theorem emplace_eq_push_queue1_queue3 [Inhabited E] (pars : Pars E) :
    (∀ q : ThreadSafeQueue1 E,
        ThreadSafeQueue1.emplace pars q = ThreadSafeQueue1.push pars.toElement q)
    ∧ (∀ (fuel : Nat) (calls : List (TryCall E)), ∃ rs q q',
        ThreadSafeQueue3.run (fuel + 1) calls (ThreadSafeQueue3.new (E := E)) = .ok (rs, q)
        ∧ ThreadSafeQueue3.emplace pars q = .ok q'
        ∧ ThreadSafeQueue3.push pars.toElement q = .ok q') := by
  refine ⟨fun q => rfl, ?_⟩
  intro fuel calls
  obtain ⟨rs, q, cells, hrun, hq, _⟩ := queue3_run_total fuel calls
    ThreadSafeQueue3.new [] queue3_new_sentinel (by simp)
  obtain ⟨q', _, _, he, _, _⟩ := queue3_enqueue_sentinel (some pars.toElement) hq
  exact ⟨rs, q, q', hrun, he, he⟩

/-- In `ThreadSafeQueue1` and `ThreadSafeStack1`, with `waitPop` enabled only when its
wait predicate holds: in every state, on an empty container `waitPop` does not return,
and on a non-empty container it returns the element and the state that `tryPop`
returns. -/
theorem waitPop_agrees_with_tryPop_coarse :
    (∀ q : ThreadSafeQueue1 E,
        (q.empty = true → ThreadSafeQueue1.waitPop q = .fault .blocked)
        ∧ (q.empty = false → ThreadSafeQueue1.waitPop q = .ok (ThreadSafeQueue1.tryPop q)))
    ∧ (∀ s : ThreadSafeStack1 E,
        (s.empty = true → ThreadSafeStack1.waitPop s = .fault .blocked)
        ∧ (s.empty = false → ThreadSafeStack1.waitPop s = .ok (ThreadSafeStack1.tryPop s))) := by
  refine ⟨?_, ?_⟩
  · intro q
    obtain ⟨m⟩ := q
    cases m with
    | nil => exact ⟨fun _ => rfl, fun h => by simp [ThreadSafeQueue1.empty] at h⟩
    | cons x xs => exact ⟨fun h => by simp [ThreadSafeQueue1.empty] at h, fun _ => rfl⟩
  · intro s
    obtain ⟨m⟩ := s
    rcases List.eq_nil_or_concat m with rfl | ⟨ys, y, rfl⟩
    · exact ⟨fun _ => rfl, fun h => by simp [ThreadSafeStack1.empty] at h⟩
    · simp only [List.concat_eq_append]
      refine ⟨fun h => by simp [ThreadSafeStack1.empty] at h, fun _ => ?_⟩
      rw [stack1_waitPop_concat, stack1_tryPop_concat]

/-- C15: `ThreadSafeQueue2<int> q; q.push(4); q.waitPop();`. In the state after
`push(4)` the queue is not empty and `tryPop` returns the pointer to 4, but `waitPop`
returns nothing: the member is ill-formed, so no run that contains a `waitPop` call
exists, whatever the calls before it. -/
theorem queue2_waitPop_ill_formed :
    (∃ q r, ThreadSafeQueue2.run [Call.push 4] (ThreadSafeQueue2.new (E := Nat)) = .ok ([], q)
      ∧ ThreadSafeQueue2.empty q = .ok false
      ∧ ThreadSafeQueue2.tryPop q = .ok (some 4, r)
      ∧ ThreadSafeQueue2.waitPop q = .fault .illFormed)
    ∧ ∀ (pre post : List (Call Nat)),
        ThreadSafeQueue2.run (pre ++ Call.waitPop :: post) ThreadSafeQueue2.new
          = .fault .illFormed := by
  refine ⟨⟨_, _, rfl, rfl, rfl, rfl⟩, ?_⟩
  intro pre post
  suffices h : ∀ (cs : List (Call Nat)) (q : ThreadSafeQueue2 Nat)
      (cells : List (Nat × Option Nat)),
      SentinelList q.heap q.m_node_front q.m_node_back cells →
      ThreadSafeQueue2.run (cs ++ Call.waitPop :: post) q = .fault .illFormed from
    h pre _ [] queue2_new_sentinel
  intro cs
  induction cs with
  | nil =>
    intro q cells _
    rfl
  | cons c cs ih =>
    intro q cells hq
    rw [List.cons_append, queue2_run_cons]
    cases hstep : ThreadSafeQueue2.step c q with
    | fault e =>
      cases c with
      | push element =>
        obtain ⟨q1, _, _, he, _⟩ := queue2_enqueue_sentinel (Node.ofElement element) rfl hq
        simp [ThreadSafeQueue2.step, ThreadSafeQueue2.push, he] at hstep
      | emplace pars =>
        cases pars with
        | none =>
          obtain ⟨q1, _, _, he, _⟩ := queue2_enqueue_sentinel (Node.empty (E := Nat)) rfl hq
          simp [ThreadSafeQueue2.step, ThreadSafeQueue2.emplace, Pars.toNode, he] at hstep
        | one element =>
          obtain ⟨q1, _, _, he, _⟩ := queue2_enqueue_sentinel (Node.ofElement element) rfl hq
          simp [ThreadSafeQueue2.step, ThreadSafeQueue2.emplace, Pars.toNode, he] at hstep
      | tryPop =>
        cases cells with
        | nil => simp [ThreadSafeQueue2.step, queue2_tryPop_nil hq] at hstep
        | cons c0 rest =>
          obtain ⟨q1, hp, _⟩ := queue2_tryPop_cons hq
          simp [ThreadSafeQueue2.step, hp] at hstep
      | waitPop =>
        simp only [ThreadSafeQueue2.step, ThreadSafeQueue2.waitPop, Exec.fault_bind] at hstep
        cases hstep
        rfl
    | ok r =>
      obtain ⟨r1, q1⟩ := r
      obtain ⟨cells1, hq1⟩ := queue2_step_sentinel hq hstep
      simp only [Exec.ok_bind]
      rw [ih q1 cells1 hq1]
      rfl

end EmplaceWaitProofs

section SentinelProofs

variable {E : Type}

theorem Heap.lastNode_chain {h : Heap E} {cells : List (Nat × Option E)} {p : Ptr}
    {bk : Nat} {n : Node E} (hc : IsChain h p cells (some bk))
    (hr : h.read (some bk) = .ok n) (hn : n.next = none)
    (fuel : Nat) (hfuel : cells.length + 1 ≤ fuel) :
    Heap.lastNode fuel h p = .ok (some bk) := by
  induction cells generalizing p fuel with
  | nil =>
    have hp : p = some bk := hc
    cases fuel with
    | zero => simp at hfuel
    | succ fuel =>
      unfold Heap.lastNode
      rw [hp, hr]
      simp only [Exec.ok_bind, hn, Exec.pure_eq]
  | cons c rest ih =>
    obtain ⟨hp, nx, hrc, hrest⟩ := hc
    obtain ⟨nxa, hnx⟩ := hrest.ptr_some
    cases fuel with
    | zero => simp at hfuel
    | succ fuel =>
      unfold Heap.lastNode
      rw [hp, hrc]
      simp only [Exec.ok_bind, hnx]
      rw [← hnx]
      exact ih hrest fuel (by simpa using hfuel)

theorem SentinelList.lastNode_eq {h : Heap E} {front back : Ptr}
    {cells : List (Nat × Option E)} (hq : SentinelList h front back cells) :
    h.lastNode h.cells.length front = .ok back := by
  obtain ⟨bk, hback, hchain, hsent, hnd⟩ := hq
  subst hback
  apply Heap.lastNode_chain hchain hsent rfl
  have hlt : ∀ a ∈ cells.map Prod.fst ++ [bk], a < h.cells.length := by
    intro a ha
    simp only [List.mem_append, List.mem_singleton] at ha
    rcases ha with ha | rfl
    · exact hchain.lt a ha
    · exact Heap.read_ok_lt hsent
  have := List.length_le_of_nodup_lt hnd hlt
  simpa using this

theorem SentinelList.read_back {h : Heap E} {front back : Ptr}
    {cells : List (Nat × Option E)} (hq : SentinelList h front back cells) :
    h.read back = .ok ⟨none, none⟩ := by
  obtain ⟨bk, hback, _, hsent, _⟩ := hq
  rw [hback]
  exact hsent

theorem SentinelList.front_eq_back_iff {h : Heap E} {front back : Ptr}
    {cells : List (Nat × Option E)} (hq : SentinelList h front back cells) :
    front = back ↔ cells = [] := by
  obtain ⟨bk, hback, hchain, _, hnd⟩ := hq
  subst hback
  cases cells with
  | nil => exact ⟨fun _ => rfl, fun _ => hchain⟩
  | cons c rest =>
    obtain ⟨hfront, _⟩ := hchain
    constructor
    · intro hEq
      rw [hfront] at hEq
      have hcb : c.1 = bk := Option.some.inj hEq
      simp only [List.map_cons, List.cons_append, List.nodup_cons, List.mem_append,
        List.mem_singleton] at hnd
      exact absurd (Or.inr hcb) hnd.1
    · intro hnil
      cases hnil

theorem SentinelList.contents_nil_iff {h : Heap E} {front back : Ptr}
    {cells : List (Nat × Option E)} (hq : SentinelList h front back cells) :
    h.payloads h.cells.length front back = .ok [] ↔ cells = [] := by
  constructor
  · exact hq.nil_of_contents
  · intro hnil
    rw [hq.contents_eq, hnil]
    rfl

/-- C13: in every state of a `ThreadSafeQueue2` reached from construction by `push`,
`emplace` and `tryPop` calls executed one at a time (no run contains a call of the
ill-formed `waitPop`), `m_node_back` is the last
node of the chain that starts at `m_node_front`, that node has a null payload and a null
`next`, and `m_node_front.get() == m_node_back` holds exactly when the queue is empty
(`empty()` returns true; no node is linked before the sentinel). -/
theorem queue2_sentinel_invariant (calls : List (Call E)) (rs : List (Option E))
    (q : ThreadSafeQueue2 E)
    (hrun : ThreadSafeQueue2.run calls ThreadSafeQueue2.new = .ok (rs, q)) :
    q.heap.lastNode q.heap.cells.length q.m_node_front = .ok q.m_node_back
      ∧ q.heap.read q.m_node_back = .ok ⟨none, none⟩
      ∧ (q.m_node_front = q.m_node_back ↔ ThreadSafeQueue2.empty q = .ok true)
      ∧ (q.m_node_front = q.m_node_back ↔ ThreadSafeQueue2.contents q = .ok []) := by
  obtain ⟨cells, hq⟩ := queue2_run_sentinel calls _ q [] rs queue2_new_sentinel hrun
  refine ⟨hq.lastNode_eq, hq.read_back, ?_, ?_⟩
  · rw [hq.front_eq_back_iff, queue2_empty_sentinel hq]
    cases cells <;> simp
  · rw [hq.front_eq_back_iff]
    exact hq.contents_nil_iff.symm

/-- Instance of C13 on the state reached by `push(4)`, `emplace()`, `tryPop`. -/
theorem queue2_sentinel_invariant_witness :
    (⟨[none, some ⟨none, some 2⟩, some ⟨none, none⟩]⟩ : Heap Nat).lastNode 3 (some 1)
        = .ok (some 2)
      ∧ (⟨[none, some ⟨none, some 2⟩, some ⟨none, none⟩]⟩ : Heap Nat).read (some 2)
        = .ok ⟨none, none⟩
      ∧ ((some 1 : Ptr) = some 2 ↔ ThreadSafeQueue2.empty
          (⟨⟨[none, some ⟨none, some 2⟩, some ⟨none, none⟩]⟩, some 1, some 2⟩
            : ThreadSafeQueue2 Nat) = .ok true)
      ∧ ((some 1 : Ptr) = some 2 ↔ ThreadSafeQueue2.contents
          (⟨⟨[none, some ⟨none, some 2⟩, some ⟨none, none⟩]⟩, some 1, some 2⟩
            : ThreadSafeQueue2 Nat) = .ok []) :=
  queue2_sentinel_invariant [.push 4, .emplace .none, .tryPop] [some 4]
    ⟨⟨[none, some ⟨none, some 2⟩, some ⟨none, none⟩]⟩, some 1, some 2⟩ (by decide)

/-- C14: in every state of a `ThreadSafeQueue3` reached from construction by complete
`push`, `emplace` and `tryPop` calls executed one at a time (the run always completes),
`m_label_back` is the last node of the chain that starts at `m_label_front`, that node
has a null payload and a null `next`, and `m_label_front` points at the node of
`m_label_back` exactly when the queue is empty (`empty()` returns true; no node is linked
before the sentinel). -/
theorem queue3_sentinel_invariant [Inhabited E] (fuel : Nat) (calls : List (TryCall E)) :
    ∃ rs q, ThreadSafeQueue3.run (fuel + 1) calls (ThreadSafeQueue3.new (E := E)) = .ok (rs, q)
      ∧ q.heap.lastNode q.heap.cells.length q.m_label_front = .ok q.m_label_back
      ∧ q.heap.read q.m_label_back = .ok ⟨none, none⟩
      ∧ (q.m_label_front = q.m_label_back ↔ ThreadSafeQueue3.empty q = .ok true)
      ∧ (q.m_label_front = q.m_label_back ↔ ThreadSafeQueue3.contents q = .ok []) := by
  obtain ⟨rs, q, cells, hrun, hq, _⟩ := queue3_run_total fuel calls
    ThreadSafeQueue3.new [] queue3_new_sentinel (by simp)
  refine ⟨rs, q, hrun, hq.lastNode_eq, hq.read_back, ?_, ?_⟩
  · rw [hq.front_eq_back_iff, queue3_empty_sentinel hq]
    cases cells <;> simp
  · rw [hq.front_eq_back_iff]
    exact hq.contents_nil_iff.symm

end SentinelProofs

section ConservationProofs

variable {E : Type}

theorem returnedValues_map_some (xs : List E) : returnedValues (xs.map some) = xs := by
  induction xs with
  | nil => rfl
  | cons x xs ih => simp [returnedValues] at ih ⊢

theorem LifoRef.run_conserves (ops : List (PushPop E)) :
    ∀ xs : List E,
      ((LifoRef.run ops xs).2 ++ returnedValues (LifoRef.run ops xs).1).Perm
        (xs ++ PushPop.pushed ops) := by
  induction ops with
  | nil => intro xs; simp [LifoRef.run, returnedValues, PushPop.pushed]
  | cons op ops ih =>
    intro xs
    cases op with
    | push element =>
      have h := ih (element :: xs)
      simp only [LifoRef.run, LifoRef.step, Option.toList, List.nil_append, PushPop.pushed]
      exact h.trans List.perm_middle.symm
    | tryPop =>
      cases xs with
      | nil =>
        have h := ih []
        simp only [LifoRef.run, LifoRef.step, Option.toList, List.singleton_append,
          PushPop.pushed, returnedValues, List.filterMap_cons, id] at h ⊢
        exact h
      | cons x xs =>
        have h := ih xs
        simp only [LifoRef.run, LifoRef.step, Option.toList, List.singleton_append,
          PushPop.pushed, returnedValues, List.filterMap_cons, id, List.cons_append] at h ⊢
        exact List.perm_middle.trans (List.Perm.cons x h)

/-- C16: for every finite sequence of `push` and `tryPop` calls executed one at a time on a
newly constructed `ThreadSafeStack2` (every retry loop allowed at least one iteration),
the run completes and, with `P` the multiset of pushed values, `R` the multiset of
values returned by successful `tryPop` calls and `C` the multiset of payloads stored in
the list reachable from `m_head`, `C + R = P`; hence `R` is a sub-multiset of `P`: every
returned value corresponds to a distinct prior push. -/
theorem stack2_conservation (fuel : Nat) (ops : List (PushPop E)) :
    ∃ rs s cs, ThreadSafeStack2.run (fuel + 1) (ops.map PushPop.toTryCall)
          (ThreadSafeStack2.new (E := E)) = .ok (rs, s)
      ∧ ThreadSafeStack2.contents s = .ok cs
      ∧ (returnedValues cs : Multiset E) + (returnedValues rs : Multiset E)
          = (PushPop.pushed ops : Multiset E)
      ∧ (returnedValues rs : Multiset E) ≤ (PushPop.pushed ops : Multiset E) := by
  obtain ⟨s, cells, hrun, hs, hx⟩ := stack2_run_refines fuel ops
    ThreadSafeStack2.new [] [] stack2_new_stackList rfl
  have hperm := LifoRef.run_conserves ops ([] : List E)
  simp only [List.nil_append] at hperm
  have hsum : (returnedValues ((LifoRef.run ops ([] : List E)).2.map some) : Multiset E)
      + (returnedValues (LifoRef.run ops ([] : List E)).1 : Multiset E)
        = (PushPop.pushed ops : Multiset E) := by
    rw [returnedValues_map_some, Multiset.coe_add]
    exact Multiset.coe_eq_coe.mpr hperm
  refine ⟨_, s, _, hrun, ?_, hsum, ?_⟩
  · rw [stack2_contents_stackList hs, hx]
  · rw [← hsum]
    exact Multiset.le_add_left _ _

end ConservationProofs

section HeadCellProofs

variable {E : Type}

/-- C19 (evaluation of the code): after `emplace()` with the empty argument pack on a newly
constructed `ThreadSafeQueue2<Nat>`, the head node has a non-null `next` and a null
`m_data`. -/
theorem queue2_head_payload_null_after_emplace_none :
    ThreadSafeQueue2.run [.emplace .none] (ThreadSafeQueue2.new (E := Nat))
        = .ok ([], ⟨⟨[some ⟨none, some 1⟩, some ⟨none, none⟩]⟩, some 0, some 1⟩)
      ∧ (⟨[some ⟨none, some 1⟩, some ⟨none, none⟩]⟩ : Heap Nat).read (some 0)
        = .ok ⟨none, some 1⟩ := by
  decide

/-- C20 (as stated, refuted): on a newly constructed `ThreadSafeQueue2` the cells written
under `m_mutex_back` and the cells accessed under `m_mutex_front` are not disjoint: both
contain the fields of the sentinel node. -/
theorem queue2_cells_overlap_on_new :
    ¬ List.Disjoint (ThreadSafeQueue2.new (E := Nat)).backCells
        (ThreadSafeQueue2.new (E := Nat)).frontCells := by
  intro h
  exact h (a := Cell.next 0) (by decide) (by decide)

/-- C20 (amended): in every state of a `ThreadSafeQueue2` reached from construction by
calls executed one at a time, the cells that `push` / `emplace` write under
`m_mutex_back` are disjoint from the cells that `empty`, `tryPop` and `waitPop` access
under `m_mutex_front` exactly when the queue is not empty (`empty()` returns false). -/
theorem queue2_cells_disjoint_iff_nonempty (calls : List (Call E)) (rs : List (Option E))
    (q : ThreadSafeQueue2 E)
    (hrun : ThreadSafeQueue2.run calls ThreadSafeQueue2.new = .ok (rs, q)) :
    List.Disjoint q.backCells q.frontCells ↔ ThreadSafeQueue2.empty q = .ok false := by
  obtain ⟨cells, hq⟩ := queue2_run_sentinel calls _ q [] rs queue2_new_sentinel hrun
  rw [queue2_empty_sentinel hq]
  have hiff := hq.front_eq_back_iff
  obtain ⟨bk, hback, hchain, _, _⟩ := hq
  cases cells with
  | nil =>
    have hfront : q.m_node_front = some bk := hchain
    simp only [ThreadSafeQueue2.backCells, ThreadSafeQueue2.frontCells, hback, hfront,
      List.isEmpty_nil, Exec.ok.injEq]
    refine ⟨fun h => (h (a := Cell.next bk) (by simp) (by simp)).elim, fun h => ?_⟩
    cases h
  | cons c rest =>
    obtain ⟨hfront, _⟩ := hchain
    have hne : c.1 ≠ bk := by
      intro hEq
      have : q.m_node_front = q.m_node_back := by rw [hfront, hback, hEq]
      exact absurd (hiff.mp this) (by simp)
    simp only [ThreadSafeQueue2.backCells, ThreadSafeQueue2.frontCells, hback, hfront,
      List.isEmpty_cons]
    refine ⟨fun _ => trivial, fun _ => ?_⟩
    intro x hx hy
    simp only [List.mem_cons, List.mem_singleton, List.not_mem_nil, or_false] at hx hy
    rcases hx with rfl | rfl | rfl <;> rcases hy with hy | hy | hy <;> cases hy
    · exact hne rfl
    · exact hne rfl

/-- Instance of the amended C20 on the state reached by `push(4)`: the queue is not empty
and the two sets of cells are disjoint. -/
theorem queue2_cells_disjoint_iff_nonempty_witness :
    List.Disjoint
        (⟨⟨[some ⟨some 4, some 1⟩, some ⟨none, none⟩]⟩, some 0, some 1⟩
          : ThreadSafeQueue2 Nat).backCells
        (⟨⟨[some ⟨some 4, some 1⟩, some ⟨none, none⟩]⟩, some 0, some 1⟩
          : ThreadSafeQueue2 Nat).frontCells
      ↔ ThreadSafeQueue2.empty
          (⟨⟨[some ⟨some 4, some 1⟩, some ⟨none, none⟩]⟩, some 0, some 1⟩
            : ThreadSafeQueue2 Nat) = .ok false :=
  queue2_cells_disjoint_iff_nonempty [.push 4] []
    ⟨⟨[some ⟨some 4, some 1⟩, some ⟨none, none⟩]⟩, some 0, some 1⟩ (by decide)

end HeadCellProofs

section BackLabelProofs

variable {E : Type}

theorem IsChain.last_cell {h : Heap E} {cells : List (Nat × Option E)} {p b : Ptr}
    {a : Nat} {v : Option E} (hc : IsChain h p (cells ++ [(a, v)]) b) :
    h.read (some a) = .ok ⟨v, b⟩ := by
  induction cells generalizing p with
  | nil =>
    obtain ⟨_, nx, hr, hrest⟩ := hc
    have hnx : nx = b := hrest
    rw [hr, hnx]
  | cons c rest ih =>
    obtain ⟨_, nx, _, hrest⟩ := hc
    exact ih hrest

theorem queue2_detachFront_back {q q' : ThreadSafeQueue2 E} {r : Option E}
    (h : ThreadSafeQueue2.detachFront q = .ok (r, q')) : q'.m_node_back = q.m_node_back := by
  unfold ThreadSafeQueue2.detachFront at h
  obtain ⟨n, _, h⟩ := Exec.bind_eq_ok h
  obtain ⟨h1, _, h⟩ := Exec.bind_eq_ok h
  obtain ⟨n1, _, h⟩ := Exec.bind_eq_ok h
  obtain ⟨h2, _, h⟩ := Exec.bind_eq_ok h
  simp only [Exec.pure_eq, Exec.ok.injEq, Prod.mk.injEq] at h
  rw [← h.2]

/-- A pop call leaves `m_node_back` as it is. -/
theorem queue2_step_back {q q' : ThreadSafeQueue2 E} {c : Call E} {r : Option (Option E)}
    (hc : c.isInsert = false) (hstep : ThreadSafeQueue2.step c q = .ok (r, q')) :
    q'.m_node_back = q.m_node_back := by
  cases c with
  | push element => simp [Call.isInsert] at hc
  | emplace pars => simp [Call.isInsert] at hc
  | tryPop =>
    simp only [ThreadSafeQueue2.step] at hstep
    obtain ⟨p, hp, hfin⟩ := Exec.bind_eq_ok hstep
    simp only [Exec.pure_eq, Exec.ok.injEq, Prod.mk.injEq] at hfin
    unfold ThreadSafeQueue2.tryPop at hp
    obtain ⟨n, _, hp⟩ := Exec.bind_eq_ok hp
    rw [← hfin.2]
    cases hn : n.next with
    | none =>
      simp only [hn, Exec.pure_eq, Exec.ok.injEq] at hp
      rw [← hp]
    | some nx =>
      simp only [hn] at hp
      exact queue2_detachFront_back (r := p.1) hp
  | waitPop =>
    simp only [ThreadSafeQueue2.step, ThreadSafeQueue2.waitPop, Exec.fault_bind] at hstep
    cases hstep

theorem queue2_run_back (pops : List (Call E)) :
    ∀ (q q' : ThreadSafeQueue2 E) (rs : List (Option E)),
      (∀ c ∈ pops, c.isInsert = false) →
      ThreadSafeQueue2.run pops q = .ok (rs, q') → q'.m_node_back = q.m_node_back := by
  induction pops with
  | nil =>
    intro q q' rs _ hrun
    simp only [ThreadSafeQueue2.run, Exec.pure_eq, Exec.ok.injEq, Prod.mk.injEq] at hrun
    rw [← hrun.2]
  | cons c cs ih =>
    intro q q' rs hall hrun
    rw [queue2_run_cons] at hrun
    obtain ⟨r, hstep, hrest⟩ := Exec.bind_eq_ok hrun
    obtain ⟨rs1, hrun1, hfin⟩ := Exec.bind_eq_ok hrest
    simp only [Exec.ok.injEq, Prod.mk.injEq] at hfin
    rw [← hfin.2, ih r.2 rs1.2 rs1.1 (fun c hc => hall c (List.mem_cons_of_mem _ hc)) hrun1]
    exact queue2_step_back (r := r.1) (hall c (List.mem_cons_self _ _)) hstep

/-- C21: in every state of a `ThreadSafeQueue2` reached from construction by calls executed
one at a time, `getBackLabel()` (a `const` member, a function of the state) returns a
node `n` such that after `push(v)` node `n` holds the payload `v`, its `next` is the
node that `getBackLabel()` now returns, and that node is different from `n` and has a
null payload and a null `next`; pops executed before the push do not change what
`getBackLabel()` returns. -/
theorem queue2_getBackLabel_push (calls : List (Call E)) (rs : List (Option E))
    (q : ThreadSafeQueue2 E)
    (hrun : ThreadSafeQueue2.run calls ThreadSafeQueue2.new = .ok (rs, q)) (v : E) :
    (∃ n q' n', q.getBackLabel = some n
        ∧ ThreadSafeQueue2.push v q = .ok q'
        ∧ q'.heap.read (some n) = .ok ⟨some v, some n'⟩
        ∧ q'.getBackLabel = some n'
        ∧ n' ≠ n
        ∧ q'.heap.read (some n') = .ok ⟨none, none⟩)
    ∧ (∀ (pops : List (Call E)) (rs1 : List (Option E)) (q1 : ThreadSafeQueue2 E),
        (∀ c ∈ pops, c.isInsert = false) →
        ThreadSafeQueue2.run pops q = .ok (rs1, q1) → q1.getBackLabel = q.getBackLabel) := by
  obtain ⟨cells, hq⟩ := queue2_run_sentinel calls _ q [] rs queue2_new_sentinel hrun
  constructor
  · have hlt : ∀ bk, q.m_node_back = some bk → bk < q.heap.cells.length := by
      intro bk hbk
      have := hq.read_back
      rw [hbk] at this
      exact Heap.read_ok_lt this
    obtain ⟨q', bk, hback, he, hback', hq'⟩ :=
      queue2_enqueue_sentinel (Node.ofElement v) rfl hq
    refine ⟨bk, q', q.heap.cells.length, hback, he, ?_, hback', ?_, ?_⟩
    · obtain ⟨bk', hb', hchain', _, _⟩ := hq'
      have hlast := hchain'.last_cell
      rw [hback'] at hb'
      rw [← hb'] at hlast
      exact hlast
    · exact Nat.ne_of_gt (hlt bk hback)
    · have := hq'.read_back
      rw [hback'] at this
      exact this
  · intro pops rs1 q1 hall hrun1
    exact queue2_run_back pops q q1 rs1 hall hrun1

/-- Instance of C21 on the state reached by `push(4)`, `tryPop`, with `v = 9`. -/
theorem queue2_getBackLabel_push_witness :
    ∃ n q' n', (⟨⟨[none, some ⟨none, none⟩]⟩, some 1, some 1⟩ : ThreadSafeQueue2 Nat).getBackLabel
          = some n
        ∧ ThreadSafeQueue2.push 9
            (⟨⟨[none, some ⟨none, none⟩]⟩, some 1, some 1⟩ : ThreadSafeQueue2 Nat) = .ok q'
        ∧ q'.heap.read (some n) = .ok ⟨some 9, some n'⟩
        ∧ q'.getBackLabel = some n'
        ∧ n' ≠ n
        ∧ q'.heap.read (some n') = .ok ⟨none, none⟩ :=
  (queue2_getBackLabel_push [.push 4, .tryPop] [some 4]
    ⟨⟨[none, some ⟨none, none⟩]⟩, some 1, some 1⟩ (by decide) 9).1

end BackLabelProofs

section HazardProofs

variable {E : Type}

theorem queue3_writeBack_eq (old_back new_node : Ptr) (d : Option E)
    (q : ThreadSafeQueue3 E) :
    ThreadSafeQueue3.writeBack old_back new_node d q
      = (ThreadSafeQueue3.writeData old_back d q >>= fun q1 =>
          ThreadSafeQueue3.writeNext old_back new_node q1) := by
  unfold ThreadSafeQueue3.writeBack ThreadSafeQueue3.writeData ThreadSafeQueue3.writeNext
  cases q.heap.setData old_back d with
  | ok h1 => rfl
  | fault e => rfl

/-- C22: for a `ThreadSafeQueue3` reached from construction by calls executed one at a
time and holding no element (its head is the node `old_back` that the exchange
returns), with `push(v)` split into (1) the exchange of `m_label_back` and (2) the
writes of `old_back->m_data` and `old_back->next`: after step 1 and before step 2
`empty()` returns true and `tryPop` returns null and leaves the state unchanged; after
step 2 `empty()` returns false and the next `tryPop` returns the pushed value. -/
theorem queue3_hazard_window [Inhabited E] (fuel : Nat) (calls : List (TryCall E)) (v : E) :
    ∃ rs q, ThreadSafeQueue3.run (fuel + 1) calls (ThreadSafeQueue3.new (E := E)) = .ok (rs, q)
      ∧ (ThreadSafeQueue3.contents q = .ok [] →
          (ThreadSafeQueue3.exchangeBack q).1.1 = q.m_label_front
          ∧ ThreadSafeQueue3.empty (ThreadSafeQueue3.exchangeBack q).2 = .ok true
          ∧ ThreadSafeQueue3.tryPop (fuel + 1) (ThreadSafeQueue3.exchangeBack q).2
              = .ok (none, (ThreadSafeQueue3.exchangeBack q).2)
          ∧ ∃ q2 q3, ThreadSafeQueue3.writeBack (ThreadSafeQueue3.exchangeBack q).1.1
                (ThreadSafeQueue3.exchangeBack q).1.2 (some v)
                (ThreadSafeQueue3.exchangeBack q).2 = .ok q2
              ∧ ThreadSafeQueue3.empty q2 = .ok false
              ∧ ThreadSafeQueue3.tryPop (fuel + 1) q2 = .ok (some v, q3)) := by
  obtain ⟨rs, q, cells, hrun, hq, _⟩ := queue3_run_total fuel calls
    ThreadSafeQueue3.new [] queue3_new_sentinel (by simp)
  refine ⟨rs, q, hrun, ?_⟩
  intro hc
  have hnil := hq.nil_of_contents hc
  subst hnil
  have hq0 := hq
  obtain ⟨bk, hback, hchain, hsent, _⟩ := hq
  have hfront : q.m_label_front = some bk := hchain
  have hbk_lt : bk < q.heap.cells.length := Heap.read_ok_lt hsent
  have hmid : (q.heap.alloc Node.empty).2.read (some bk) = .ok Node.empty := by
    rw [Heap.read_alloc_old _ hbk_lt]; exact hsent
  refine ⟨?_, ?_, ?_, ?_⟩
  · simp only [ThreadSafeQueue3.exchangeBack, hback, hfront]
  · unfold ThreadSafeQueue3.empty
    simp only [ThreadSafeQueue3.exchangeBack, hfront, hmid]
    rfl
  · unfold ThreadSafeQueue3.tryPop ThreadSafeQueue3.tryPopLoop
    simp only [ThreadSafeQueue3.exchangeBack, hfront, hmid, Exec.ok_bind, Node.empty_next,
      Exec.pure_eq]
  · obtain ⟨q2, bk', _, he, _, hq2⟩ := queue3_enqueue_sentinel (some v) hq0
    obtain ⟨q3, hp, _, _⟩ := queue3_tryPop_cons fuel hq2
    exact ⟨q2, q3, he, queue3_empty_sentinel hq2, hp⟩

/-- Instance of C22 on a newly constructed queue, with `v = 5`. -/
theorem queue3_hazard_window_witness :
    ThreadSafeQueue3.empty
        (ThreadSafeQueue3.exchangeBack (ThreadSafeQueue3.new (E := Nat))).2 = .ok true
      ∧ ThreadSafeQueue3.tryPop 1
          (ThreadSafeQueue3.exchangeBack (ThreadSafeQueue3.new (E := Nat))).2
        = .ok (none, (ThreadSafeQueue3.exchangeBack (ThreadSafeQueue3.new (E := Nat))).2)
      ∧ ThreadSafeQueue3.tryPop 1
          (⟨⟨[some ⟨some 5, some 1⟩, some ⟨none, none⟩]⟩, some 1, some 0⟩
            : ThreadSafeQueue3 Nat)
        = .ok (some 5, ⟨⟨[some ⟨none, some 1⟩, some ⟨none, none⟩]⟩, some 1, some 1⟩) := by
  obtain ⟨rs, q, hrun, h⟩ := queue3_hazard_window (E := Nat) 0 [] 5
  have hq : q = ThreadSafeQueue3.new := by
    have : ThreadSafeQueue3.run 1 [] (ThreadSafeQueue3.new (E := Nat))
        = .ok ([], ThreadSafeQueue3.new) := rfl
    rw [this] at hrun
    simp only [Exec.ok.injEq, Prod.mk.injEq] at hrun
    exact hrun.2.symm
  subst hq
  obtain ⟨_, h1, h2, _⟩ := h (by decide)
  exact ⟨h1, h2, by decide⟩

/-- C29: on a newly constructed `ThreadSafeQueue3`, with `push` split into the exchange
step and the payload and link writes: after push A has done only its exchange and
push B has run to completion, `empty()` returns true and `tryPop` returns null and
changes nothing; this is still so after A's payload write; after A's link write the
next two `tryPop` calls return A's value and then B's value. -/
theorem queue3_completed_push_invisible (fuel : Nat) (a b : E) :
    ∃ qB qA1 qA2 q3 q4,
      ThreadSafeQueue3.writeBack
          (ThreadSafeQueue3.exchangeBack
            (ThreadSafeQueue3.exchangeBack (ThreadSafeQueue3.new (E := E))).2).1.1
          (ThreadSafeQueue3.exchangeBack
            (ThreadSafeQueue3.exchangeBack (ThreadSafeQueue3.new (E := E))).2).1.2
          (some b)
          (ThreadSafeQueue3.exchangeBack
            (ThreadSafeQueue3.exchangeBack (ThreadSafeQueue3.new (E := E))).2).2 = .ok qB
      ∧ ThreadSafeQueue3.empty qB = .ok true
      ∧ ThreadSafeQueue3.tryPop (fuel + 1) qB = .ok (none, qB)
      ∧ ThreadSafeQueue3.writeData
          (ThreadSafeQueue3.exchangeBack (ThreadSafeQueue3.new (E := E))).1.1 (some a) qB
          = .ok qA1
      ∧ ThreadSafeQueue3.empty qA1 = .ok true
      ∧ ThreadSafeQueue3.tryPop (fuel + 1) qA1 = .ok (none, qA1)
      ∧ ThreadSafeQueue3.writeNext
          (ThreadSafeQueue3.exchangeBack (ThreadSafeQueue3.new (E := E))).1.1
          (ThreadSafeQueue3.exchangeBack (ThreadSafeQueue3.new (E := E))).1.2 qA1 = .ok qA2
      ∧ ThreadSafeQueue3.tryPop (fuel + 1) qA2 = .ok (some a, q3)
      ∧ ThreadSafeQueue3.tryPop (fuel + 1) q3 = .ok (some b, q4) :=
  ⟨_, _, _, _, _, rfl, rfl, rfl, rfl, rfl, rfl, rfl, rfl, rfl⟩

end HazardProofs

section RelaxedProofs

variable {E : Type}

@[simp] theorem Exec.map_ok {α β : Type} (f : α → β) (a : α) :
    Exec.map f (Exec.ok a) = Exec.ok (f a) := rfl

@[simp] theorem Exec.map_fault {α β : Type} (f : α → β) (e : Fault) :
    Exec.map f (Exec.fault e : Exec α) = Exec.fault e := rfl

theorem queue4_empty_strict (q : ThreadSafeQueue4 E) :
    ThreadSafeQueue4.empty q = ThreadSafeQueue3.empty q.toStrict := rfl

theorem queue4_enqueue_strict (d : Option E) (q : ThreadSafeQueue4 E) :
    (ThreadSafeQueue4.enqueue d q).map ThreadSafeQueue4.toStrict
      = ThreadSafeQueue3.enqueue d q.toStrict := by
  unfold ThreadSafeQueue4.enqueue ThreadSafeQueue3.enqueue ThreadSafeQueue3.exchangeBack
    ThreadSafeQueue3.writeBack
  simp only [atomic_exchange_explicit, ThreadSafeQueue4.toStrict]
  cases (q.heap.alloc Node.empty).2.setData q.m_label_back d with
  | fault e => rfl
  | ok h1 =>
    simp only [Exec.ok_bind]
    cases h1.setNext q.m_label_back (some (q.heap.alloc Node.empty).1) with
    | fault e => rfl
    | ok h2 => rfl

theorem queue4_tryPopLoop_strict (fuel : Nat) :
    ∀ (p : Ptr) (q : ThreadSafeQueue4 E),
      (ThreadSafeQueue4.tryPopLoop fuel p q).map (fun r => (r.1, r.2.toStrict))
        = ThreadSafeQueue3.tryPopLoop fuel p q.toStrict := by
  induction fuel with
  | zero => intro p q; rfl
  | succ fuel ih =>
    intro p q
    unfold ThreadSafeQueue4.tryPopLoop ThreadSafeQueue3.tryPopLoop
    simp only [ThreadSafeQueue4.toStrict]
    cases q.heap.read p with
    | fault e => rfl
    | ok n =>
      simp only [Exec.ok_bind]
      cases n.next with
      | none => rfl
      | some nx =>
        simp only [atomic_compare_exchange_explicit, atomic_compare_exchange]
        by_cases hEq : q.m_label_front = p
        · simp only [hEq, if_true]
          rfl
        · simp only [hEq, if_false]
          exact ih _ _

theorem queue4_tryPop_strict (fuel : Nat) (q : ThreadSafeQueue4 E) :
    (ThreadSafeQueue4.tryPop fuel q).map (fun r => (r.1, r.2.toStrict))
      = ThreadSafeQueue3.tryPop fuel q.toStrict := by
  unfold ThreadSafeQueue4.tryPop ThreadSafeQueue3.tryPop
  rw [← queue4_tryPopLoop_strict]
  simp only [ThreadSafeQueue4.toStrict]
  cases ThreadSafeQueue4.tryPopLoop fuel q.m_label_front q with
  | fault e => rfl
  | ok r =>
    simp only [Exec.ok_bind, Exec.map_ok]
    cases r.2.heap.read r.1 with
    | fault e => rfl
    | ok n =>
      simp only [Exec.ok_bind]
      cases n.next with
      | none => rfl
      | some nx =>
        simp only
        cases r.2.heap.setData r.1 none with
        | fault e => rfl
        | ok h => rfl

theorem queue4_observeStep_strict [Inhabited E] (fuel : Nat) (c : ObsCall E)
    (q : ThreadSafeQueue4 E) :
    (ThreadSafeQueue4.observeStep fuel c q).map (fun r => (r.1, r.2.toStrict))
      = ThreadSafeQueue3.observeStep fuel c q.toStrict := by
  cases c with
  | push element =>
    simp only [ThreadSafeQueue4.observeStep, ThreadSafeQueue3.observeStep,
      ThreadSafeQueue4.push, ThreadSafeQueue3.push, ← queue4_enqueue_strict]
    cases ThreadSafeQueue4.enqueue (some element) q <;> rfl
  | emplace pars =>
    simp only [ThreadSafeQueue4.observeStep, ThreadSafeQueue3.observeStep,
      ThreadSafeQueue4.emplace, ThreadSafeQueue3.emplace, ← queue4_enqueue_strict]
    cases ThreadSafeQueue4.enqueue (some pars.toElement) q <;> rfl
  | tryPop =>
    simp only [ThreadSafeQueue4.observeStep, ThreadSafeQueue3.observeStep,
      ← queue4_tryPop_strict]
    cases ThreadSafeQueue4.tryPop fuel q <;> rfl
  | empty =>
    simp only [ThreadSafeQueue4.observeStep, ThreadSafeQueue3.observeStep,
      ← queue4_empty_strict]
    cases ThreadSafeQueue4.empty q <;> rfl

theorem queue4_observe_strict [Inhabited E] (fuel : Nat) (calls : List (ObsCall E)) :
    ∀ q : ThreadSafeQueue4 E,
      (ThreadSafeQueue4.observe fuel calls q).map (fun r => (r.1, r.2.toStrict))
        = ThreadSafeQueue3.observe fuel calls q.toStrict := by
  induction calls with
  | nil => intro q; rfl
  | cons c cs ih =>
    intro q
    unfold ThreadSafeQueue4.observe ThreadSafeQueue3.observe
    rw [← queue4_observeStep_strict]
    cases ThreadSafeQueue4.observeStep fuel c q with
    | fault e => rfl
    | ok r =>
      simp only [Exec.ok_bind, Exec.map_ok]
      rw [← ih r.2]
      cases ThreadSafeQueue4.observe fuel cs r.2 <;> rfl

theorem queue3_observe_total [Inhabited E] (fuel : Nat) (calls : List (ObsCall E)) :
    ∀ (q : ThreadSafeQueue3 E) (cells : List (Nat × Option E)),
      SentinelList q.heap q.m_label_front q.m_label_back cells →
      ∃ rs q' cells', ThreadSafeQueue3.observe (fuel + 1) calls q = .ok (rs, q')
        ∧ SentinelList q'.heap q'.m_label_front q'.m_label_back cells' := by
  induction calls with
  | nil => intro q cells hq; exact ⟨[], q, cells, rfl, hq⟩
  | cons c cs ih =>
    intro q cells hq
    have hstep : ∃ r q1 cells1, ThreadSafeQueue3.observeStep (fuel + 1) c q = .ok (r, q1)
        ∧ SentinelList q1.heap q1.m_label_front q1.m_label_back cells1 := by
      cases c with
      | push element =>
        obtain ⟨q1, bk, _, he, _, hq1⟩ := queue3_enqueue_sentinel (some element) hq
        exact ⟨.done, q1, _, by
          simp only [ThreadSafeQueue3.observeStep, ThreadSafeQueue3.push, he, Exec.ok_bind,
            Exec.pure_eq], hq1⟩
      | emplace pars =>
        obtain ⟨q1, bk, _, he, _, hq1⟩ := queue3_enqueue_sentinel (some pars.toElement) hq
        exact ⟨.done, q1, _, by
          simp only [ThreadSafeQueue3.observeStep, ThreadSafeQueue3.emplace, he, Exec.ok_bind,
            Exec.pure_eq], hq1⟩
      | tryPop =>
        cases cells with
        | nil =>
          exact ⟨.popped none, q, [], by
            simp only [ThreadSafeQueue3.observeStep, queue3_tryPop_nil fuel hq, Exec.ok_bind,
              Exec.pure_eq], hq⟩
        | cons x rest =>
          obtain ⟨q1, hp, _, hq1⟩ := queue3_tryPop_cons fuel hq
          exact ⟨.popped x.2, q1, rest, by
            simp only [ThreadSafeQueue3.observeStep, hp, Exec.ok_bind, Exec.pure_eq], hq1⟩
      | empty =>
        exact ⟨.isEmpty cells.isEmpty, q, cells, by
          simp only [ThreadSafeQueue3.observeStep, queue3_empty_sentinel hq, Exec.ok_bind,
            Exec.pure_eq], hq⟩
    obtain ⟨r, q1, cells1, hs, hq1⟩ := hstep
    obtain ⟨rs, q', cells', hrun, hq'⟩ := ih q1 cells1 hq1
    refine ⟨r :: rs, q', cells', ?_, hq'⟩
    unfold ThreadSafeQueue3.observe
    rw [hs]
    simp only [Exec.ok_bind, hrun, Exec.pure_eq]

/-- C27: with the memory orders erased, for every finite sequence of `push`, `emplace`,
`tryPop` and `empty` calls executed one at a time on newly constructed queues,
`ThreadSafeQueue4` and `ThreadSafeQueue3` return the same results call by call and end
in states with the same nodes and the same labels: for every bound on the retry loops
the two runs agree, and for every positive bound both complete. -/
theorem queue4_same_as_queue3 [Inhabited E] (fuel : Nat) (calls : List (ObsCall E)) :
    (ThreadSafeQueue4.observe fuel calls (ThreadSafeQueue4.new (E := E))).map
        (fun r => (r.1, r.2.toStrict))
      = ThreadSafeQueue3.observe fuel calls (ThreadSafeQueue3.new (E := E))
    ∧ ∃ rs q3 q4,
        ThreadSafeQueue3.observe (fuel + 1) calls (ThreadSafeQueue3.new (E := E)) = .ok (rs, q3)
        ∧ ThreadSafeQueue4.observe (fuel + 1) calls (ThreadSafeQueue4.new (E := E))
            = .ok (rs, q4)
        ∧ q4.toStrict = q3 := by
  refine ⟨queue4_observe_strict fuel calls ThreadSafeQueue4.new, ?_⟩
  obtain ⟨rs, q3, _, hrun, _⟩ := queue3_observe_total fuel calls
    ThreadSafeQueue3.new [] queue3_new_sentinel
  have hsim := queue4_observe_strict (fuel + 1) calls (ThreadSafeQueue4.new (E := E))
  have hnew : (ThreadSafeQueue4.new (E := E)).toStrict = ThreadSafeQueue3.new := rfl
  rw [hnew, hrun] at hsim
  cases h4 : ThreadSafeQueue4.observe (fuel + 1) calls (ThreadSafeQueue4.new (E := E)) with
  | fault e => rw [h4] at hsim; cases hsim
  | ok r =>
    rw [h4] at hsim
    simp only [Exec.map_ok, Exec.ok.injEq, Prod.mk.injEq] at hsim
    obtain ⟨r1, r2⟩ := r
    exact ⟨rs, q3, r2, hrun, by rw [← hsim.1], hsim.2⟩

theorem stack3_insert_strict (node : Node E) (fuel : Nat) (s : ThreadSafeStack3 E) :
    (ThreadSafeStack3.insert node fuel s).map ThreadSafeStack3.toStrict
      = ThreadSafeStack2.insert node fuel s.toStrict := by
  have hloop : ∀ (fuel : Nat) (p : Ptr) (s : ThreadSafeStack3 E),
      (ThreadSafeStack3.pushLoop fuel p s).map ThreadSafeStack3.toStrict
        = ThreadSafeStack2.pushLoop fuel p s.toStrict := by
    intro fuel
    induction fuel with
    | zero => intro p s; rfl
    | succ fuel ih =>
      intro p s
      unfold ThreadSafeStack3.pushLoop ThreadSafeStack2.pushLoop
      simp only [ThreadSafeStack3.toStrict]
      cases s.heap.read p with
      | fault e => rfl
      | ok n =>
        simp only [Exec.ok_bind, atomic_compare_exchange_explicit, atomic_compare_exchange]
        by_cases hEq : s.m_head = n.next
        · simp only [hEq, if_true]
          rfl
        · simp only [hEq, if_false]
          cases hset : s.heap.setNext p s.m_head with
          | fault e => rfl
          | ok h =>
            simp only [Exec.ok_bind]
            exact ih p ⟨h, s.m_head⟩
  unfold ThreadSafeStack3.insert ThreadSafeStack2.insert
  simp only [ThreadSafeStack3.toStrict, atomic_load_explicit]
  cases (s.heap.alloc node).2.setNext (some (s.heap.alloc node).1) s.m_head with
  | fault e => rfl
  | ok h1 =>
    simp only [Exec.ok_bind]
    exact hloop fuel _ ⟨h1, s.m_head⟩

theorem stack3_tryPop_strict (fuel : Nat) (s : ThreadSafeStack3 E) :
    (ThreadSafeStack3.tryPop fuel s).map (fun r => (r.1, r.2.toStrict))
      = ThreadSafeStack2.tryPop fuel s.toStrict := by
  have hloop : ∀ (fuel : Nat) (p : Ptr) (s : ThreadSafeStack3 E),
      (ThreadSafeStack3.tryPopLoop fuel p s).map (fun r => (r.1, r.2.toStrict))
        = ThreadSafeStack2.tryPopLoop fuel p s.toStrict := by
    intro fuel
    induction fuel with
    | zero => intro p s; rfl
    | succ fuel ih =>
      intro p s
      unfold ThreadSafeStack3.tryPopLoop ThreadSafeStack2.tryPopLoop
      cases p with
      | none => rfl
      | some a =>
        simp only [ThreadSafeStack3.toStrict]
        cases s.heap.read (some a) with
        | fault e => rfl
        | ok n =>
          simp only [Exec.ok_bind, atomic_compare_exchange_explicit, atomic_compare_exchange]
          by_cases hEq : s.m_head = some a
          · simp only [hEq, if_true]
            rfl
          · simp only [hEq, if_false]
            exact ih _ _
  unfold ThreadSafeStack3.tryPop ThreadSafeStack2.tryPop
  simp only [atomic_load_explicit]
  rw [← hloop]
  simp only [ThreadSafeStack3.toStrict]
  cases ThreadSafeStack3.tryPopLoop fuel s.m_head s with
  | fault e => rfl
  | ok r =>
    simp only [Exec.ok_bind, Exec.map_ok]
    cases r.1 with
    | none => rfl
    | some a =>
      simp only
      cases r.2.heap.read (some a) with
      | fault e => rfl
      | ok n =>
        simp only [Exec.ok_bind]
        cases r.2.heap.setData (some a) none with
        | fault e => rfl
        | ok h => rfl

theorem stack3_observeStep_strict (fuel : Nat) (c : ObsCall E) (s : ThreadSafeStack3 E) :
    (ThreadSafeStack3.observeStep fuel c s).map (fun r => (r.1, r.2.toStrict))
      = ThreadSafeStack2.observeStep fuel c s.toStrict := by
  cases c with
  | push element =>
    simp only [ThreadSafeStack3.observeStep, ThreadSafeStack2.observeStep,
      ThreadSafeStack3.push, ThreadSafeStack2.push, ← stack3_insert_strict]
    cases ThreadSafeStack3.insert (Node.ofElement element) fuel s <;> rfl
  | emplace pars =>
    simp only [ThreadSafeStack3.observeStep, ThreadSafeStack2.observeStep,
      ThreadSafeStack3.emplace, ThreadSafeStack2.emplace, ← stack3_insert_strict]
    cases ThreadSafeStack3.insert pars.toNode fuel s <;> rfl
  | tryPop =>
    simp only [ThreadSafeStack3.observeStep, ThreadSafeStack2.observeStep,
      ← stack3_tryPop_strict]
    cases ThreadSafeStack3.tryPop fuel s <;> rfl
  | empty => rfl

theorem stack3_observe_strict (fuel : Nat) (calls : List (ObsCall E)) :
    ∀ s : ThreadSafeStack3 E,
      (ThreadSafeStack3.observe fuel calls s).map (fun r => (r.1, r.2.toStrict))
        = ThreadSafeStack2.observe fuel calls s.toStrict := by
  induction calls with
  | nil => intro s; rfl
  | cons c cs ih =>
    intro s
    unfold ThreadSafeStack3.observe ThreadSafeStack2.observe
    rw [← stack3_observeStep_strict]
    cases ThreadSafeStack3.observeStep fuel c s with
    | fault e => rfl
    | ok r =>
      simp only [Exec.ok_bind, Exec.map_ok]
      rw [← ih r.2]
      cases ThreadSafeStack3.observe fuel cs r.2 <;> rfl

theorem stack2_observe_total (fuel : Nat) (calls : List (ObsCall E)) :
    ∀ (s : ThreadSafeStack2 E) (cells : List (Nat × Option E)),
      StackList s.heap s.m_head cells →
      ∃ rs s' cells', ThreadSafeStack2.observe (fuel + 1) calls s = .ok (rs, s')
        ∧ StackList s'.heap s'.m_head cells' := by
  induction calls with
  | nil => intro s cells hs; exact ⟨[], s, cells, rfl, hs⟩
  | cons c cs ih =>
    intro s cells hs
    have hstep : ∃ r s1 cells1, ThreadSafeStack2.observeStep (fuel + 1) c s = .ok (r, s1)
        ∧ StackList s1.heap s1.m_head cells1 := by
      cases c with
      | push element =>
        obtain ⟨s1, he, _, hs1⟩ := stack2_insert_stackList (Node.ofElement element) fuel hs
        exact ⟨.done, s1, _, by
          simp only [ThreadSafeStack2.observeStep, ThreadSafeStack2.push, he, Exec.ok_bind,
            Exec.pure_eq], hs1⟩
      | emplace pars =>
        obtain ⟨s1, he, _, hs1⟩ := stack2_insert_stackList pars.toNode fuel hs
        exact ⟨.done, s1, _, by
          simp only [ThreadSafeStack2.observeStep, ThreadSafeStack2.emplace, he, Exec.ok_bind,
            Exec.pure_eq], hs1⟩
      | tryPop =>
        cases cells with
        | nil =>
          exact ⟨.popped none, s, [], by
            simp only [ThreadSafeStack2.observeStep, stack2_tryPop_nil fuel hs, Exec.ok_bind,
              Exec.pure_eq], hs⟩
        | cons x rest =>
          obtain ⟨s1, hp, hs1⟩ := stack2_tryPop_cons fuel hs
          exact ⟨.popped x.2, s1, rest, by
            simp only [ThreadSafeStack2.observeStep, hp, Exec.ok_bind, Exec.pure_eq], hs1⟩
      | empty => exact ⟨.isEmpty s.empty, s, cells, rfl, hs⟩
    obtain ⟨r, s1, cells1, hst, hs1⟩ := hstep
    obtain ⟨rs, s', cells', hrun, hs'⟩ := ih s1 cells1 hs1
    refine ⟨r :: rs, s', cells', ?_, hs'⟩
    unfold ThreadSafeStack2.observe
    rw [hst]
    simp only [Exec.ok_bind, hrun, Exec.pure_eq]

/-- C28: with the memory orders erased, for every finite sequence of `push`, `emplace`,
`tryPop` and `empty` calls executed one at a time on newly constructed stacks,
`ThreadSafeStack3` and `ThreadSafeStack2` return the same results call by call and end
in states with the same nodes and the same head: for every bound on the retry loops the
two runs agree, and for every positive bound both complete. -/
theorem stack3_same_as_stack2 (fuel : Nat) (calls : List (ObsCall E)) :
    (ThreadSafeStack3.observe fuel calls (ThreadSafeStack3.new (E := E))).map
        (fun r => (r.1, r.2.toStrict))
      = ThreadSafeStack2.observe fuel calls (ThreadSafeStack2.new (E := E))
    ∧ ∃ rs s2 s3,
        ThreadSafeStack2.observe (fuel + 1) calls (ThreadSafeStack2.new (E := E)) = .ok (rs, s2)
        ∧ ThreadSafeStack3.observe (fuel + 1) calls (ThreadSafeStack3.new (E := E))
            = .ok (rs, s3)
        ∧ s3.toStrict = s2 := by
  refine ⟨stack3_observe_strict fuel calls ThreadSafeStack3.new, ?_⟩
  obtain ⟨rs, s2, _, hrun, _⟩ := stack2_observe_total fuel calls
    ThreadSafeStack2.new [] stack2_new_stackList
  have hsim := stack3_observe_strict (fuel + 1) calls (ThreadSafeStack3.new (E := E))
  have hnew : (ThreadSafeStack3.new (E := E)).toStrict = ThreadSafeStack2.new := rfl
  rw [hnew, hrun] at hsim
  cases h3 : ThreadSafeStack3.observe (fuel + 1) calls (ThreadSafeStack3.new (E := E)) with
  | fault e => rw [h3] at hsim; cases hsim
  | ok r =>
    rw [h3] at hsim
    simp only [Exec.map_ok, Exec.ok.injEq, Prod.mk.injEq] at hsim
    obtain ⟨r1, r2⟩ := r
    exact ⟨rs, s2, r2, hrun, by rw [← hsim.1], hsim.2⟩

end RelaxedProofs

section TracedProofs

variable {E : Type}

theorem queue3_tryPopLoopTraced_erase (fuel : Nat) :
    ∀ (p : Ptr) (q : ThreadSafeQueue3 E),
      (ThreadSafeQueue3.tryPopLoopTraced fuel p q).map (fun t => t.2)
        = ThreadSafeQueue3.tryPopLoop fuel p q := by
  induction fuel with
  | zero => intro p q; rfl
  | succ fuel ih =>
    intro p q
    unfold ThreadSafeQueue3.tryPopLoopTraced ThreadSafeQueue3.tryPopLoop
    cases q.heap.read p with
    | fault e => rfl
    | ok n =>
      simp only [Exec.ok_bind]
      cases n.next with
      | none => rfl
      | some nx =>
        simp only [atomic_compare_exchange]
        by_cases hEq : q.m_label_front = p
        · simp only [hEq, if_true]
          rfl
        · simp only [hEq, if_false]
          rw [← ih]
          cases ThreadSafeQueue3.tryPopLoopTraced fuel q.m_label_front
            { q with m_label_front := q.m_label_front } <;> rfl

/-- The traced `tryPop` of `ThreadSafeQueue3` is `tryPop` once the trace is dropped. -/
theorem queue3_tryPopTraced_erase (fuel : Nat) (q : ThreadSafeQueue3 E) :
    (ThreadSafeQueue3.tryPopTraced fuel q).map (fun t => t.2)
      = ThreadSafeQueue3.tryPop fuel q := by
  unfold ThreadSafeQueue3.tryPopTraced ThreadSafeQueue3.tryPop
  rw [← queue3_tryPopLoopTraced_erase]
  cases ThreadSafeQueue3.tryPopLoopTraced fuel q.m_label_front q with
  | fault e => rfl
  | ok t =>
    simp only [Exec.ok_bind, Exec.map_ok]
    cases t.2.2.heap.read t.2.1 with
    | fault e => rfl
    | ok n =>
      simp only [Exec.ok_bind]
      cases n.next with
      | none => rfl
      | some nx =>
        simp only
        cases t.2.2.heap.setData t.2.1 none with
        | fault e => rfl
        | ok h => rfl

theorem stack2_pushLoopTraced_erase (fuel : Nat) :
    ∀ (p : Ptr) (s : ThreadSafeStack2 E),
      (ThreadSafeStack2.pushLoopTraced fuel p s).map (fun t => t.2)
        = ThreadSafeStack2.pushLoop fuel p s := by
  induction fuel with
  | zero => intro p s; rfl
  | succ fuel ih =>
    intro p s
    unfold ThreadSafeStack2.pushLoopTraced ThreadSafeStack2.pushLoop
    cases s.heap.read p with
    | fault e => rfl
    | ok n =>
      simp only [Exec.ok_bind, atomic_compare_exchange]
      by_cases hEq : s.m_head = n.next
      · simp only [hEq, if_true]
        rfl
      · simp only [hEq, if_false]
        cases s.heap.setNext p s.m_head with
        | fault e => rfl
        | ok h =>
          simp only [Exec.ok_bind]
          rw [← ih]
          cases ThreadSafeStack2.pushLoopTraced fuel p ⟨h, s.m_head⟩ <;> rfl

/-- The traced body of `push` / `emplace` of `ThreadSafeStack2` is that body once the
trace is dropped. -/
theorem stack2_insertTraced_erase (node : Node E) (fuel : Nat) (s : ThreadSafeStack2 E) :
    (ThreadSafeStack2.insertTraced node fuel s).map (fun t => t.2)
      = ThreadSafeStack2.insert node fuel s := by
  unfold ThreadSafeStack2.insertTraced ThreadSafeStack2.insert
  simp only [Heap.alloc_fst]
  cases (s.heap.alloc node).2.setNext (some s.heap.cells.length) s.m_head with
  | fault e => rfl
  | ok h1 =>
    simp only [Exec.ok_bind]
    exact stack2_pushLoopTraced_erase fuel _ _

theorem stack2_tryPopLoopTraced_erase (fuel : Nat) :
    ∀ (p : Ptr) (s : ThreadSafeStack2 E),
      (ThreadSafeStack2.tryPopLoopTraced fuel p s).map (fun t => t.2)
        = ThreadSafeStack2.tryPopLoop fuel p s := by
  induction fuel with
  | zero => intro p s; rfl
  | succ fuel ih =>
    intro p s
    unfold ThreadSafeStack2.tryPopLoopTraced ThreadSafeStack2.tryPopLoop
    cases p with
    | none => rfl
    | some a =>
      simp only
      cases s.heap.read (some a) with
      | fault e => rfl
      | ok n =>
        simp only [Exec.ok_bind, atomic_compare_exchange]
        by_cases hEq : s.m_head = some a
        · simp only [hEq, if_true]
          rfl
        · simp only [hEq, if_false]
          rw [← ih]
          cases ThreadSafeStack2.tryPopLoopTraced fuel s.m_head
            { s with m_head := s.m_head } <;> rfl

/-- The traced `tryPop` of `ThreadSafeStack2` is `tryPop` once the trace is dropped. -/
theorem stack2_tryPopTraced_erase (fuel : Nat) (s : ThreadSafeStack2 E) :
    (ThreadSafeStack2.tryPopTraced fuel s).map (fun t => t.2)
      = ThreadSafeStack2.tryPop fuel s := by
  unfold ThreadSafeStack2.tryPopTraced ThreadSafeStack2.tryPop
  rw [← stack2_tryPopLoopTraced_erase]
  cases ThreadSafeStack2.tryPopLoopTraced fuel s.m_head s with
  | fault e => rfl
  | ok t =>
    simp only [Exec.ok_bind, Exec.map_ok]
    cases t.2.1 with
    | none => rfl
    | some a =>
      simp only
      cases t.2.2.heap.read (some a) with
      | fault e => rfl
      | ok n =>
        simp only [Exec.ok_bind]
        cases t.2.2.heap.setData (some a) none with
        | fault e => rfl
        | ok h => rfl

theorem stack2_insertTraced_eq (node : Node E) (fuel : Nat) (s : ThreadSafeStack2 E) :
    ThreadSafeStack2.insertTraced node (fuel + 1) s
      = .ok ([true], ⟨(s.heap.alloc node).2.write s.heap.cells.length
          ⟨node.m_data, s.m_head⟩, some s.heap.cells.length⟩) := by
  have r0 := Heap.read_alloc_new s.heap node
  have r1 : ((s.heap.alloc node).2.write s.heap.cells.length ⟨node.m_data, s.m_head⟩).read
      (some s.heap.cells.length) = .ok ⟨node.m_data, s.m_head⟩ :=
    Heap.read_write_same _ (by simp)
  unfold ThreadSafeStack2.insertTraced ThreadSafeStack2.pushLoopTraced
  simp only [Heap.alloc_fst]
  rw [Heap.setNext_eq _ r0]
  simp only [Exec.ok_bind]
  rw [r1]
  simp only [Exec.ok_bind, atomic_compare_exchange, if_true, Exec.pure_eq]

theorem stack2_tryPopTraced_nil {s : ThreadSafeStack2 E} (fuel : Nat)
    (hs : StackList s.heap s.m_head []) :
    ThreadSafeStack2.tryPopTraced (fuel + 1) s = .ok ([], none, s) := by
  have hhead : s.m_head = none := hs.1
  unfold ThreadSafeStack2.tryPopTraced ThreadSafeStack2.tryPopLoopTraced
  rw [hhead]
  rfl

theorem stack2_tryPopTraced_cons {s : ThreadSafeStack2 E} (fuel : Nat)
    {c : Nat × Option E} {rest : List (Nat × Option E)}
    (hs : StackList s.heap s.m_head (c :: rest)) :
    ∃ s', ThreadSafeStack2.tryPopTraced (fuel + 1) s = .ok ([true], c.2, s') := by
  obtain ⟨⟨hhead, nx, hr, _⟩, _⟩ := hs
  refine ⟨⟨s.heap.write c.1 ⟨none, nx⟩, nx⟩, ?_⟩
  unfold ThreadSafeStack2.tryPopTraced ThreadSafeStack2.tryPopLoopTraced
  rw [hhead]
  simp only [hr, Exec.ok_bind, atomic_compare_exchange, if_true, Exec.pure_eq]
  rw [Heap.setData_eq _ hr]
  simp only [Exec.ok_bind]

theorem queue3_tryPopTraced_nil {q : ThreadSafeQueue3 E} (fuel : Nat)
    (hq : SentinelList q.heap q.m_label_front q.m_label_back []) :
    ThreadSafeQueue3.tryPopTraced (fuel + 1) q = .ok ([], none, q) := by
  obtain ⟨bk, _, hchain, hsent, _⟩ := hq
  have hfront : q.m_label_front = some bk := hchain
  unfold ThreadSafeQueue3.tryPopTraced ThreadSafeQueue3.tryPopLoopTraced
  rw [hfront, hsent]
  simp only [Exec.ok_bind, Node.empty_next, Exec.pure_eq]
  rw [hsent]
  rfl

theorem queue3_tryPopTraced_cons {q : ThreadSafeQueue3 E} (fuel : Nat)
    {c : Nat × Option E} {rest : List (Nat × Option E)}
    (hq : SentinelList q.heap q.m_label_front q.m_label_back (c :: rest)) :
    ∃ q', ThreadSafeQueue3.tryPopTraced (fuel + 1) q = .ok ([true], c.2, q') := by
  obtain ⟨bk, hback, hchain, hsent, hnd⟩ := hq
  obtain ⟨hfront, nx, hr, hrest⟩ := hchain
  obtain ⟨nxa, hnx⟩ := hrest.ptr_some
  subst hnx
  refine ⟨⟨q.heap.write c.1 ⟨none, some nxa⟩, q.m_label_back, some nxa⟩, ?_⟩
  unfold ThreadSafeQueue3.tryPopTraced ThreadSafeQueue3.tryPopLoopTraced
  rw [hfront, hr]
  simp only [Exec.ok_bind, atomic_compare_exchange, if_true, Exec.pure_eq]
  rw [hr]
  simp only [Exec.ok_bind]
  rw [Heap.setData_eq _ hr]
  simp only [Exec.ok_bind]

theorem Exec.ok_of_map_ok {α β : Type} {f : α → β} {x : Exec α} {a : α}
    (h : x = Exec.ok a) : Exec.map f x = Exec.ok (f a) := by
  rw [h]
  rfl

/-- C26: in every state reached from construction by calls executed one at a time (so
that nothing else modifies the head during a call), with a compare-and-swap that does
not fail spuriously: the loop of `ThreadSafeStack2::push` / `emplace` performs exactly
one compare-and-swap, which succeeds, and the call returns; the loops of
`ThreadSafeStack2::tryPop` and `ThreadSafeQueue3::tryPop` perform one compare-and-swap,
which succeeds, on a non-empty container and none at all on an empty one, and the call
returns. -/
theorem lockfree_loops_single_cas [Inhabited E] (fuel : Nat) (calls : List (TryCall E)) :
    (∃ rs s, ThreadSafeStack2.run (fuel + 1) calls (ThreadSafeStack2.new (E := E)) = .ok (rs, s)
      ∧ (∀ node : Node E, ∃ s',
          ThreadSafeStack2.insertTraced node (fuel + 1) s = .ok ([true], s')
          ∧ ThreadSafeStack2.insert node (fuel + 1) s = .ok s')
      ∧ ∃ t r s', ThreadSafeStack2.tryPopTraced (fuel + 1) s = .ok (t, r, s')
          ∧ ThreadSafeStack2.tryPop (fuel + 1) s = .ok (r, s')
          ∧ (s.empty = true → t = [])
          ∧ (s.empty = false → t = [true]))
    ∧ (∃ rs q, ThreadSafeQueue3.run (fuel + 1) calls (ThreadSafeQueue3.new (E := E))
          = .ok (rs, q)
      ∧ ∃ t r q', ThreadSafeQueue3.tryPopTraced (fuel + 1) q = .ok (t, r, q')
          ∧ ThreadSafeQueue3.tryPop (fuel + 1) q = .ok (r, q')
          ∧ (ThreadSafeQueue3.empty q = .ok true → t = [])
          ∧ (ThreadSafeQueue3.empty q = .ok false → t = [true])) := by
  constructor
  · obtain ⟨rs, s, cells, hrun, hs⟩ := stack2_run_total fuel calls
      ThreadSafeStack2.new [] stack2_new_stackList
    refine ⟨rs, s, hrun, ?_, ?_⟩
    · intro node
      have ht := stack2_insertTraced_eq node fuel s
      refine ⟨_, ht, ?_⟩
      rw [← stack2_insertTraced_erase]
      exact Exec.ok_of_map_ok ht
    · cases cells with
      | nil =>
        have ht := stack2_tryPopTraced_nil fuel hs
        have hhead : s.m_head = none := hs.1
        refine ⟨[], none, s, ht, ?_, fun _ => rfl, ?_⟩
        · rw [← stack2_tryPopTraced_erase]
          exact Exec.ok_of_map_ok ht
        · intro he
          simp [ThreadSafeStack2.empty, hhead] at he
      | cons c rest =>
        obtain ⟨s', ht⟩ := stack2_tryPopTraced_cons fuel hs
        have hhead : s.m_head = some c.1 := hs.1.1
        refine ⟨[true], c.2, s', ht, ?_, ?_, fun _ => rfl⟩
        · rw [← stack2_tryPopTraced_erase]
          exact Exec.ok_of_map_ok ht
        · intro he
          simp [ThreadSafeStack2.empty, hhead] at he
  · obtain ⟨rs, q, cells, hrun, hq, _⟩ := queue3_run_total fuel calls
      ThreadSafeQueue3.new [] queue3_new_sentinel (by simp)
    refine ⟨rs, q, hrun, ?_⟩
    have hempty := queue3_empty_sentinel hq
    cases cells with
    | nil =>
      have ht := queue3_tryPopTraced_nil fuel hq
      refine ⟨[], none, q, ht, ?_, fun _ => rfl, ?_⟩
      · rw [← queue3_tryPopTraced_erase]
        exact Exec.ok_of_map_ok ht
      · intro he
        rw [hempty] at he
        simp at he
    | cons c rest =>
      obtain ⟨q', ht⟩ := queue3_tryPopTraced_cons fuel hq
      refine ⟨[true], c.2, q', ht, ?_, ?_, fun _ => rfl⟩
      · rw [← queue3_tryPopTraced_erase]
        exact Exec.ok_of_map_ok ht
      · intro he
        rw [hempty] at he
        simp at he

end TracedProofs

section InterleavedPushProofs

variable {E : Type}

theorem Heap.write_write (h : Heap E) (a : Nat) (n m : Node E) :
    (h.write a n).write a m = h.write a m := by
  simp [Heap.write]

theorem Heap.write_comm {a b : Nat} (h : Heap E) (n m : Node E) (hne : a ≠ b) :
    (h.write a n).write b m = (h.write b m).write a n := by
  simp only [Heap.write, Heap.mk.injEq]
  exact List.set_comm _ _ _ hne

theorem Heap.alloc_write {h : Heap E} {a : Nat} (n m : Node E) (hlt : a < h.cells.length) :
    ((h.write a n).alloc m).2 = ((h.alloc m).2).write a n := by
  simp only [Heap.write, Heap.alloc, Heap.mk.injEq]
  rw [List.set_append_left _ _ hlt]

theorem Heap.write_self {h : Heap E} {a : Nat} {n : Node E}
    (hr : h.read (some a) = .ok n) : h.write a n = h := by
  have hlt := Heap.read_ok_lt hr
  rw [Heap.read_ok_iff] at hr
  cases h with
  | mk cells =>
    simp only [Heap.write, Heap.mk.injEq]
    apply List.ext_getElem?
    intro i
    by_cases hi : a = i
    · subst hi
      rw [List.getElem?_set_self hlt]
      exact hr.symm
    · rw [List.getElem?_set_ne hi]

/-- Explicit form of the state after the shared body of `push` / `emplace`. -/
theorem queue3_enqueue_eq {q : ThreadSafeQueue3 E} {bk : Nat} {n : Node E} (d : Option E)
    (hback : q.m_label_back = some bk) (hr : q.heap.read (some bk) = .ok n) :
    ThreadSafeQueue3.enqueue d q
      = .ok ⟨(q.heap.alloc Node.empty).2.write bk ⟨d, some q.heap.cells.length⟩,
          some q.heap.cells.length, q.m_label_front⟩ := by
  have hbk_lt : bk < q.heap.cells.length := Heap.read_ok_lt hr
  have r0 : (q.heap.alloc Node.empty).2.read (some bk) = .ok n := by
    rw [Heap.read_alloc_old _ hbk_lt]; exact hr
  have r1 : (((q.heap.alloc Node.empty).2).write bk ⟨d, n.next⟩).read (some bk)
      = .ok ⟨d, n.next⟩ := Heap.read_write_same _ (by simp; omega)
  unfold ThreadSafeQueue3.enqueue ThreadSafeQueue3.exchangeBack ThreadSafeQueue3.writeBack
  simp only [Heap.alloc_fst, hback]
  rw [Heap.setData_eq _ r0]
  simp only [Exec.ok_bind]
  rw [Heap.setNext_eq _ r1]
  simp only [Exec.ok_bind, Exec.pure_eq, Heap.write_write]

theorem queue3_writeData_eq {h : Heap E} {a : Nat} {n : Node E} (d : Option E)
    (bp fp : Ptr) (hr : h.read (some a) = .ok n) :
    ThreadSafeQueue3.writeData (some a) d ⟨h, bp, fp⟩ = .ok ⟨h.write a ⟨d, n.next⟩, bp, fp⟩ := by
  unfold ThreadSafeQueue3.writeData
  simp only [Heap.setData_eq _ hr, Exec.ok_bind, Exec.pure_eq]

theorem queue3_writeNext_eq {h : Heap E} {a : Nat} {n : Node E} (nx : Ptr)
    (bp fp : Ptr) (hr : h.read (some a) = .ok n) :
    ThreadSafeQueue3.writeNext (some a) nx ⟨h, bp, fp⟩ = .ok ⟨h.write a ⟨n.m_data, nx⟩, bp, fp⟩ := by
  unfold ThreadSafeQueue3.writeNext
  simp only [Heap.setNext_eq _ hr, Exec.ok_bind, Exec.pure_eq]

/-- Draining a sentinel-terminated list: as many `tryPop` calls as it has entries return
the payloads in list order. -/
theorem queue3_drain [Inhabited E] (fuel : Nat) (cells : List (Nat × Option E)) :
    ∀ q : ThreadSafeQueue3 E,
      SentinelList q.heap q.m_label_front q.m_label_back cells →
      ∃ q', ThreadSafeQueue3.run (fuel + 1) (List.replicate cells.length TryCall.tryPop) q
        = .ok (cells.map Prod.snd, q') := by
  induction cells with
  | nil => intro q _; exact ⟨q, rfl⟩
  | cons c rest ih =>
    intro q hq
    obtain ⟨q1, hp, _, hq1⟩ := queue3_tryPop_cons fuel hq
    obtain ⟨q', hrun⟩ := ih q1 hq1
    refine ⟨q', ?_⟩
    simp only [List.length_cons, List.replicate_succ, queue3_run_cons,
      ThreadSafeQueue3.step, hp, Exec.ok_bind, Exec.pure_eq, hrun, List.map_cons]
    rfl

/-- C23: in every state of a `ThreadSafeQueue3` reached from construction by calls executed
one at a time, let push A (value `a`) and then push B (value `b`) do their exchanges of
`m_label_back`; for every interleaving of A's payload and link writes with B's payload
and link writes, the writes complete in the state that `push(a)` followed by `push(b)`
executed one after the other would give; the queue then stores its former entries
followed by `a` and then `b`, and the following `tryPop` calls return them in that
order. -/
theorem queue3_order_fixed_by_exchange [Inhabited E] (fuel : Nat) (calls : List (TryCall E))
    (a b : E) :
    ∃ rs q cs,
      ThreadSafeQueue3.run (fuel + 1) calls (ThreadSafeQueue3.new (E := E)) = .ok (rs, q)
      ∧ ThreadSafeQueue3.contents q = .ok cs
      ∧ ∀ sched ∈ merges [(Pusher.A, PushWrite.data), (Pusher.A, PushWrite.link)]
            [(Pusher.B, PushWrite.data), (Pusher.B, PushWrite.link)],
          ∃ q', runWrites (ThreadSafeQueue3.beginPush (some a) q).1
                (ThreadSafeQueue3.beginPush (some b)
                  (ThreadSafeQueue3.beginPush (some a) q).2).1 sched
                (ThreadSafeQueue3.beginPush (some b)
                  (ThreadSafeQueue3.beginPush (some a) q).2).2 = .ok q'
            ∧ (ThreadSafeQueue3.push a q >>= fun q1 => ThreadSafeQueue3.push b q1) = .ok q'
            ∧ ThreadSafeQueue3.contents q' = .ok (cs ++ [some a, some b])
            ∧ ∃ q'', ThreadSafeQueue3.run (fuel + 1)
                (List.replicate (cs.length + 2) TryCall.tryPop) q'
                = .ok (cs ++ [some a, some b], q'') := by
  obtain ⟨rs, q, cells, hrun, hq, _⟩ := queue3_run_total fuel calls
    ThreadSafeQueue3.new [] queue3_new_sentinel (by simp)
  refine ⟨rs, q, cells.map Prod.snd, hrun, hq.contents_eq, ?_⟩
  -- the two pushes executed one after the other
  obtain ⟨q1, bk, hback, he1, hback1, hq1⟩ := queue3_enqueue_sentinel (some a) hq
  obtain ⟨q2, bk1, hbk1, he2, _, hq2⟩ := queue3_enqueue_sentinel (some b) hq1
  have hL : bk1 = q.heap.cells.length := by
    rw [hback1] at hbk1
    exact (Option.some.inj hbk1).symm
  subst hL
  have hsent : q.heap.read (some bk) = .ok Node.empty := by
    have := hq.read_back
    rw [hback] at this
    exact this
  have hbk_lt : bk < q.heap.cells.length := Heap.read_ok_lt hsent
  have hne : bk ≠ q.heap.cells.length := Nat.ne_of_lt hbk_lt
  have hq1_eq : q1 = ⟨(q.heap.alloc Node.empty).2.write bk ⟨some a, some q.heap.cells.length⟩,
      some q.heap.cells.length, q.m_label_front⟩ := by
    have := he1.symm.trans (queue3_enqueue_eq (some a) hback hsent)
    exact Exec.ok.inj this
  have hsent1 : q1.heap.read (some q.heap.cells.length) = .ok Node.empty := by
    have := hq1.read_back
    rw [hback1] at this
    exact this
  have hlen1 : q1.heap.cells.length = q.heap.cells.length + 1 := by
    rw [hq1_eq]
    simp
  have hq2_eq : q2 = ⟨(((q.heap.alloc Node.empty).2.alloc Node.empty).2.write bk
        ⟨some a, some q.heap.cells.length⟩).write q.heap.cells.length
        ⟨some b, some (q.heap.cells.length + 1)⟩,
      some (q.heap.cells.length + 1), q.m_label_front⟩ := by
    have h2 := he2.symm.trans (queue3_enqueue_eq (some b) hback1 hsent1)
    have h2' := Exec.ok.inj h2
    rw [h2', hlen1, hq1_eq]
    simp only [ThreadSafeQueue3.mk.injEq, and_true]
    rw [Heap.alloc_write _ _ (by simp; omega)]
  have hseq : (ThreadSafeQueue3.push a q >>= fun q1 => ThreadSafeQueue3.push b q1)
      = .ok q2 := by
    simp only [ThreadSafeQueue3.push, he1, Exec.ok_bind, he2]
  -- the state after the two exchanges, and the effect of each write on it
  have hH_bk : ((q.heap.alloc Node.empty).2.alloc Node.empty).2.read (some bk)
      = .ok Node.empty := by
    rw [Heap.read_alloc_old _ (by simp; omega), Heap.read_alloc_old _ hbk_lt]
    exact hsent
  have hH_L : ((q.heap.alloc Node.empty).2.alloc Node.empty).2.read
      (some q.heap.cells.length) = .ok Node.empty := by
    rw [Heap.read_alloc_old _ (by simp)]
    exact Heap.read_alloc_new _ _
  have hW_bk : ∀ nb nl : Node E,
      ((((q.heap.alloc Node.empty).2.alloc Node.empty).2.write bk nb).write
        q.heap.cells.length nl).read (some bk) = .ok nb := by
    intro nb nl
    rw [Heap.read_write_ne _ (Ne.symm hne)]
    exact Heap.read_write_same _ (by simp; omega)
  have hW_L : ∀ nb nl : Node E,
      ((((q.heap.alloc Node.empty).2.alloc Node.empty).2.write bk nb).write
        q.heap.cells.length nl).read (some q.heap.cells.length) = .ok nl := by
    intro nb nl
    exact Heap.read_write_same _ (by simp; omega)
  have hd_bk : ∀ (d : Option E) (nb nl : Node E) (bp fp : Ptr),
      ThreadSafeQueue3.writeData (some bk) d
          ⟨(((q.heap.alloc Node.empty).2.alloc Node.empty).2.write bk nb).write
            q.heap.cells.length nl, bp, fp⟩
        = .ok ⟨(((q.heap.alloc Node.empty).2.alloc Node.empty).2.write bk
            ⟨d, nb.next⟩).write q.heap.cells.length nl, bp, fp⟩ := by
    intro d nb nl bp fp
    rw [queue3_writeData_eq d bp fp (hW_bk nb nl), Heap.write_comm _ _ _ (Ne.symm hne),
      Heap.write_write]
  have hn_bk : ∀ (nx : Ptr) (nb nl : Node E) (bp fp : Ptr),
      ThreadSafeQueue3.writeNext (some bk) nx
          ⟨(((q.heap.alloc Node.empty).2.alloc Node.empty).2.write bk nb).write
            q.heap.cells.length nl, bp, fp⟩
        = .ok ⟨(((q.heap.alloc Node.empty).2.alloc Node.empty).2.write bk
            ⟨nb.m_data, nx⟩).write q.heap.cells.length nl, bp, fp⟩ := by
    intro nx nb nl bp fp
    rw [queue3_writeNext_eq nx bp fp (hW_bk nb nl), Heap.write_comm _ _ _ (Ne.symm hne),
      Heap.write_write]
  have hd_L : ∀ (d : Option E) (nb nl : Node E) (bp fp : Ptr),
      ThreadSafeQueue3.writeData (some q.heap.cells.length) d
          ⟨(((q.heap.alloc Node.empty).2.alloc Node.empty).2.write bk nb).write
            q.heap.cells.length nl, bp, fp⟩
        = .ok ⟨(((q.heap.alloc Node.empty).2.alloc Node.empty).2.write bk nb).write
            q.heap.cells.length ⟨d, nl.next⟩, bp, fp⟩ := by
    intro d nb nl bp fp
    rw [queue3_writeData_eq d bp fp (hW_L nb nl), Heap.write_write]
  have hn_L : ∀ (nx : Ptr) (nb nl : Node E) (bp fp : Ptr),
      ThreadSafeQueue3.writeNext (some q.heap.cells.length) nx
          ⟨(((q.heap.alloc Node.empty).2.alloc Node.empty).2.write bk nb).write
            q.heap.cells.length nl, bp, fp⟩
        = .ok ⟨(((q.heap.alloc Node.empty).2.alloc Node.empty).2.write bk nb).write
            q.heap.cells.length ⟨nl.m_data, nx⟩, bp, fp⟩ := by
    intro nx nb nl bp fp
    rw [queue3_writeNext_eq nx bp fp (hW_L nb nl), Heap.write_write]
  have hstart : ((q.heap.alloc Node.empty).2.alloc Node.empty).2
      = (((q.heap.alloc Node.empty).2.alloc Node.empty).2.write bk Node.empty).write
          q.heap.cells.length Node.empty := by
    rw [Heap.write_self hH_bk, Heap.write_self hH_L]
  have hbegin : (ThreadSafeQueue3.beginPush (some b)
        (ThreadSafeQueue3.beginPush (some a) q).2)
      = (⟨some q.heap.cells.length, some (q.heap.cells.length + 1), some b⟩,
          ⟨(((q.heap.alloc Node.empty).2.alloc Node.empty).2.write bk Node.empty).write
            q.heap.cells.length Node.empty, some (q.heap.cells.length + 1),
            q.m_label_front⟩) := by
    rw [← hstart]
    simp [ThreadSafeQueue3.beginPush, ThreadSafeQueue3.exchangeBack]
  have hbeginA : (ThreadSafeQueue3.beginPush (some a) q).1
      = ⟨some bk, some q.heap.cells.length, some a⟩ := by
    simp [ThreadSafeQueue3.beginPush, ThreadSafeQueue3.exchangeBack, hback]
  intro sched hsched
  refine ⟨q2, ?_, hseq, ?_, ?_⟩
  · rw [hbegin, hbeginA, hq2_eq]
    simp only [merges, mergesCons, List.map_cons, List.map_nil, List.cons_append,
      List.nil_append, List.mem_cons, List.mem_singleton, List.not_mem_nil, or_false]
      at hsched
    rcases hsched with rfl | rfl | rfl | rfl | rfl | rfl <;>
      simp only [runWrites, PendingPush.write, hd_bk, hn_bk, hd_L, hn_L, Exec.ok_bind,
        Exec.pure_eq, Node.empty_next, Node.empty_m_data]
  · have := hq2.contents_eq
    unfold ThreadSafeQueue3.contents
    rw [this]
    simp
  · have hd := queue3_drain fuel _ q2 hq2
    obtain ⟨q'', hdr⟩ := hd
    refine ⟨q'', ?_⟩
    simp only [List.length_append, List.length_cons, List.length_nil, List.map_append,
      List.map_cons, List.map_nil, List.append_assoc, List.singleton_append, List.length_map]
      at hdr ⊢
    exact hdr

end InterleavedPushProofs

section PushAmongProofs

variable {E : Type}

/-- The state after the shared body of `push` / `emplace` run alone. -/
theorem stack2_insert_eq (node : Node E) (fuel : Nat) (s : ThreadSafeStack2 E) :
    ThreadSafeStack2.insert node (fuel + 1) s
      = .ok ⟨(s.heap.alloc node).2.write s.heap.cells.length ⟨node.m_data, s.m_head⟩,
          some s.heap.cells.length⟩ := by
  have r0 := Heap.read_alloc_new s.heap node
  have r1 : ((s.heap.alloc node).2.write s.heap.cells.length ⟨node.m_data, s.m_head⟩).read
      (some s.heap.cells.length) = .ok ⟨node.m_data, s.m_head⟩ :=
    Heap.read_write_same _ (by simp)
  unfold ThreadSafeStack2.insert ThreadSafeStack2.pushLoop
  simp only [Heap.alloc_fst]
  rw [Heap.setNext_eq _ r0]
  simp only [Exec.ok_bind]
  rw [r1]
  simp only [Exec.ok_bind, atomic_compare_exchange, if_true, Exec.pure_eq]

/-- The state after `tryPop` run alone on a non-empty null-terminated list. -/
theorem stack2_tryPop_eq {s : ThreadSafeStack2 E} (fuel : Nat)
    {c : Nat × Option E} {rest : List (Nat × Option E)}
    (hs : StackList s.heap s.m_head (c :: rest)) :
    ∃ nx, ThreadSafeStack2.tryPop (fuel + 1) s
      = .ok (c.2, ⟨s.heap.write c.1 ⟨none, nx⟩, nx⟩) := by
  obtain ⟨⟨hhead, nx, hr, hrest⟩, hnd⟩ := hs
  refine ⟨nx, ?_⟩
  unfold ThreadSafeStack2.tryPop ThreadSafeStack2.tryPopLoop
  rw [hhead]
  simp only [hr, Exec.ok_bind, atomic_compare_exchange, if_true, Exec.pure_eq]
  rw [Heap.setData_eq _ hr]
  simp only [Exec.ok_bind]

/-- A call of another thread keeps a node that is not linked into the stack out of the
stack and leaves its cell unchanged. -/
theorem stack2_step_private (fuel : Nat) (c : TryCall E)
    {s : ThreadSafeStack2 E} {cells : List (Nat × Option E)} {a : Nat} {n : Node E}
    (hs : StackList s.heap s.m_head cells) (ha : a ∉ cells.map Prod.fst)
    (hr : s.heap.read (some a) = .ok n) :
    ∃ r s' cells', ThreadSafeStack2.step (fuel + 1) c s = .ok (r, s')
      ∧ StackList s'.heap s'.m_head cells' ∧ a ∉ cells'.map Prod.fst
      ∧ s'.heap.read (some a) = .ok n := by
  have ha_lt : a < s.heap.cells.length := Heap.read_ok_lt hr
  have hins : ∀ node : Node E, ∃ s' cells',
      ThreadSafeStack2.insert node (fuel + 1) s = .ok s'
      ∧ StackList s'.heap s'.m_head cells' ∧ a ∉ cells'.map Prod.fst
      ∧ s'.heap.read (some a) = .ok n := by
    intro node
    obtain ⟨s1, he, _, hs1⟩ := stack2_insert_stackList node fuel hs
    refine ⟨s1, _, he, hs1, ?_, ?_⟩
    · simp only [List.map_cons, List.mem_cons, not_or]
      exact ⟨by omega, ha⟩
    · rw [stack2_insert_eq] at he
      simp only [Exec.ok.injEq] at he
      rw [← he]
      show ((s.heap.alloc node).2.write s.heap.cells.length _).read (some a) = _
      rw [Heap.read_write_ne _ (by omega), Heap.read_alloc_old _ ha_lt]
      exact hr
  cases c with
  | push element =>
    obtain ⟨s1, cells1, he, hs1, ha1, hr1⟩ := hins (Node.ofElement element)
    refine ⟨none, s1, cells1, ?_, hs1, ha1, hr1⟩
    simp only [ThreadSafeStack2.step, ThreadSafeStack2.push, he, Exec.ok_bind, Exec.pure_eq]
  | emplace pars =>
    obtain ⟨s1, cells1, he, hs1, ha1, hr1⟩ := hins pars.toNode
    refine ⟨none, s1, cells1, ?_, hs1, ha1, hr1⟩
    simp only [ThreadSafeStack2.step, ThreadSafeStack2.emplace, he, Exec.ok_bind,
      Exec.pure_eq]
  | tryPop =>
    cases cells with
    | nil =>
      refine ⟨some none, s, [], ?_, hs, ha, hr⟩
      simp only [ThreadSafeStack2.step, stack2_tryPop_nil fuel hs, Exec.ok_bind,
        Exec.pure_eq]
    | cons c rest =>
      obtain ⟨s1, hp, hs1⟩ := stack2_tryPop_cons fuel hs
      simp only [List.map_cons, List.mem_cons, not_or] at ha
      refine ⟨some c.2, s1, rest, ?_, hs1, ha.2, ?_⟩
      · simp only [ThreadSafeStack2.step, hp, Exec.ok_bind, Exec.pure_eq]
      · obtain ⟨nx, hp2⟩ := stack2_tryPop_eq fuel hs
        rw [hp2] at hp
        simp only [Exec.ok.injEq, Prod.mk.injEq, true_and] at hp
        rw [← hp]
        show (s.heap.write c.1 _).read (some a) = _
        rw [Heap.read_write_ne _ (fun hEq => ha.1 hEq.symm)]
        exact hr

/-- Completed calls of other threads keep a node that is not linked into the stack out
of the stack and leave its cell unchanged. -/
theorem stack2_run_private (fuel : Nat) (calls : List (TryCall E)) :
    ∀ (s : ThreadSafeStack2 E) (cells : List (Nat × Option E)) (a : Nat) (n : Node E),
      StackList s.heap s.m_head cells → a ∉ cells.map Prod.fst →
      s.heap.read (some a) = .ok n →
      ∃ rs s' cells', ThreadSafeStack2.run (fuel + 1) calls s = .ok (rs, s')
        ∧ StackList s'.heap s'.m_head cells' ∧ a ∉ cells'.map Prod.fst
        ∧ s'.heap.read (some a) = .ok n := by
  induction calls with
  | nil =>
    intro s cells a n hs ha hr
    exact ⟨[], s, cells, rfl, hs, ha, hr⟩
  | cons c cs ih =>
    intro s cells a n hs ha hr
    obtain ⟨r, s1, cells1, hstep, hs1, ha1, hr1⟩ := stack2_step_private fuel c hs ha hr
    obtain ⟨rs, s', cells', hrun, hs', ha', hr'⟩ := ih s1 cells1 a n hs1 ha1 hr1
    refine ⟨r.toList ++ rs, s', cells', ?_, hs', ha', hr'⟩
    rw [stack2_run_cons, hstep]
    simp only [Exec.ok_bind, hrun]

/-- The loop of `push` / `emplace` among completed calls of other threads, for a new node
that is not linked into the stack: it ends with a successful compare-and-swap, performed
in a state `sh` whose head is the `next` of the new node. -/
theorem stack2_pushLoopAmong_ok (f : Nat) (others : List (List (TryCall E))) :
    ∀ (fuel : Nat) (s : ThreadSafeStack2 E) (cells : List (Nat × Option E)) (a : Nat)
      (d : Option E) (nxt : Ptr),
      others.length + 1 ≤ fuel →
      StackList s.heap s.m_head cells → a ∉ cells.map Prod.fst →
      s.heap.read (some a) = .ok ⟨d, nxt⟩ → (others = [] → nxt = s.m_head) →
      ∃ sh cs, ThreadSafeStack2.pushLoopAmong (f + 1) fuel others (some a) s
          = .ok (sh, ⟨sh.heap, some a⟩)
        ∧ StackList sh.heap sh.m_head cs ∧ a ∉ cs.map Prod.fst
        ∧ sh.heap.read (some a) = .ok ⟨d, sh.m_head⟩ := by
  induction others with
  | nil =>
    intro fuel s cells a d nxt hfuel hs ha hr hnxt
    obtain ⟨m, rfl⟩ : ∃ m, fuel = m + 1 := ⟨fuel - 1, by simp at hfuel; omega⟩
    have hn := hnxt rfl
    subst hn
    refine ⟨s, cells, ?_, hs, ha, hr⟩
    unfold ThreadSafeStack2.pushLoopAmong
    simp only [List.headD_nil, ThreadSafeStack2.run, Exec.pure_eq, Exec.ok_bind, hr,
      atomic_compare_exchange, if_true]
  | cons o rest ih =>
    intro fuel s cells a d nxt hfuel hs ha hr _
    obtain ⟨m, rfl⟩ : ∃ m, fuel = m + 1 := ⟨fuel - 1, by simp at hfuel; omega⟩
    have hm : rest.length + 1 ≤ m := by simp at hfuel; omega
    obtain ⟨rs, s0, cells0, hrun, hs0, ha0, hr0⟩ :=
      stack2_run_private f o s cells a ⟨d, nxt⟩ hs ha hr
    by_cases hEq : s0.m_head = nxt
    · subst hEq
      refine ⟨s0, cells0, ?_, hs0, ha0, hr0⟩
      unfold ThreadSafeStack2.pushLoopAmong
      simp only [List.headD_cons, hrun, Exec.pure_eq, Exec.ok_bind, hr0,
        atomic_compare_exchange, if_true]
    · have hw : (s0.heap.write a ⟨d, s0.m_head⟩).read (some a) = .ok ⟨d, s0.m_head⟩ :=
        Heap.read_write_same _ (Heap.read_ok_lt hr0)
      have hs1 : StackList (s0.heap.write a ⟨d, s0.m_head⟩) s0.m_head cells0 := by
        refine ⟨hs0.1.frame ?_, hs0.2⟩
        intro b hb
        apply Heap.read_write_ne
        intro hab
        subst hab
        exact ha0 hb
      obtain ⟨sh, cs, hloop, hsh, hash, hrsh⟩ :=
        ih m ⟨s0.heap.write a ⟨d, s0.m_head⟩, s0.m_head⟩ cells0 a d s0.m_head hm hs1 ha0 hw
          (fun _ => rfl)
      refine ⟨sh, cs, ?_, hsh, hash, hrsh⟩
      unfold ThreadSafeStack2.pushLoopAmong
      simp only [List.headD_cons, hrun, Exec.pure_eq, Exec.ok_bind, hr0,
        atomic_compare_exchange, if_neg hEq, List.tail_cons]
      rw [Heap.setNext_eq _ hr0]
      simp only [Exec.ok_bind]
      exact hloop

/-- Without calls of other threads the loop among others is the loop of the source. -/
theorem stack2_pushLoopAmong_nil (f : Nat) (new_node : Ptr) :
    ∀ (fuel : Nat) (s : ThreadSafeStack2 E),
      (ThreadSafeStack2.pushLoopAmong f fuel [] new_node s).map Prod.snd
        = ThreadSafeStack2.pushLoop fuel new_node s := by
  intro fuel
  induction fuel with
  | zero => intro s; rfl
  | succ m ih =>
    intro s
    unfold ThreadSafeStack2.pushLoopAmong ThreadSafeStack2.pushLoop
    simp only [List.headD_nil, ThreadSafeStack2.run, Exec.pure_eq, Exec.ok_bind,
      List.tail_nil]
    cases hr : s.heap.read new_node with
    | fault e => rfl
    | ok n =>
      simp only [Exec.ok_bind]
      by_cases hc : (atomic_compare_exchange s.m_head n.next new_node).1 = true
      · simp only [hc, if_true]
        rfl
      · simp only [hc, if_false]
        cases hw : s.heap.setNext new_node
            (atomic_compare_exchange s.m_head n.next new_node).2.2 with
        | fault e => rfl
        | ok h =>
          simp only [Exec.ok_bind]
          exact ih _

/-- C25: retry behaviour of the lock-free stack push. From every state reached by
completed calls, the body of `push` / `emplace` (for `push(element)` the node is
`Node.ofElement element`) run with arbitrary batches `others` of completed calls of
other threads between its initial load of `m_head` and its compare-and-swap attempts
returns; `sh` being the state in which its compare-and-swap succeeded, on return
`m_head` is the new node, nothing but `m_head` differs from `sh`, the `next` link of the
new node is the head `sh.m_head` that the compare-and-swap replaced, and the nodes
`cells` of the stack of `sh` are all reachable, in the same order, below the new node.
Without other calls the run is the body of the source run alone. -/
theorem stack2_push_among_others (f fuel : Nat) (calls : List (TryCall E)) (node : Node E)
    (others : List (List (TryCall E))) :
    ∃ rs s, ThreadSafeStack2.run (f + 1) calls ThreadSafeStack2.new = .ok (rs, s)
      ∧ (ThreadSafeStack2.insertAmong node (f + 1) (fuel + 1) [] s).map Prod.snd
          = ThreadSafeStack2.insert node (fuel + 1) s
      ∧ ∃ sh s' cells,
          ThreadSafeStack2.insertAmong node (f + 1) (others.length + 1 + fuel) others s
            = .ok (sh, s')
        ∧ s'.m_head = some s.heap.cells.length
        ∧ s'.heap = sh.heap
        ∧ s'.heap.read (some s.heap.cells.length) = .ok ⟨node.m_data, sh.m_head⟩
        ∧ StackList sh.heap sh.m_head cells
        ∧ StackList s'.heap s'.m_head ((s.heap.cells.length, node.m_data) :: cells)
        ∧ ThreadSafeStack2.contents sh = .ok (cells.map Prod.snd)
        ∧ ThreadSafeStack2.contents s' = .ok (node.m_data :: cells.map Prod.snd) := by
  obtain ⟨rs, s, cells0, hrun, hs⟩ :=
    stack2_run_total f calls ThreadSafeStack2.new [] stack2_new_stackList
  have hlt := hs.1.lt
  have r0 := Heap.read_alloc_new s.heap node
  have r1 : ((s.heap.alloc node).2.write s.heap.cells.length ⟨node.m_data, s.m_head⟩).read
      (some s.heap.cells.length) = .ok ⟨node.m_data, s.m_head⟩ :=
    Heap.read_write_same _ (by simp)
  have hfresh : s.heap.cells.length ∉ cells0.map Prod.fst :=
    fun hmem => Nat.lt_irrefl _ (hlt _ hmem)
  have hs1 : StackList
      ((s.heap.alloc node).2.write s.heap.cells.length ⟨node.m_data, s.m_head⟩)
      s.m_head cells0 := by
    refine ⟨hs.1.frame ?_, hs.2⟩
    intro b hb
    have hb_lt := hlt b hb
    rw [Heap.read_write_ne _ (by omega), Heap.read_alloc_old _ hb_lt]
  refine ⟨rs, s, hrun, ?_, ?_⟩
  · unfold ThreadSafeStack2.insertAmong ThreadSafeStack2.insert
    simp only [Heap.alloc_fst]
    rw [Heap.setNext_eq _ r0]
    simp only [Exec.ok_bind]
    exact stack2_pushLoopAmong_nil _ _ _ _
  · obtain ⟨sh, cs, hloop, hsh, hash, hrsh⟩ :=
      stack2_pushLoopAmong_ok f others (others.length + 1 + fuel)
        ⟨(s.heap.alloc node).2.write s.heap.cells.length ⟨node.m_data, s.m_head⟩, s.m_head⟩
        cells0 s.heap.cells.length node.m_data s.m_head (by omega) hs1 hfresh r1
        (fun _ => rfl)
    have hs' : StackList sh.heap (some s.heap.cells.length)
        ((s.heap.cells.length, node.m_data) :: cs) := by
      refine ⟨⟨rfl, sh.m_head, hrsh, hsh.1⟩, ?_⟩
      simp only [List.map_cons, List.nodup_cons]
      exact ⟨hash, hsh.2⟩
    refine ⟨sh, ⟨sh.heap, some s.heap.cells.length⟩, cs, ?_, rfl, rfl, hrsh, hsh, hs',
      stack2_contents_stackList hsh, ?_⟩
    · unfold ThreadSafeStack2.insertAmong
      simp only [Heap.alloc_fst]
      rw [Heap.setNext_eq _ r0]
      simp only [Exec.ok_bind]
      exact hloop
    · have := stack2_contents_stackList
        (s := (⟨sh.heap, some s.heap.cells.length⟩ : ThreadSafeStack2 E)) hs'
      simpa using this

end PushAmongProofs

section TryPopAmongProofs

variable {E : Type}

/-- A push of another thread that completes after the loop of `tryPop` has ended on a
null `next`, before the return statement is evaluated: no compare-and-swap is attempted,
the return statement reads `front_node->next` again, finds it non-null and returns the
payload of the head, and `m_label_front` is not advanced. -/
theorem queue3_tryPop_push_before_return (v : E) :
    ∃ q2 q3 : ThreadSafeQueue3 E,
      ThreadSafeQueue3.tryPopLoop 1 (ThreadSafeQueue3.new (E := E)).m_label_front
          (ThreadSafeQueue3.new (E := E)) = .ok (some 0, ThreadSafeQueue3.new (E := E))
      ∧ ThreadSafeQueue3.push v (ThreadSafeQueue3.new (E := E)) = .ok q2
      ∧ ThreadSafeQueue3.tryPopReturn (some 0) q2 = .ok (some v, q3)
      ∧ q3.m_label_front = some 0
      ∧ q3.heap.read (some 0) = .ok ⟨none, some 1⟩ :=
  ⟨_, _, rfl, rfl, rfl, rfl, rfl⟩

end TryPopAmongProofs

section ConcurrentQueue3Proofs

variable {E : Type}

/-- A schedule is run piece by piece. -/
theorem queue3Threads_run_append (xs ys : List Nat) :
    ∀ s : Queue3Threads E,
      Queue3Threads.run (xs ++ ys) s = (Queue3Threads.run xs s >>= Queue3Threads.run ys) := by
  induction xs with
  | nil => intro s; rfl
  | cons i xs ih =>
    intro s
    simp only [List.cons_append, Queue3Threads.run]
    cases Queue3Threads.step i s with
    | fault e => rfl
    | ok s1 => exact ih s1

/-- C17: one producer calls `push(v)` and two consumers call `tryPop` on a new
`ThreadSafeQueue3`. In the interleaving where the first consumer leaves its loop on the
null `next` of the head before the push, the push completes, the second consumer
detaches the head with its compare-and-swap, and both consumers then evaluate the
`return` statement, where they find `front_node->next` non-null and both read the
pointer in `front_node->m_data` before either sets it to null: all three calls return
without fault, both `tryPop` calls return `v`, and the queue stores nothing. The one
pushed value is returned twice. -/
theorem queue3_concurrent_double_return (v : E) :
    ∃ s, Queue3Threads.run [1, 1, 0, 0, 0, 2, 2, 2, 2, 2, 2, 1, 1, 2, 1]
          (Queue3Threads.init [PushPop.push v, PushPop.tryPop, PushPop.tryPop]) = .ok s
      ∧ s.threads = [Queue3Pc.returned none, Queue3Pc.returned (some (some v)),
          Queue3Pc.returned (some (some v))]
      ∧ s.delivered = [v, v]
      ∧ ThreadSafeQueue3.contents s.q = .ok [] := by
  have h1 : Queue3Threads.run [1, 1, 0, 0, 0]
      (Queue3Threads.init [PushPop.push v, PushPop.tryPop, PushPop.tryPop])
      = .ok ⟨⟨⟨[some ⟨some v, some 1⟩, some ⟨none, none⟩]⟩, some 1, some 0⟩,
          [Queue3Pc.returned none, Queue3Pc.popReturn (some 0), Queue3Pc.popEntry]⟩ := rfl
  have h2 : Queue3Threads.run [2, 2, 2, 2, 2]
      ⟨⟨⟨[some ⟨some v, some 1⟩, some ⟨none, none⟩]⟩, some 1, some 0⟩,
          [Queue3Pc.returned none, Queue3Pc.popReturn (some 0), Queue3Pc.popEntry]⟩
      = .ok ⟨⟨⟨[some ⟨some v, some 1⟩, some ⟨none, none⟩]⟩, some 1, some 1⟩,
          [Queue3Pc.returned none, Queue3Pc.popReturn (some 0),
            Queue3Pc.popMove (some 0)]⟩ := rfl
  have h3 : Queue3Threads.run [2, 1, 1, 2, 1]
      ⟨⟨⟨[some ⟨some v, some 1⟩, some ⟨none, none⟩]⟩, some 1, some 1⟩,
          [Queue3Pc.returned none, Queue3Pc.popReturn (some 0),
            Queue3Pc.popMove (some 0)]⟩
      = .ok ⟨⟨⟨[some ⟨none, some 1⟩, some ⟨none, none⟩]⟩, some 1, some 1⟩,
          [Queue3Pc.returned none, Queue3Pc.returned (some (some v)),
            Queue3Pc.returned (some (some v))]⟩ := rfl
  refine ⟨⟨⟨⟨[some ⟨none, some 1⟩, some ⟨none, none⟩]⟩, some 1, some 1⟩,
      [Queue3Pc.returned none, Queue3Pc.returned (some (some v)),
        Queue3Pc.returned (some (some v))]⟩, ?_, rfl, rfl, rfl⟩
  have hs : [1, 1, 0, 0, 0, 2, 2, 2, 2, 2, 2, 1, 1, 2, 1]
      = [1, 1, 0, 0, 0] ++ ([2, 2, 2, 2, 2] ++ [2, 1, 1, 2, 1]) := rfl
  rw [hs, queue3Threads_run_append, h1, Exec.ok_bind, queue3Threads_run_append, h2, Exec.ok_bind,
    h3]

end ConcurrentQueue3Proofs

section ConcurrentQueue2Proofs

variable {E : Type}

theorem queue2Threads_producer_set_same (s : Queue2Threads E) (p : Pusher)
    (pr : Queue2Producer E) : (s.setProducer p pr).producer p = pr := by
  cases p <;> rfl

theorem queue2Threads_producer_set_other (s : Queue2Threads E) {p q : Pusher}
    (pr : Queue2Producer E) (h : q ≠ p) : (s.setProducer p pr).producer q = s.producer q := by
  cases p <;> cases q <;> first | rfl | exact absurd rfl h

@[simp] theorem queue2Threads_set_q (s : Queue2Threads E) (p : Pusher)
    (pr : Queue2Producer E) : (s.setProducer p pr).q = s.q := by
  cases p <;> rfl

@[simp] theorem queue2Threads_set_consumer (s : Queue2Threads E) (p : Pusher)
    (pr : Queue2Producer E) : (s.setProducer p pr).consumer = s.consumer := by
  cases p <;> rfl

@[simp] theorem queue2Threads_set_mutex_front (s : Queue2Threads E) (p : Pusher)
    (pr : Queue2Producer E) : (s.setProducer p pr).m_mutex_front = s.m_mutex_front := by
  cases p <;> rfl

@[simp] theorem queue2Threads_set_mutex_back (s : Queue2Threads E) (p : Pusher)
    (pr : Queue2Producer E) : (s.setProducer p pr).m_mutex_back = s.m_mutex_back := by
  cases p <;> rfl

@[simp] theorem queue2Threads_set_logicalFront (s : Queue2Threads E) (p : Pusher)
    (pr : Queue2Producer E) : (s.setProducer p pr).logicalFront = s.logicalFront := by
  cases p <;> rfl

/-- What a producer knows survives a change of the heap that leaves its node and the
sentinel as they are. -/
theorem queue2PushPc_ok_frame {h h' : Heap E} {bk : Nat} {todo : List E}
    {pc : Queue2PushPc} (hok : pc.Ok h bk todo)
    (hbk : pc.atLink = true → h'.read (some bk) = h.read (some bk))
    (hpriv : ∀ n ∈ pc.priv, h'.read (some n) = h.read (some n)) : pc.Ok h' bk todo := by
  cases pc with
  | entry => trivial
  | lock n =>
    obtain ⟨v, rest, ht, hr⟩ := hok
    exact ⟨v, rest, ht, by rw [hpriv n (by simp [Queue2PushPc.priv])]; exact hr⟩
  | data n =>
    obtain ⟨v, rest, ht, hr⟩ := hok
    exact ⟨v, rest, ht, by rw [hpriv n (by simp [Queue2PushPc.priv])]; exact hr⟩
  | link n =>
    obtain ⟨v, rest, ht, hr, hb⟩ := hok
    exact ⟨v, rest, ht, by rw [hpriv n (by simp [Queue2PushPc.priv])]; exact hr,
      by rw [hbk rfl]; exact hb⟩
  | back n => exact hok
  | unlock => trivial
  | notify => trivial

/-- What the consumer knows survives a change of the heap that leaves its detached node
as it is. -/
theorem queue2PopPc_ok_frame {q q' : ThreadSafeQueue2 E} {cells : List (Nat × Option E)}
    {hd : List (Option E)} {pc : Queue2PopPc} (hok : pc.Ok q cells hd)
    (hfront : q'.m_node_front = q.m_node_front)
    (hhand : ∀ f ∈ pc.hand, q'.heap.read (some f) = q.heap.read (some f)) :
    pc.Ok q' cells hd := by
  cases pc with
  | entry => exact hok
  | test => exact hok
  | take => exact hok
  | advance F =>
    obtain ⟨h1, h2, h3⟩ := hok
    exact ⟨h1, h2, by rw [hfront]; exact h3⟩
  | ret F =>
    obtain ⟨f, d, hF, hr, hh⟩ := hok
    subst hF
    exact ⟨f, d, rfl, by rw [hhand f (by simp [Queue2PopPc.hand])]; exact hr, hh⟩

/-- The invariant holds in the initial state. -/
theorem queue2Threads_init_inv (tag : E → Pusher) (xs ys : List E) (calls : Nat)
    (hx : ∀ e ∈ xs, tag e = Pusher.A) (hy : ∀ e ∈ ys, tag e = Pusher.B) :
    Queue2Threads.Inv tag (fun p => match p with | .A => xs | .B => ys)
      (Queue2Threads.init xs ys calls) [] 0 [] where
  chain := rfl
  sentinel := ⟨none, rfl, fun _ => rfl⟩
  cellsNodup := by simp
  privFresh := by intro p n hn; cases p <;> simp [Queue2Threads.init, Queue2Threads.producer, Queue2PushPc.priv] at hn
  privDistinct := by
    intro p q _ n hn
    cases p <;> simp [Queue2Threads.init, Queue2Threads.producer, Queue2PushPc.priv] at hn
  handFresh := by intro f hf; simp [Queue2Threads.init, Queue2PopPc.hand] at hf
  back := fun _ => rfl
  producers := by intro p; cases p <;> trivial
  consumer := rfl
  mutex_back := by
    constructor
    · intro h; simp [Queue2Threads.init] at h
    · rintro ⟨p, hp⟩
      cases p <;> simp [Queue2Threads.init, Queue2Threads.producer, Queue2PushPc.holds] at hp
  exclusive := by
    intro p q _ hp
    cases p <;> simp [Queue2Threads.init, Queue2Threads.producer, Queue2PushPc.holds] at hp
  mutex_front := rfl
  order := by
    intro p
    cases p <;> simp [Queue2Threads.init, Queue2Threads.producer, Queue2Producer.pending,
      Queue2PushPc.linked]
  tags := by
    intro p e he
    cases p
    · exact hx e he
    · exact hy e he

@[simp] theorem queue2Threads_producer_mk (s : Queue2Threads E) (q : ThreadSafeQueue2 E)
    (mf mb : Bool) (c : Queue2Consumer E) (p : Pusher) :
    (⟨q, mf, mb, s.producerA, s.producerB, c⟩ : Queue2Threads E).producer p = s.producer p := by
  cases p <;> rfl

theorem Pusher.eq_or_ne_cases (p q : Pusher) : q = p ∨ q ≠ p := by
  cases p <;> cases q <;> simp

/-- A step of producer `p` that keeps the list `cells`, the sentinel `bk` and the
consumer: the invariant holds again when the new position of `p` fits the new heap. -/
theorem queue2Threads_producer_frame {tag : E → Pusher} {all : Pusher → List E}
    {s s' : Queue2Threads E} {cells : List (Nat × Option E)} {bk : Nat}
    {hd : List (Option E)} (hinv : s.Inv tag all cells bk hd) (p : Pusher)
    (pr' : Queue2Producer E)
    (hp : s'.producer p = pr')
    (hother : ∀ q, q ≠ p → s'.producer q = s.producer q)
    (hcons : s'.consumer = s.consumer)
    (hmf : s'.m_mutex_front = s.m_mutex_front)
    (hfront : s'.q.m_node_front = s.q.m_node_front)
    (hcells : ∀ a ∈ cells.map Prod.fst,
      s'.q.heap.read (some a) = s.q.heap.read (some a))
    (hhand : ∀ f ∈ s.consumer.pc.hand, s'.q.heap.read (some f) = s.q.heap.read (some f))
    (hprivs : ∀ q, q ≠ p → ∀ n ∈ (s.producer q).pc.priv,
      s'.q.heap.read (some n) = s.q.heap.read (some n))
    (hbk : ∀ q, q ≠ p → (s.producer q).pc.atLink = true →
      s'.q.heap.read (some bk) = s.q.heap.read (some bk))
    (hsent : ∃ d, s'.q.heap.read (some bk) = .ok ⟨d, none⟩
      ∧ (pr'.pc.atLink = false → (∀ q, q ≠ p → (s.producer q).pc.atLink = false) → d = none))
    (hpriv : ∀ n ∈ pr'.pc.priv, n ∉ cells.map Prod.fst ++ [bk]
      ∧ (∀ q, q ≠ p → n ∉ (s.producer q).pc.priv) ∧ n ∉ s.consumer.pc.hand)
    (hback : pr'.pc.atBack = false → (∀ q, q ≠ p → (s.producer q).pc.atBack = false) →
      s'.q.m_node_back = some bk)
    (hok : pr'.pc.Ok s'.q.heap bk pr'.todo)
    (hmb : s'.m_mutex_back = true
      ↔ (pr'.pc.holds = true ∨ ∃ q, q ≠ p ∧ (s.producer q).pc.holds = true))
    (hexcl : pr'.pc.holds = true → ∀ q, q ≠ p → (s.producer q).pc.holds = false)
    (hpend : pr'.pending = (s.producer p).pending)
    (htags : ∀ e ∈ pr'.todo, tag e = p) :
    s'.Inv tag all cells bk hd := by
  have hlf : s'.logicalFront = s.logicalFront := by
    unfold Queue2Threads.logicalFront
    rw [hcons, hfront]
  constructor
  · rw [hlf]
    exact hinv.chain.frame hcells
  · obtain ⟨d, hr, hd0⟩ := hsent
    refine ⟨d, hr, fun hall => hd0 ?_ fun q hq => ?_⟩
    · have := hall p
      rwa [hp] at this
    · have := hall q
      rwa [hother q hq] at this
  · exact hinv.cellsNodup
  · intro q m hm
    rcases Pusher.eq_or_ne_cases p q with rfl | hq
    · rw [hp] at hm
      exact (hpriv m hm).1
    · rw [hother q hq] at hm
      exact hinv.privFresh q m hm
  · intro q r hqr m hm
    rcases Pusher.eq_or_ne_cases p q with rfl | hq
    · rw [hp] at hm
      rw [hother r (fun h => hqr h.symm)]
      exact (hpriv m hm).2.1 r (fun h => hqr h.symm)
    · rw [hother q hq] at hm
      rcases Pusher.eq_or_ne_cases p r with rfl | hr
      · rw [hp]
        intro hm'
        exact (hpriv m hm').2.1 q hq hm
      · rw [hother r hr]
        exact hinv.privDistinct q r hqr m hm
  · intro f hf
    rw [hcons] at hf
    refine ⟨(hinv.handFresh f hf).1, fun q => ?_⟩
    rcases Pusher.eq_or_ne_cases p q with rfl | hq
    · rw [hp]
      intro hm
      exact (hpriv f hm).2.2 hf
    · rw [hother q hq]
      exact (hinv.handFresh f hf).2 q
  · intro hall
    refine hback ?_ fun q hq => ?_
    · have := hall p
      rwa [hp] at this
    · have := hall q
      rwa [hother q hq] at this
  · intro q
    rcases Pusher.eq_or_ne_cases p q with rfl | hq
    · rw [hp]
      exact hok
    · rw [hother q hq]
      exact queue2PushPc_ok_frame (hinv.producers q) (hbk q hq) (hprivs q hq)
  · rw [hcons]
    exact queue2PopPc_ok_frame hinv.consumer hfront hhand
  · rw [hmb]
    constructor
    · rintro (h | ⟨q, hq, h⟩)
      · exact ⟨p, by rw [hp]; exact h⟩
      · exact ⟨q, by rw [hother q hq]; exact h⟩
    · rintro ⟨q, h⟩
      rcases Pusher.eq_or_ne_cases p q with rfl | hq
      · left
        rwa [hp] at h
      · right
        exact ⟨q, hq, by rwa [hother q hq] at h⟩
  · intro q r hqr hq
    rcases Pusher.eq_or_ne_cases p q with rfl | hq'
    · rw [hp] at hq
      rw [hother r (fun h => hqr h.symm)]
      exact hexcl hq r (fun h => hqr h.symm)
    · rw [hother q hq'] at hq
      rcases Pusher.eq_or_ne_cases p r with rfl | hr
      · rw [hp]
        cases hh : pr'.pc.holds with
        | false => rfl
        | true =>
          have := hexcl hh q hq'
          rw [hq] at this
          cases this
      · rw [hother r hr]
        exact hinv.exclusive q r hqr hq
  · rw [hmf, hcons]
    exact hinv.mutex_front
  · intro q
    rw [hcons]
    rcases Pusher.eq_or_ne_cases p q with rfl | hq
    · rw [hp, hpend]
      exact hinv.order q
    · rw [hother q hq]
      exact hinv.order q
  · intro q e he
    rcases Pusher.eq_or_ne_cases p q with rfl | hq
    · rw [hp] at he
      exact htags e he
    · rw [hother q hq] at he
      exact hinv.tags q e he

theorem Queue2PushPc.holds_of_atLink {pc : Queue2PushPc} (h : pc.atLink = true) :
    pc.holds = true := by
  cases pc <;> first | rfl | cases h

theorem Queue2PushPc.holds_of_atBack {pc : Queue2PushPc} (h : pc.atBack = true) :
    pc.holds = true := by
  cases pc <;> first | rfl | cases h

theorem Queue2PushPc.atLink_of_not_holds {pc : Queue2PushPc} (h : pc.holds = false) :
    pc.atLink = false := by
  cases pc <;> first | rfl | cases h

theorem Queue2PushPc.atBack_of_not_holds {pc : Queue2PushPc} (h : pc.holds = false) :
    pc.atBack = false := by
  cases pc <;> first | rfl | cases h

/-- The nodes that the invariant speaks of are live. -/
theorem queue2Threads_inv_live {tag : E → Pusher} {all : Pusher → List E}
    {s : Queue2Threads E} {cells : List (Nat × Option E)} {bk : Nat}
    {hd : List (Option E)} (hinv : s.Inv tag all cells bk hd) :
    (∀ a ∈ cells.map Prod.fst, a < s.q.heap.cells.length)
    ∧ bk < s.q.heap.cells.length
    ∧ (∀ f ∈ s.consumer.pc.hand, f < s.q.heap.cells.length)
    ∧ (∀ q, ∀ n ∈ (s.producer q).pc.priv, n < s.q.heap.cells.length) := by
  refine ⟨hinv.chain.lt, ?_, ?_, ?_⟩
  · obtain ⟨d, hr, _⟩ := hinv.sentinel
    exact Heap.read_ok_lt hr
  · intro f hf
    have hc := hinv.consumer
    cases hpc : s.consumer.pc with
    | entry => rw [hpc] at hf; cases hf
    | test => rw [hpc] at hf; cases hf
    | take => rw [hpc] at hf; cases hf
    | advance F => rw [hpc] at hf; cases hf
    | ret F =>
      rw [hpc] at hf hc
      obtain ⟨f', d, hF, hr, _⟩ := hc
      subst hF
      simp only [Queue2PopPc.hand, List.mem_singleton] at hf
      subst hf
      exact Heap.read_ok_lt hr
  · intro q n hn
    have hq := hinv.producers q
    cases hpc : (s.producer q).pc with
    | entry => rw [hpc] at hn; cases hn
    | lock m =>
      rw [hpc] at hn hq
      obtain ⟨v, rest, _, hr⟩ := hq
      simp only [Queue2PushPc.priv, List.mem_singleton] at hn
      subst hn
      exact Heap.read_ok_lt hr
    | data m =>
      rw [hpc] at hn hq
      obtain ⟨v, rest, _, hr⟩ := hq
      simp only [Queue2PushPc.priv, List.mem_singleton] at hn
      subst hn
      exact Heap.read_ok_lt hr
    | link m =>
      rw [hpc] at hn hq
      obtain ⟨v, rest, _, hr, _⟩ := hq
      simp only [Queue2PushPc.priv, List.mem_singleton] at hn
      subst hn
      exact Heap.read_ok_lt hr
    | back m => rw [hpc] at hn; cases hn
    | unlock => rw [hpc] at hn; cases hn
    | notify => rw [hpc] at hn; cases hn

/-- The first statement of `push`: the new node is allocated. -/
theorem queue2Threads_entry_inv {tag : E → Pusher} {all : Pusher → List E}
    {s : Queue2Threads E} {cells : List (Nat × Option E)} {bk : Nat}
    {hd : List (Option E)} (hinv : s.Inv tag all cells bk hd) (p : Pusher)
    (hpc : (s.producer p).pc = .entry) :
    ∃ s', Queue2Threads.stepProducer p s = .ok s' ∧ s'.Inv tag all cells bk hd := by
  cases htodo : (s.producer p).todo with
  | nil =>
    refine ⟨s, ?_, hinv⟩
    simp only [Queue2Threads.stepProducer, hpc, htodo, Exec.pure_eq]
  | cons v rest =>
    obtain ⟨hlc, hlb, hlh, hlp⟩ := queue2Threads_inv_live hinv
    refine ⟨_, by simp only [Queue2Threads.stepProducer, hpc, htodo, Exec.pure_eq]; rfl, ?_⟩
    refine queue2Threads_producer_frame hinv p ⟨.lock s.q.heap.cells.length, v :: rest⟩
      (queue2Threads_producer_set_same _ _ _)
      (fun q hq => by rw [queue2Threads_producer_set_other _ _ hq, queue2Threads_producer_mk])
      (by simp) (by simp) (by simp) ?_ ?_ ?_ ?_ ?_ ?_ ?_ ?_ ?_ ?_ ?_ ?_
    · intro a ha
      simp only [queue2Threads_set_q]
      exact Heap.read_alloc_old _ (hlc a ha)
    · intro f hf
      simp only [queue2Threads_set_q]
      exact Heap.read_alloc_old _ (hlh f hf)
    · intro q _ n hn
      simp only [queue2Threads_set_q]
      exact Heap.read_alloc_old _ (hlp q n hn)
    · intro q _ _
      simp only [queue2Threads_set_q]
      exact Heap.read_alloc_old _ hlb
    · obtain ⟨d, hr, hd0⟩ := hinv.sentinel
      refine ⟨d, ?_, fun _ hall => hd0 fun q => ?_⟩
      · simp only [queue2Threads_set_q]
        rw [Heap.read_alloc_old _ hlb]
        exact hr
      · rcases Pusher.eq_or_ne_cases p q with rfl | hq
        · rw [hpc]; rfl
        · exact hall q hq
    · intro n hn
      simp only [Queue2PushPc.priv, List.mem_singleton] at hn
      subst hn
      refine ⟨?_, ?_, ?_⟩
      · intro hm
        simp only [List.mem_append, List.mem_singleton] at hm
        rcases hm with hm | hm
        · exact Nat.lt_irrefl _ (hlc _ hm)
        · rw [hm] at hlb
          exact Nat.lt_irrefl _ hlb
      · intro q _ hm
        exact Nat.lt_irrefl _ (hlp q _ hm)
      · intro hm
        exact Nat.lt_irrefl _ (hlh _ hm)
    · intro _ hall
      simp only [queue2Threads_set_q]
      exact hinv.back fun q => by
        rcases Pusher.eq_or_ne_cases p q with rfl | hq
        · rw [hpc]; rfl
        · exact hall q hq
    · refine ⟨v, rest, rfl, ?_⟩
      simp only [queue2Threads_set_q]
      exact Heap.read_alloc_new _ _
    · simp only [queue2Threads_set_mutex_back]
      rw [hinv.mutex_back]
      constructor
      · rintro ⟨q, h⟩
        rcases Pusher.eq_or_ne_cases p q with rfl | hq
        · rw [hpc] at h; cases h
        · exact Or.inr ⟨q, hq, h⟩
      · rintro (h | ⟨q, _, h⟩)
        · cases h
        · exact ⟨q, h⟩
    · intro h
      cases h
    · simp only [Queue2Producer.pending, hpc, htodo, Queue2PushPc.linked]
    · intro e he
      exact hinv.tags p e (by rw [htodo]; exact he)

/-- The producers other than the holder of `m_mutex_back` do not hold it. -/
theorem queue2Threads_inv_others {tag : E → Pusher} {all : Pusher → List E}
    {s : Queue2Threads E} {cells : List (Nat × Option E)} {bk : Nat}
    {hd : List (Option E)} (hinv : s.Inv tag all cells bk hd) {p : Pusher}
    (hp : (s.producer p).pc.holds = true) :
    ∀ q, q ≠ p → (s.producer q).pc.holds = false :=
  fun q hq => hinv.exclusive p q (fun h => hq h.symm) hp

/-- The lock of `m_mutex_back`: taken when free, otherwise the producer waits. -/
theorem queue2Threads_lock_inv {tag : E → Pusher} {all : Pusher → List E}
    {s : Queue2Threads E} {cells : List (Nat × Option E)} {bk : Nat}
    {hd : List (Option E)} (hinv : s.Inv tag all cells bk hd) (p : Pusher) (n : Nat)
    (hpc : (s.producer p).pc = .lock n) :
    ∃ s', Queue2Threads.stepProducer p s = .ok s' ∧ s'.Inv tag all cells bk hd := by
  cases hfree : s.m_mutex_back with
  | true =>
    refine ⟨s, ?_, hinv⟩
    simp only [Queue2Threads.stepProducer, hpc, hfree, if_true, Exec.pure_eq]
  | false =>
    have hnone : ∀ q, (s.producer q).pc.holds = false := by
      intro q
      cases hq : (s.producer q).pc.holds with
      | false => rfl
      | true =>
        have := hinv.mutex_back.mpr ⟨q, hq⟩
        rw [hfree] at this
        cases this
    refine ⟨_, by simp only [Queue2Threads.stepProducer, hpc, hfree, Exec.pure_eq]; rfl, ?_⟩
    refine queue2Threads_producer_frame hinv p ⟨.data n, (s.producer p).todo⟩
      (queue2Threads_producer_set_same _ _ _)
      (fun q hq => by rw [queue2Threads_producer_set_other _ _ hq, queue2Threads_producer_mk])
      (by simp) (by simp) (by simp) (fun _ _ => by simp) (fun _ _ => by simp)
      (fun _ _ _ _ => by simp) (fun _ _ _ => by simp) ?_ ?_ ?_ ?_ ?_ ?_ ?_ ?_
    · obtain ⟨d, hr, hd0⟩ := hinv.sentinel
      refine ⟨d, by simpa using hr, fun _ hall => hd0 fun q => ?_⟩
      rcases Pusher.eq_or_ne_cases p q with rfl | hq
      · rw [hpc]; rfl
      · exact hall q hq
    · intro m hm
      have hm' : m ∈ (s.producer p).pc.priv := by rw [hpc]; exact hm
      exact ⟨hinv.privFresh p m hm',
        fun q hq => hinv.privDistinct p q (fun h => hq h.symm) m hm',
        fun hf => (hinv.handFresh m hf).2 p hm'⟩
    · intro _ hall
      simp only [queue2Threads_set_q]
      exact hinv.back fun q => by
        rcases Pusher.eq_or_ne_cases p q with rfl | hq
        · rw [hpc]; rfl
        · exact hall q hq
    · have := hinv.producers p
      rw [hpc] at this
      simpa using this
    · simp only [queue2Threads_set_mutex_back]
      exact ⟨fun _ => Or.inl rfl, fun _ => trivial⟩
    · intro _ q _
      exact hnone q
    · simp only [Queue2Producer.pending, hpc, Queue2PushPc.linked]
    · exact hinv.tags p

/-- The payload write of `push`. -/
theorem queue2Threads_data_inv {tag : E → Pusher} {all : Pusher → List E}
    {s : Queue2Threads E} {cells : List (Nat × Option E)} {bk : Nat}
    {hd : List (Option E)} (hinv : s.Inv tag all cells bk hd) (p : Pusher) (n : Nat)
    (hpc : (s.producer p).pc = .data n) :
    ∃ s', Queue2Threads.stepProducer p s = .ok s' ∧ s'.Inv tag all cells bk hd := by
  have hholds : (s.producer p).pc.holds = true := by rw [hpc]; rfl
  have hoth := queue2Threads_inv_others hinv hholds
  have hback : s.q.m_node_back = some bk := hinv.back fun q => by
    rcases Pusher.eq_or_ne_cases p q with rfl | hq
    · rw [hpc]; rfl
    · exact Queue2PushPc.atBack_of_not_holds (hoth q hq)
  have hokp := hinv.producers p
  rw [hpc] at hokp
  obtain ⟨v, rest, htodo, hrn⟩ := hokp
  obtain ⟨d, hrb, _⟩ := hinv.sentinel
  have hn_mem : n ∈ (s.producer p).pc.priv := by rw [hpc]; simp [Queue2PushPc.priv]
  have hn_fresh := hinv.privFresh p n hn_mem
  have hn_bk : bk ≠ n := by
    intro h
    exact hn_fresh (by rw [h]; simp)
  have hr1 : (s.q.heap.write bk ⟨some v, none⟩).read (some n) = .ok ⟨some v, none⟩ := by
    rw [Heap.read_write_ne _ hn_bk]
    exact hrn
  have hframe : ∀ a, a ≠ bk → a ≠ n →
      ((s.q.heap.write bk ⟨some v, none⟩).write n ⟨none, none⟩).read (some a)
        = s.q.heap.read (some a) := by
    intro a h1 h2
    rw [Heap.read_write_ne _ (fun h => h2 h.symm), Heap.read_write_ne _ (fun h => h1 h.symm)]
  have hlb : bk < s.q.heap.cells.length := Heap.read_ok_lt hrb
  have hln : n < s.q.heap.cells.length := Heap.read_ok_lt hrn
  refine ⟨(({ s with q := { s.q with heap :=
      (s.q.heap.write bk ⟨some v, none⟩).write n ⟨none, none⟩ } } :
      Queue2Threads E).setProducer p ⟨.link n, (s.producer p).todo⟩), ?_, ?_⟩
  · simp only [Queue2Threads.stepProducer, hpc, hrn, Exec.ok_bind, hback]
    rw [Heap.setData_eq _ hrb]
    simp only [Exec.ok_bind]
    rw [Heap.setData_eq _ hr1]
    simp only [Exec.ok_bind, Exec.pure_eq]
  · refine queue2Threads_producer_frame hinv p ⟨.link n, (s.producer p).todo⟩
      (queue2Threads_producer_set_same _ _ _)
      (fun q hq => by rw [queue2Threads_producer_set_other _ _ hq, queue2Threads_producer_mk])
      (by simp) (by simp) (by simp) ?_ ?_ ?_ ?_ ?_ ?_ ?_ ?_ ?_ ?_ ?_ ?_
    · intro a ha
      simp only [queue2Threads_set_q]
      refine hframe a ?_ ?_
      · intro h
        subst h
        have := List.nodup_append.mp hinv.cellsNodup
        exact this.2.2 ha (by simp)
      · intro h
        subst h
        exact hn_fresh (List.mem_append_left _ ha)
    · intro f hf
      simp only [queue2Threads_set_q]
      refine hframe f ?_ ?_
      · intro h
        subst h
        exact (hinv.handFresh f hf).1 (by simp)
      · intro h
        subst h
        exact (hinv.handFresh f hf).2 p hn_mem
    · intro q hq m hm
      simp only [queue2Threads_set_q]
      refine hframe m ?_ ?_
      · intro h
        subst h
        exact hinv.privFresh q m hm (by simp)
      · intro h
        subst h
        exact hinv.privDistinct q p hq m hm hn_mem
    · intro q hq hl
      have := hoth q hq
      rw [Queue2PushPc.holds_of_atLink hl] at this
      cases this
    · refine ⟨some v, ?_, fun h => by cases h⟩
      simp only [queue2Threads_set_q]
      rw [Heap.read_write_ne _ (fun h => hn_bk h.symm)]
      exact Heap.read_write_same _ hlb
    · intro m hm
      have hm' : m ∈ (s.producer p).pc.priv := by rw [hpc]; exact hm
      exact ⟨hinv.privFresh p m hm',
        fun q hq => hinv.privDistinct p q (fun h => hq h.symm) m hm',
        fun hf => (hinv.handFresh m hf).2 p hm'⟩
    · intro _ _
      simp only [queue2Threads_set_q]
      exact hback
    · refine ⟨v, rest, htodo, ?_, ?_⟩
      · simp only [queue2Threads_set_q]
        exact Heap.read_write_same _ (by simpa [Heap.write] using hln)
      · simp only [queue2Threads_set_q]
        rw [Heap.read_write_ne _ (fun h => hn_bk h.symm)]
        exact Heap.read_write_same _ hlb
    · simp only [queue2Threads_set_mutex_back]
      exact ⟨fun _ => Or.inl rfl, fun _ => hinv.mutex_back.mpr ⟨p, hholds⟩⟩
    · intro _ q hq
      exact hoth q hq
    · simp only [Queue2Producer.pending, hpc, Queue2PushPc.linked]
    · exact hinv.tags p

/-- The assignment of `m_node_back`. -/
theorem queue2Threads_back_inv {tag : E → Pusher} {all : Pusher → List E}
    {s : Queue2Threads E} {cells : List (Nat × Option E)} {bk : Nat}
    {hd : List (Option E)} (hinv : s.Inv tag all cells bk hd) (p : Pusher) (n : Nat)
    (hpc : (s.producer p).pc = .back n) :
    ∃ s', Queue2Threads.stepProducer p s = .ok s' ∧ s'.Inv tag all cells bk hd := by
  have hholds : (s.producer p).pc.holds = true := by rw [hpc]; rfl
  have hoth := queue2Threads_inv_others hinv hholds
  have hokp := hinv.producers p
  rw [hpc] at hokp
  have hbk : bk = n := hokp
  refine ⟨_, by simp only [Queue2Threads.stepProducer, hpc, Exec.pure_eq]; rfl, ?_⟩
  refine queue2Threads_producer_frame hinv p ⟨.unlock, (s.producer p).todo⟩
    (queue2Threads_producer_set_same _ _ _)
    (fun q hq => by rw [queue2Threads_producer_set_other _ _ hq, queue2Threads_producer_mk])
    (by simp) (by simp) (by simp) (fun _ _ => by simp) (fun _ _ => by simp)
    (fun _ _ _ _ => by simp) (fun _ _ _ => by simp) ?_ ?_ ?_ ?_ ?_ ?_ ?_ ?_
  · obtain ⟨d, hr, hd0⟩ := hinv.sentinel
    refine ⟨d, by simpa using hr, fun _ hall => hd0 fun q => ?_⟩
    rcases Pusher.eq_or_ne_cases p q with rfl | hq
    · rw [hpc]; rfl
    · exact hall q hq
  · intro m hm
    cases hm
  · intro _ _
    simp only [queue2Threads_set_q]
    rw [hbk]
  · trivial
  · simp only [queue2Threads_set_mutex_back]
    exact ⟨fun _ => Or.inl rfl, fun _ => hinv.mutex_back.mpr ⟨p, hholds⟩⟩
  · intro _ q hq
    exact hoth q hq
  · simp only [Queue2Producer.pending, hpc, Queue2PushPc.linked]
  · exact hinv.tags p

/-- The release of `m_mutex_back`. -/
theorem queue2Threads_unlock_inv {tag : E → Pusher} {all : Pusher → List E}
    {s : Queue2Threads E} {cells : List (Nat × Option E)} {bk : Nat}
    {hd : List (Option E)} (hinv : s.Inv tag all cells bk hd) (p : Pusher)
    (hpc : (s.producer p).pc = .unlock) :
    ∃ s', Queue2Threads.stepProducer p s = .ok s' ∧ s'.Inv tag all cells bk hd := by
  have hholds : (s.producer p).pc.holds = true := by rw [hpc]; rfl
  have hoth := queue2Threads_inv_others hinv hholds
  refine ⟨_, by simp only [Queue2Threads.stepProducer, hpc, Exec.pure_eq]; rfl, ?_⟩
  refine queue2Threads_producer_frame hinv p ⟨.notify, (s.producer p).todo⟩
    (queue2Threads_producer_set_same _ _ _)
    (fun q hq => by rw [queue2Threads_producer_set_other _ _ hq, queue2Threads_producer_mk])
    (by simp) (by simp) (by simp) (fun _ _ => by simp) (fun _ _ => by simp)
    (fun _ _ _ _ => by simp) (fun _ _ _ => by simp) ?_ ?_ ?_ ?_ ?_ ?_ ?_ ?_
  · obtain ⟨d, hr, hd0⟩ := hinv.sentinel
    refine ⟨d, by simpa using hr, fun _ hall => hd0 fun q => ?_⟩
    rcases Pusher.eq_or_ne_cases p q with rfl | hq
    · rw [hpc]; rfl
    · exact hall q hq
  · intro m hm
    cases hm
  · intro _ hall
    simp only [queue2Threads_set_q]
    exact hinv.back fun q => by
      rcases Pusher.eq_or_ne_cases p q with rfl | hq
      · rw [hpc]; rfl
      · exact hall q hq
  · trivial
  · simp only [queue2Threads_set_mutex_back]
    constructor
    · intro h
      cases h
    · rintro (h | ⟨q, hq, h⟩)
      · cases h
      · rw [hoth q hq] at h
        cases h
  · intro h
    cases h
  · simp only [Queue2Producer.pending, hpc, Queue2PushPc.linked]
  · exact hinv.tags p

/-- The notification, after which `push` returns. -/
theorem queue2Threads_notify_inv {tag : E → Pusher} {all : Pusher → List E}
    {s : Queue2Threads E} {cells : List (Nat × Option E)} {bk : Nat}
    {hd : List (Option E)} (hinv : s.Inv tag all cells bk hd) (p : Pusher)
    (hpc : (s.producer p).pc = .notify) :
    ∃ s', Queue2Threads.stepProducer p s = .ok s' ∧ s'.Inv tag all cells bk hd := by
  refine ⟨_, by simp only [Queue2Threads.stepProducer, hpc, Exec.pure_eq]; rfl, ?_⟩
  refine queue2Threads_producer_frame hinv p ⟨.entry, (s.producer p).todo.tail⟩
    (queue2Threads_producer_set_same _ _ _)
    (fun q hq => queue2Threads_producer_set_other _ _ hq)
    (by simp) (by simp) (by simp) (fun _ _ => by simp) (fun _ _ => by simp)
    (fun _ _ _ _ => by simp) (fun _ _ _ => by simp) ?_ ?_ ?_ ?_ ?_ ?_ ?_ ?_
  · obtain ⟨d, hr, hd0⟩ := hinv.sentinel
    refine ⟨d, by simpa using hr, fun _ hall => hd0 fun q => ?_⟩
    rcases Pusher.eq_or_ne_cases p q with rfl | hq
    · rw [hpc]; rfl
    · exact hall q hq
  · intro m hm
    cases hm
  · intro _ hall
    simp only [queue2Threads_set_q]
    exact hinv.back fun q => by
      rcases Pusher.eq_or_ne_cases p q with rfl | hq
      · rw [hpc]; rfl
      · exact hall q hq
  · trivial
  · simp only [queue2Threads_set_mutex_back]
    rw [hinv.mutex_back]
    constructor
    · rintro ⟨q, h⟩
      rcases Pusher.eq_or_ne_cases p q with rfl | hq
      · rw [hpc] at h; cases h
      · exact Or.inr ⟨q, hq, h⟩
    · rintro (h | ⟨q, _, h⟩)
      · cases h
      · exact ⟨q, h⟩
  · intro h
    cases h
  · simp only [Queue2Producer.pending, hpc, Queue2PushPc.linked]
    rfl
  · intro e he
    exact hinv.tags p e (List.mem_of_mem_tail he)

/-- What a producer that does not hold `m_mutex_back` knows does not depend on the
sentinel. -/
theorem queue2PushPc_ok_not_holds {h h' : Heap E} {bk bk' : Nat} {todo : List E}
    {pc : Queue2PushPc} (hnh : pc.holds = false) (hok : pc.Ok h bk todo)
    (hpriv : ∀ n ∈ pc.priv, h'.read (some n) = h.read (some n)) : pc.Ok h' bk' todo := by
  cases pc with
  | entry => trivial
  | lock n =>
    obtain ⟨v, rest, ht, hr⟩ := hok
    exact ⟨v, rest, ht, by rw [hpriv n (by simp [Queue2PushPc.priv])]; exact hr⟩
  | data n => cases hnh
  | link n => cases hnh
  | back n => cases hnh
  | unlock => cases hnh
  | notify => trivial

/-- What the consumer knows survives the linking of a node behind the list. -/
theorem queue2PopPc_ok_snoc {q q' : ThreadSafeQueue2 E} {cells : List (Nat × Option E)}
    {hd : List (Option E)} {pc : Queue2PopPc} (x : Nat × Option E)
    (hok : pc.Ok q cells hd) (hfront : q'.m_node_front = q.m_node_front)
    (hhand : ∀ f ∈ pc.hand, q'.heap.read (some f) = q.heap.read (some f)) :
    pc.Ok q' (cells ++ [x]) hd := by
  cases pc with
  | entry => exact hok
  | test => exact hok
  | take => exact ⟨hok.1, by simp⟩
  | advance F =>
    obtain ⟨h1, _, h3⟩ := hok
    exact ⟨h1, by simp, by rw [hfront]; exact h3⟩
  | ret F =>
    obtain ⟨f, d, hF, hr, hh⟩ := hok
    subst hF
    exact ⟨f, d, rfl, by rw [hhand f (by simp [Queue2PopPc.hand])]; exact hr, hh⟩

/-- The link write of `push`: the node that was the sentinel enters the list with the
element of the call, and the new node is the sentinel. -/
theorem queue2Threads_link_inv {tag : E → Pusher} {all : Pusher → List E}
    {s : Queue2Threads E} {cells : List (Nat × Option E)} {bk : Nat}
    {hd : List (Option E)} (hinv : s.Inv tag all cells bk hd) (p : Pusher) (n : Nat)
    (hpc : (s.producer p).pc = .link n) :
    ∃ s' v, Queue2Threads.stepProducer p s = .ok s'
      ∧ s'.Inv tag all (cells ++ [(bk, some v)]) n hd := by
  have hholds : (s.producer p).pc.holds = true := by rw [hpc]; rfl
  have hoth := queue2Threads_inv_others hinv hholds
  have hback : s.q.m_node_back = some bk := hinv.back fun q => by
    rcases Pusher.eq_or_ne_cases p q with rfl | hq
    · rw [hpc]; rfl
    · exact Queue2PushPc.atBack_of_not_holds (hoth q hq)
  have hokp := hinv.producers p
  rw [hpc] at hokp
  obtain ⟨v, rest, htodo, hrn, hrb⟩ := hokp
  have hn_mem : n ∈ (s.producer p).pc.priv := by rw [hpc]; simp [Queue2PushPc.priv]
  have hn_fresh := hinv.privFresh p n hn_mem
  have hn_bk : bk ≠ n := by
    intro h
    exact hn_fresh (by rw [h]; simp)
  have hlb : bk < s.q.heap.cells.length := Heap.read_ok_lt hrb
  have hframe : ∀ a, a ≠ bk →
      (s.q.heap.write bk ⟨some v, some n⟩).read (some a) = s.q.heap.read (some a) :=
    fun a h => Heap.read_write_ne _ (fun h' => h h'.symm)
  have hset : ∀ q, q ≠ p →
      ((({ s with q := { s.q with heap := s.q.heap.write bk ⟨some v, some n⟩ } } :
        Queue2Threads E).setProducer p ⟨.back n, (s.producer p).todo⟩).producer q)
        = s.producer q :=
    fun q hq => by rw [queue2Threads_producer_set_other _ _ hq, queue2Threads_producer_mk]
  have hmap : (cells ++ [(bk, some v)]).map Prod.fst ++ [n]
      = (cells.map Prod.fst ++ [bk]) ++ [n] := by simp
  have hnew : ∀ m, m ∉ cells.map Prod.fst ++ [bk] → m ≠ n →
      m ∉ (cells ++ [(bk, some v)]).map Prod.fst ++ [n] := by
    intro m h1 h2
    rw [hmap]
    intro hm
    rcases List.mem_append.mp hm with hm | hm
    · exact h1 hm
    · exact h2 (List.mem_singleton.mp hm)
  refine ⟨(({ s with q := { s.q with heap := s.q.heap.write bk ⟨some v, some n⟩ } } :
      Queue2Threads E).setProducer p ⟨.back n, (s.producer p).todo⟩), v, ?_, ?_⟩
  · simp only [Queue2Threads.stepProducer, hpc, hback, hrb, Exec.ok_bind]
    rw [Heap.setNext_eq _ hrb]
    simp only [Exec.ok_bind, Heap.release_none, Exec.pure_eq]
  constructor
  · simp only [queue2Threads_set_q, queue2Threads_set_logicalFront]
    show IsChain (s.q.heap.write bk ⟨some v, some n⟩) s.logicalFront _ _
    refine IsChain.snoc (hinv.chain.frame fun a ha => hframe a ?_)
      (Heap.read_write_same _ hlb)
    intro h
    subst h
    exact (List.nodup_append.mp hinv.cellsNodup).2.2 ha (by simp)
  · refine ⟨none, ?_, fun _ => rfl⟩
    simp only [queue2Threads_set_q]
    rw [hframe n (fun h => hn_bk h.symm)]
    exact hrn
  · rw [hmap]
    refine List.nodup_append.mpr ⟨hinv.cellsNodup, by simp, ?_⟩
    intro a ha hb
    rw [List.mem_singleton.mp hb] at ha
    exact hn_fresh ha
  · intro q m hm
    rcases Pusher.eq_or_ne_cases p q with rfl | hq
    · rw [queue2Threads_producer_set_same] at hm
      cases hm
    · rw [hset q hq] at hm
      refine hnew m (hinv.privFresh q m hm) ?_
      intro h
      subst h
      exact hinv.privDistinct q p hq m hm hn_mem
  · intro q r hqr m hm
    rcases Pusher.eq_or_ne_cases p q with rfl | hq
    · rw [queue2Threads_producer_set_same] at hm
      cases hm
    · rw [hset q hq] at hm
      rcases Pusher.eq_or_ne_cases p r with rfl | hr
      · rw [queue2Threads_producer_set_same]
        intro h
        cases h
      · rw [hset r hr]
        exact hinv.privDistinct q r hqr m hm
  · intro f hf
    have hf' : f ∈ s.consumer.pc.hand := by simpa using hf
    refine ⟨hnew f (hinv.handFresh f hf').1 ?_, fun q => ?_⟩
    · intro h
      subst h
      exact (hinv.handFresh f hf').2 p hn_mem
    · rcases Pusher.eq_or_ne_cases p q with rfl | hq
      · rw [queue2Threads_producer_set_same]
        intro h
        cases h
      · rw [hset q hq]
        exact (hinv.handFresh f hf').2 q
  · intro hall
    have := hall p
    rw [queue2Threads_producer_set_same] at this
    cases this
  · intro q
    rcases Pusher.eq_or_ne_cases p q with rfl | hq
    · rw [queue2Threads_producer_set_same]
      rfl
    · rw [hset q hq]
      simp only [queue2Threads_set_q]
      refine queue2PushPc_ok_not_holds (hoth q hq) (hinv.producers q) fun m hm => hframe m ?_
      intro h
      subst h
      exact hinv.privFresh q m hm (by simp)
  · simp only [queue2Threads_set_q, queue2Threads_set_consumer]
    refine queue2PopPc_ok_snoc _ hinv.consumer rfl fun f hf => hframe f ?_
    intro h
    subst h
    exact (hinv.handFresh f hf).1 (by simp)
  · simp only [queue2Threads_set_mutex_back]
    exact ⟨fun _ => ⟨p, by rw [queue2Threads_producer_set_same]; rfl⟩,
      fun _ => hinv.mutex_back.mpr ⟨p, hholds⟩⟩
  · intro q r hqr hq
    rcases Pusher.eq_or_ne_cases p q with rfl | hq'
    · rw [hset r (fun h => hqr h.symm)]
      exact hoth r (fun h => hqr h.symm)
    · rw [hset q hq', hoth q hq'] at hq
      cases hq
  · simpa using hinv.mutex_front
  · intro q
    have hvis : ((s.consumer.popped ++ hd ++ (cells ++ [(bk, some v)]).map Prod.snd).filterMap
        id) = (s.consumer.popped ++ hd ++ cells.map Prod.snd).filterMap id ++ [v] := by
      simp [List.filterMap_append]
    have hv : tag v = p := hinv.tags p v (by rw [htodo]; simp)
    simp only [queue2Threads_set_consumer]
    rw [hvis, List.filter_append]
    rcases Pusher.eq_or_ne_cases p q with rfl | hq
    · rw [queue2Threads_producer_set_same]
      have := hinv.order q
      simp only [Queue2Producer.pending, hpc, Queue2PushPc.linked, htodo] at this
      simp only [Queue2Producer.pending, Queue2PushPc.linked, htodo, List.tail_cons, if_true,
        List.filter_cons, hv, decide_True, List.filter_nil, List.append_assoc,
        List.singleton_append]
      simpa using this
    · rw [hset q hq]
      have hne : tag v ≠ q := by rw [hv]; exact fun h => hq h.symm
      simp only [List.filter_cons, hne, decide_False, List.filter_nil, List.append_nil]
      simpa using hinv.order q
  · intro q e he
    rcases Pusher.eq_or_ne_cases p q with rfl | hq
    · rw [queue2Threads_producer_set_same] at he
      exact hinv.tags q e he
    · rw [hset q hq] at he
      exact hinv.tags q e he

/-- Every step of a producer keeps the invariant. -/
theorem queue2Threads_stepProducer_inv {tag : E → Pusher} {all : Pusher → List E}
    {s : Queue2Threads E} {cells : List (Nat × Option E)} {bk : Nat}
    {hd : List (Option E)} (hinv : s.Inv tag all cells bk hd) (p : Pusher) :
    ∃ s' cells' bk', Queue2Threads.stepProducer p s = .ok s'
      ∧ s'.Inv tag all cells' bk' hd := by
  cases hpc : (s.producer p).pc with
  | entry =>
    obtain ⟨s', h1, h2⟩ := queue2Threads_entry_inv hinv p hpc
    exact ⟨s', cells, bk, h1, h2⟩
  | lock n =>
    obtain ⟨s', h1, h2⟩ := queue2Threads_lock_inv hinv p n hpc
    exact ⟨s', cells, bk, h1, h2⟩
  | data n =>
    obtain ⟨s', h1, h2⟩ := queue2Threads_data_inv hinv p n hpc
    exact ⟨s', cells, bk, h1, h2⟩
  | link n =>
    obtain ⟨s', v, h1, h2⟩ := queue2Threads_link_inv hinv p n hpc
    exact ⟨s', _, n, h1, h2⟩
  | back n =>
    obtain ⟨s', h1, h2⟩ := queue2Threads_back_inv hinv p n hpc
    exact ⟨s', cells, bk, h1, h2⟩
  | unlock =>
    obtain ⟨s', h1, h2⟩ := queue2Threads_unlock_inv hinv p hpc
    exact ⟨s', cells, bk, h1, h2⟩
  | notify =>
    obtain ⟨s', h1, h2⟩ := queue2Threads_notify_inv hinv p hpc
    exact ⟨s', cells, bk, h1, h2⟩

/-- A step of the consumer that keeps the producers and the sentinel: the invariant
holds again when the new position of the consumer fits the new list. -/
theorem queue2Threads_consumer_frame {tag : E → Pusher} {all : Pusher → List E}
    {s s' : Queue2Threads E} {cells cells' : List (Nat × Option E)} {bk : Nat}
    {hd hd' : List (Option E)} (hinv : s.Inv tag all cells bk hd)
    (hA : s'.producerA = s.producerA) (hB : s'.producerB = s.producerB)
    (hmb : s'.m_mutex_back = s.m_mutex_back)
    (hbackptr : s'.q.m_node_back = s.q.m_node_back)
    (hbk : s'.q.heap.read (some bk) = s.q.heap.read (some bk))
    (hprivs : ∀ q, ∀ n ∈ (s.producer q).pc.priv,
      s'.q.heap.read (some n) = s.q.heap.read (some n))
    (hchain : IsChain s'.q.heap s'.logicalFront cells' (some bk))
    (hnodup : (cells'.map Prod.fst ++ [bk]).Nodup)
    (hsub : ∀ a ∈ cells'.map Prod.fst, a ∈ cells.map Prod.fst)
    (hhand : ∀ f ∈ s'.consumer.pc.hand,
      f ∉ cells'.map Prod.fst ++ [bk] ∧ ∀ q, f ∉ (s.producer q).pc.priv)
    (hok : s'.consumer.pc.Ok s'.q cells' hd')
    (hmf : s'.m_mutex_front = s'.consumer.pc.holds)
    (hvis : (s'.consumer.popped ++ hd' ++ cells'.map Prod.snd).filterMap id
      = (s.consumer.popped ++ hd ++ cells.map Prod.snd).filterMap id) :
    s'.Inv tag all cells' bk hd' := by
  have hprod : ∀ q, s'.producer q = s.producer q := by
    intro q
    cases q
    · exact hA
    · exact hB
  constructor
  · exact hchain
  · obtain ⟨d, hr, hd0⟩ := hinv.sentinel
    refine ⟨d, by rw [hbk]; exact hr, fun hall => hd0 fun q => ?_⟩
    have := hall q
    rwa [hprod] at this
  · exact hnodup
  · intro q m hm
    rw [hprod] at hm
    intro hmem
    apply hinv.privFresh q m hm
    rcases List.mem_append.mp hmem with h | h
    · exact List.mem_append_left _ (hsub m h)
    · exact List.mem_append_right _ h
  · intro q r hqr m hm
    rw [hprod] at hm ⊢
    exact hinv.privDistinct q r hqr m hm
  · intro f hf
    refine ⟨(hhand f hf).1, fun q => ?_⟩
    rw [hprod]
    exact (hhand f hf).2 q
  · intro hall
    rw [hbackptr]
    exact hinv.back fun q => by
      have := hall q
      rwa [hprod] at this
  · intro q
    rw [hprod]
    exact queue2PushPc_ok_frame (hinv.producers q) (fun _ => hbk) (hprivs q)
  · exact hok
  · rw [hmb, hinv.mutex_back]
    constructor
    · rintro ⟨q, h⟩
      exact ⟨q, by rw [hprod]; exact h⟩
    · rintro ⟨q, h⟩
      exact ⟨q, by rwa [hprod] at h⟩
  · intro q r hqr hq
    rw [hprod] at hq ⊢
    exact hinv.exclusive q r hqr hq
  · exact hmf
  · intro q
    rw [hvis, hprod]
    exact hinv.order q
  · intro q e he
    rw [hprod] at he
    exact hinv.tags q e he

/-- Every step of the consumer keeps the invariant. -/
theorem queue2Threads_stepConsumer_inv {tag : E → Pusher} {all : Pusher → List E}
    {s : Queue2Threads E} {cells : List (Nat × Option E)} {bk : Nat}
    {hd : List (Option E)} (hinv : s.Inv tag all cells bk hd) :
    ∃ s' cells' hd', Queue2Threads.stepConsumer s = .ok s'
      ∧ s'.Inv tag all cells' bk hd' := by
  have hchain := hinv.chain
  have hcons := hinv.consumer
  have hmf := hinv.mutex_front
  cases hpc : s.consumer.pc with
  | entry =>
    rw [hpc] at hcons hmf
    have hlf : s.logicalFront = s.q.m_node_front := by
      simp only [Queue2Threads.logicalFront, hpc]
    cases hcalls : s.consumer.calls with
    | zero =>
      refine ⟨s, cells, hd, ?_, hinv⟩
      simp only [Queue2Threads.stepConsumer, hpc, hcalls, Exec.pure_eq]
    | succ k =>
      have hmf' : s.m_mutex_front = false := hmf
      refine ⟨{ s with m_mutex_front := true, consumer := { s.consumer with pc := .test } },
        cells, hd, ?_, ?_⟩
      · simp only [Queue2Threads.stepConsumer, hpc, hcalls, hmf', Exec.pure_eq]
        rfl
      · refine queue2Threads_consumer_frame hinv rfl rfl rfl rfl rfl (fun _ _ _ => rfl)
          ?_ hinv.cellsNodup (fun _ h => h) (fun f hf => by cases hf) hcons rfl rfl
        show IsChain s.q.heap s.q.m_node_front cells (some bk)
        rw [← hlf]
        exact hchain
  | test =>
    rw [hpc] at hcons hmf
    have hlf : s.logicalFront = s.q.m_node_front := by
      simp only [Queue2Threads.logicalFront, hpc]
    rw [hlf] at hchain
    have hhd : hd = [] := hcons
    subst hhd
    cases cells with
    | nil =>
      have hfront : s.q.m_node_front = some bk := hchain
      obtain ⟨d, hr, _⟩ := hinv.sentinel
      refine ⟨{ s with
          m_mutex_front := false
          consumer := ⟨.entry, s.consumer.calls - 1, s.consumer.popped ++ [none]⟩ },
        [], [], ?_, ?_⟩
      · simp only [Queue2Threads.stepConsumer, hpc, hfront, hr, Exec.ok_bind, Exec.pure_eq]
      · refine queue2Threads_consumer_frame hinv rfl rfl rfl rfl rfl (fun _ _ _ => rfl)
          ?_ hinv.cellsNodup (fun _ h => h) (fun f hf => by cases hf) rfl rfl ?_
        · exact hfront
        · simp [List.filterMap_append]
    | cons c rest =>
      obtain ⟨hfront, nx, hr, hrest⟩ := hchain
      obtain ⟨a, ha⟩ := hrest.ptr_some
      subst ha
      refine ⟨{ s with consumer := { s.consumer with pc := .take } }, c :: rest, [], ?_, ?_⟩
      · simp only [Queue2Threads.stepConsumer, hpc, hfront, hr, Exec.ok_bind, Exec.pure_eq]
      · refine queue2Threads_consumer_frame hinv rfl rfl rfl rfl rfl (fun _ _ _ => rfl)
          ?_ hinv.cellsNodup (fun _ h => h) (fun f hf => by cases hf) ⟨rfl, by simp⟩ hmf rfl
        exact ⟨hfront, some a, hr, hrest⟩
  | take =>
    rw [hpc] at hcons hmf
    have hlf : s.logicalFront = s.q.m_node_front := by
      simp only [Queue2Threads.logicalFront, hpc]
    rw [hlf] at hchain
    refine ⟨{ s with
        q := { s.q with m_node_front := none }
        consumer := { s.consumer with pc := .advance s.q.m_node_front } },
      cells, hd, ?_, ?_⟩
    · simp only [Queue2Threads.stepConsumer, hpc, Exec.pure_eq]
    · refine queue2Threads_consumer_frame hinv rfl rfl rfl rfl rfl (fun _ _ _ => rfl)
        hchain hinv.cellsNodup (fun _ h => h) (fun f hf => by cases hf)
        ⟨hcons.1, hcons.2, rfl⟩ hmf rfl
  | advance F =>
    rw [hpc] at hcons hmf
    have hlf : s.logicalFront = F := by
      simp only [Queue2Threads.logicalFront, hpc]
    rw [hlf] at hchain
    obtain ⟨hhd, hne, hnull⟩ := hcons
    subst hhd
    cases cells with
    | nil => exact absurd rfl hne
    | cons c rest =>
      obtain ⟨hF, nx, hr, hrest⟩ := hchain
      subst hF
      have hnd := hinv.cellsNodup
      simp only [List.map_cons, List.cons_append, List.nodup_cons] at hnd
      have hlc : c.1 < s.q.heap.cells.length := Heap.read_ok_lt hr
      have hframe : ∀ a, a ≠ c.1 →
          (s.q.heap.write c.1 ⟨c.2, none⟩).read (some a) = s.q.heap.read (some a) :=
        fun a h => Heap.read_write_ne _ (fun h' => h h'.symm)
      refine ⟨{ s with
          q := { s.q with heap := s.q.heap.write c.1 ⟨c.2, none⟩, m_node_front := nx }
          consumer := { s.consumer with pc := .ret (some c.1) } },
        rest, [c.2], ?_, ?_⟩
      · simp only [Queue2Threads.stepConsumer, hpc, hr, Exec.ok_bind]
        rw [Heap.setNext_eq _ hr]
        simp only [Exec.ok_bind, hnull, Heap.release_none, Exec.pure_eq]
      · refine queue2Threads_consumer_frame hinv rfl rfl rfl rfl ?_ ?_ ?_ hnd.2 ?_ ?_ ?_ hmf ?_
        · refine hframe bk ?_
          intro h
          exact hnd.1 (by rw [← h]; simp)
        · intro q n hn
          refine hframe n ?_
          intro h
          subst h
          exact hinv.privFresh q _ hn (by simp)
        · show IsChain (s.q.heap.write c.1 ⟨c.2, none⟩) nx rest (some bk)
          refine hrest.frame fun a ha => hframe a ?_
          intro h
          subst h
          exact hnd.1 (List.mem_append_left _ ha)
        · intro a ha
          simp only [List.map_cons, List.mem_cons]
          exact Or.inr ha
        · intro f hf
          simp only [Queue2PopPc.hand, List.mem_singleton] at hf
          subst hf
          refine ⟨hnd.1, fun q hm => ?_⟩
          exact hinv.privFresh q _ hm (by simp)
        · exact ⟨c.1, c.2, rfl, Heap.read_write_same _ hlc, rfl⟩
        · simp [List.filterMap_append]
  | ret F =>
    rw [hpc] at hcons hmf
    have hlf : s.logicalFront = s.q.m_node_front := by
      simp only [Queue2Threads.logicalFront, hpc]
    rw [hlf] at hchain
    obtain ⟨f, d, hF, hr, hhd⟩ := hcons
    subst hF
    subst hhd
    have hfhand : f ∈ s.consumer.pc.hand := by rw [hpc]; simp [Queue2PopPc.hand]
    have hfresh := hinv.handFresh f hfhand
    have hlf' : f < s.q.heap.cells.length := Heap.read_ok_lt hr
    have hr1 : (s.q.heap.write f ⟨none, none⟩).read (some f) = .ok ⟨none, none⟩ :=
      Heap.read_write_same _ hlf'
    have hframe : ∀ a, a ≠ f →
        ((s.q.heap.write f ⟨none, none⟩).free f).read (some a) = s.q.heap.read (some a) := by
      intro a h
      rw [Heap.read_free_ne (fun h' => h h'.symm), Heap.read_write_ne _ (fun h' => h h'.symm)]
    refine ⟨{ s with
        q := { s.q with heap := (s.q.heap.write f ⟨none, none⟩).free f }
        m_mutex_front := false
        consumer := ⟨.entry, s.consumer.calls - 1, s.consumer.popped ++ [d]⟩ },
      cells, [], ?_, ?_⟩
    · simp only [Queue2Threads.stepConsumer, hpc, hr, Exec.ok_bind]
      rw [Heap.setData_eq _ hr]
      simp only [Exec.ok_bind, Heap.release_single hr1 rfl, Exec.pure_eq]
    · refine queue2Threads_consumer_frame hinv rfl rfl rfl rfl ?_ ?_ ?_ hinv.cellsNodup
        (fun _ h => h) (fun f hf => by cases hf) rfl rfl ?_
      · refine hframe bk ?_
        intro h
        exact hfresh.1 (by rw [← h]; simp)
      · intro q n hn
        refine hframe n ?_
        intro h
        subst h
        exact hfresh.2 q hn
      · show IsChain ((s.q.heap.write f ⟨none, none⟩).free f) s.q.m_node_front cells (some bk)
        refine hchain.frame fun a ha => hframe a ?_
        intro h
        subst h
        exact hfresh.1 (List.mem_append_left _ ha)
      · simp [List.filterMap_append]

/-- Every step of a thread keeps the invariant. -/
theorem queue2Threads_step_inv {tag : E → Pusher} {all : Pusher → List E}
    {s : Queue2Threads E} {cells : List (Nat × Option E)} {bk : Nat}
    {hd : List (Option E)} (hinv : s.Inv tag all cells bk hd) (t : Queue2Thread) :
    ∃ s' cells' bk' hd', Queue2Threads.step t s = .ok s'
      ∧ s'.Inv tag all cells' bk' hd' := by
  cases t with
  | producer p =>
    obtain ⟨s', cells', bk', h1, h2⟩ := queue2Threads_stepProducer_inv hinv p
    exact ⟨s', cells', bk', hd, h1, h2⟩
  | consumer =>
    obtain ⟨s', cells', hd', h1, h2⟩ := queue2Threads_stepConsumer_inv hinv
    exact ⟨s', cells', bk, hd', h1, h2⟩

/-- Every schedule runs to its end, and the state it reaches satisfies the invariant. -/
theorem queue2Threads_run_inv {tag : E → Pusher} {all : Pusher → List E}
    (schedule : List Queue2Thread) :
    ∀ (s : Queue2Threads E) (cells : List (Nat × Option E)) (bk : Nat)
      (hd : List (Option E)), s.Inv tag all cells bk hd →
      ∃ s' cells' bk' hd', Queue2Threads.run schedule s = .ok s'
        ∧ s'.Inv tag all cells' bk' hd' := by
  induction schedule with
  | nil =>
    intro s cells bk hd hinv
    exact ⟨s, cells, bk, hd, rfl, hinv⟩
  | cons t ts ih =>
    intro s cells bk hd hinv
    obtain ⟨s1, cells1, bk1, hd1, hstep, hinv1⟩ := queue2Threads_step_inv hinv t
    obtain ⟨s', cells', bk', hd', hrun, hinv'⟩ := ih s1 cells1 bk1 hd1 hinv1
    refine ⟨s', cells', bk', hd', ?_, hinv'⟩
    simp only [Queue2Threads.run, hstep, Exec.ok_bind, hrun]

/-- The payloads of one producer in a list of pointers followed by the elements it has
not linked yet are its elements, when the tagged elements are. -/
theorem queue2Threads_payloadsOf_split (p : Pusher)
    (X Y : List (Option (Pusher × Nat))) (pend : List (Pusher × Nat)) (xs : List Nat)
    (h : ((X ++ Y).filterMap id).filter (fun e => e.1 = p) ++ pend = xs.map (Prod.mk p)) :
    Queue2Threads.payloadsOf p X ++ (Queue2Threads.payloadsOf p Y ++ pend.map Prod.snd)
      = xs := by
  have := congrArg (List.map Prod.snd) h
  simp only [List.filterMap_append, List.filter_append, List.map_append, List.map_map] at this
  have hid : (Prod.snd ∘ Prod.mk p : Nat → Nat) = id := rfl
  rw [hid, List.map_id, List.append_assoc] at this
  exact this

/-- C18: two producer threads push the tagged elements `(A, x)` for `x` in `xs` and
`(B, y)` for `y` in `ys` into a new `ThreadSafeQueue2`, each in the order of its list,
and one consumer thread calls `tryPop` `calls` times. For every interleaving `schedule`
of the statements of the three threads the run reaches a state without fault, and in
that state the payloads received from each producer are the first elements of its list,
in the order of the list; they are strictly increasing when the list is. When all
threads have finished, the payloads received from a producer followed by its payloads
still stored are exactly its list. -/
theorem queue2_per_producer_fifo (xs ys : List Nat) (calls : Nat)
    (schedule : List Queue2Thread) :
    ∃ s, Queue2Threads.run schedule
          (Queue2Threads.init (xs.map (Prod.mk Pusher.A)) (ys.map (Prod.mk Pusher.B)) calls)
          = .ok s
      ∧ (∃ later, s.received Pusher.A ++ later = xs)
      ∧ (∃ later, s.received Pusher.B ++ later = ys)
      ∧ (xs.Sorted (· < ·) → (s.received Pusher.A).Sorted (· < ·))
      ∧ (ys.Sorted (· < ·) → (s.received Pusher.B).Sorted (· < ·))
      ∧ (s.finished = true → ∃ stored, ThreadSafeQueue2.contents s.q = .ok stored
          ∧ Queue2Threads.payloadsOf Pusher.A (s.consumer.popped ++ stored) = xs
          ∧ Queue2Threads.payloadsOf Pusher.B (s.consumer.popped ++ stored) = ys) := by
  obtain ⟨s, cells, bk, hd, hrun, hinv⟩ :=
    queue2Threads_run_inv schedule _ [] 0 []
      (queue2Threads_init_inv (Prod.fst : Pusher × Nat → Pusher)
        (xs.map (Prod.mk Pusher.A)) (ys.map (Prod.mk Pusher.B)) calls
        (by simp) (by simp))
  have hA := queue2Threads_payloadsOf_split Pusher.A s.consumer.popped
    (hd ++ cells.map Prod.snd) (s.producer Pusher.A).pending xs
    (by have := hinv.order Pusher.A; rwa [List.append_assoc] at this)
  have hB := queue2Threads_payloadsOf_split Pusher.B s.consumer.popped
    (hd ++ cells.map Prod.snd) (s.producer Pusher.B).pending ys
    (by have := hinv.order Pusher.B; rwa [List.append_assoc] at this)
  refine ⟨s, hrun, ⟨_, hA⟩, ⟨_, hB⟩, ?_, ?_, ?_⟩
  · intro hs
    have hsub : (s.received Pusher.A).Sublist xs := by
      rw [← hA]
      exact List.sublist_append_left _ _
    exact List.Pairwise.sublist hsub hs
  · intro hs
    have hsub : (s.received Pusher.B).Sublist ys := by
      rw [← hB]
      exact List.sublist_append_left _ _
    exact List.Pairwise.sublist hsub hs
  · intro hfin
    simp only [Queue2Threads.finished, Bool.and_eq_true, decide_eq_true_eq,
      List.isEmpty_iff] at hfin
    obtain ⟨⟨⟨hpa, hta⟩, hpb, htb⟩, hpc, _⟩ := hfin
    have hcons := hinv.consumer
    rw [hpc] at hcons
    have hhd : hd = [] := hcons
    subst hhd
    have hnolink : ∀ p, (s.producer p).pc.atLink = false := by
      intro p
      cases p
      · show s.producerA.pc.atLink = false
        rw [hpa]; rfl
      · show s.producerB.pc.atLink = false
        rw [hpb]; rfl
    have hnoback : ∀ p, (s.producer p).pc.atBack = false := by
      intro p
      cases p
      · show s.producerA.pc.atBack = false
        rw [hpa]; rfl
      · show s.producerB.pc.atBack = false
        rw [hpb]; rfl
    obtain ⟨d, hr, hd0⟩ := hinv.sentinel
    have hdn := hd0 hnolink
    subst hdn
    have hlf : s.logicalFront = s.q.m_node_front := by
      simp only [Queue2Threads.logicalFront, hpc]
    have hchain := hinv.chain
    rw [hlf] at hchain
    have hsl : SentinelList s.q.heap s.q.m_node_front s.q.m_node_back cells :=
      ⟨bk, hinv.back hnoback, hchain, hr, hinv.cellsNodup⟩
    refine ⟨cells.map Prod.snd, hsl.contents_eq, ?_, ?_⟩
    · have h := hinv.order Pusher.A
      have hpend : (s.producer Pusher.A).pending = [] := by
        show s.producerA.pending = []
        simp only [Queue2Producer.pending, hpa, Queue2PushPc.linked, hta]
        rfl
      rw [hpend] at h
      have := queue2Threads_payloadsOf_split Pusher.A
        (s.consumer.popped ++ cells.map Prod.snd) [] [] xs (by simpa using h)
      simpa [Queue2Threads.payloadsOf] using this
    · have h := hinv.order Pusher.B
      have hpend : (s.producer Pusher.B).pending = [] := by
        show s.producerB.pending = []
        simp only [Queue2Producer.pending, hpb, Queue2PushPc.linked, htb]
        rfl
      rw [hpend] at h
      have := queue2Threads_payloadsOf_split Pusher.B
        (s.consumer.popped ++ cells.map Prod.snd) [] [] ys (by simpa using h)
      simpa [Queue2Threads.payloadsOf] using this

/-- An interleaving of the three threads on a new queue, with producer B finding
`m_mutex_back` held twice and the consumer finding the queue empty once: every thread
finishes, and the consumer has received null, then the element of A, then the element
of B. -/
theorem queue2Threads_interleaved_example :
    ∃ s, Queue2Threads.run
          [.producer .A, .producer .B, .producer .A, .producer .B, .producer .A, .consumer,
            .consumer, .producer .A, .producer .A, .producer .B, .producer .A, .producer .B,
            .producer .A, .consumer, .consumer, .consumer, .consumer, .producer .B,
            .producer .B, .consumer, .producer .B, .producer .B, .producer .B, .consumer,
            .consumer, .consumer, .consumer, .consumer]
          (Queue2Threads.init [(Pusher.A, 1)] [(Pusher.B, 2)] 3) = .ok s
      ∧ s.finished = true
      ∧ s.consumer.popped = [none, some (Pusher.A, 1), some (Pusher.B, 2)] :=
  ⟨_, rfl, by decide, by decide⟩

end ConcurrentQueue2Proofs

end ThreadsafeContainers
